import Mathlib

/-!
# Path resolution of `AbstractPage` (src/po/AbstractPage.js)

A shallow embedding of the page-object path resolver:

* JavaScript strings are lists of characters (`List Char`);
* the two regular expressions of the source are values of a small regular
  expression syntax `Re`, run by a backtracking matcher that returns the
  successes in the priority order of a backtracking engine;
* the driver objects (`by.*` locators, `ElementFinder`, `ElementArrayFinder`)
  are terms of the free algebras `By` and `Finder`: a finder records the driver
  calls that built it;
* a thrown `Error` is the `Except.error` of `Except Err`;
* the resolver is given twice more with an explicit further result, the number of
  calls of `_getComponent` and the list of the method calls made on finders.
-/

namespace AbstractPage

/-! ## Characters -/

/-- Line terminators of ECMAScript: the characters `.` does not match. -/
def isLineTerminator (c : Char) : Bool :=
  c.toNat = 0x0A || c.toNat = 0x0D || c.toNat = 0x2028 || c.toNat = 0x2029

/-- The class `\s` of ECMAScript: white space and line terminators. -/
def isSpace (c : Char) : Bool :=
  c.toNat = 0x09 || c.toNat = 0x0A || c.toNat = 0x0B || c.toNat = 0x0C || c.toNat = 0x0D ||
  c.toNat = 0x20 || c.toNat = 0xA0 || c.toNat = 0x1680 ||
  (0x2000 ≤ c.toNat && c.toNat ≤ 0x200A) ||
  c.toNat = 0x2028 || c.toNat = 0x2029 || c.toNat = 0x202F || c.toNat = 0x205F ||
  c.toNat = 0x3000 || c.toNat = 0xFEFF

/-- The class `.` (no `s` flag): any character but a line terminator. -/
def isDot (c : Char) : Bool := !isLineTerminator c

/-- The class `[!\$]`. -/
def isMarker (c : Char) : Bool := c.toNat = 0x21 || c.toNat = 0x24

/-! ## Regular expressions -/

/-- The regular expression constructs the source uses. Quantifiers are greedy and
apply to a character class, as in `\s*`, `\s+`, `.+` and `[!\$]?`. -/
inductive Re where
  | lit (w : List Char)
  | opt (p : Char → Bool)
  | star (p : Char → Bool)
  | plus (p : Char → Bool)
  | alt (a b : Re)
  | seq (a b : Re)
  | cap (i : Nat) (r : Re)

/-- Capture groups: `caps i` is the text of group `i`, `none` when unset. -/
abbrev Caps := Nat → Option (List Char)

/-- Record group `i`. -/
def Caps.set (c : Caps) (i : Nat) (w : List Char) : Caps :=
  fun j => if j = i then some w else c j

/-- No group set. -/
def Caps.empty : Caps := fun _ => none

/-- The ways `p+` can match at the start of `s`, longest first, each given by the
input left over. -/
def plusRests (p : Char → Bool) : List Char → List (List Char)
  | [] => []
  | c :: t => if p c then plusRests p t ++ [t] else []

/-- The ways `p*` can match at the start of `s`, longest first. -/
def starRests (p : Char → Bool) (s : List Char) : List (List Char) :=
  plusRests p s ++ [s]

/-- The ways `p?` can match at the start of `s`: one character first, then none. -/
def optRests (p : Char → Bool) : List Char → List (List Char)
  | [] => [[]]
  | c :: t => if p c then [t, c :: t] else [c :: t]

/-- Strip the literal `w` from the start of `s`. -/
def stripLit : List Char → List Char → Option (List Char)
  | [], s => some s
  | _ :: _, [] => none
  | a :: w, c :: s => if a = c then stripLit w s else none

/-- All matches of `r` at the start of `s`, in the order a backtracking engine
tries them; a match is the input left over and the capture groups. -/
def Re.run : Re → List Char → Caps → List (List Char × Caps)
  | .lit w, s, c =>
      match stripLit w s with
      | some s' => [(s', c)]
      | none => []
  | .opt p, s, c => (optRests p s).map (fun s' => (s', c))
  | .star p, s, c => (starRests p s).map (fun s' => (s', c))
  | .plus p, s, c => (plusRests p s).map (fun s' => (s', c))
  | .alt a b, s, c => a.run s c ++ b.run s c
  | .seq a b, s, c => (a.run s c).flatMap (fun m => b.run m.1 m.2)
  | .cap i r, s, c =>
      (r.run s c).map (fun m => (m.1, m.2.set i (s.take (s.length - m.1.length))))

/-- The first match of `r` starting exactly at the start of `s`. -/
def Re.matchHere (r : Re) (s : List Char) : Option (List Char × Caps) :=
  (r.run s Caps.empty).head?

/-- The result of `String.prototype.match` without the `g` flag: the leftmost
position at which `r` matches, as the text before the match, the input left after
it and the capture groups. -/
def Re.exec (r : Re) : List Char → Option (List Char × List Char × Caps)
  | [] => (r.matchHere []).map (fun m => ([], m.1, m.2))
  | c :: t =>
      match r.matchHere (c :: t) with
      | some m => some ([], m.1, m.2)
      | none => (r.exec t).map (fun m => (c :: m.1, m.2.1, m.2.2))

/-- The regular expression `ELEMENT_OF_COLLECTION_REGEXP`,
`/#([!\$]?.+)\s+(in|of)\s+(.+)/`. -/
def ELEMENT_OF_COLLECTION_REGEXP : Re :=
  .seq (.lit ['#'])
    (.seq (.cap 1 (.seq (.opt isMarker) (.plus isDot)))
      (.seq (.plus isSpace)
        (.seq (.cap 2 (.alt (.lit ['i', 'n']) (.lit ['o', 'f'])))
          (.seq (.plus isSpace) (.cap 3 (.plus isDot))))))

/-- The regular expression `TOKEN_SPLIT_REGEXP`, `/\s*>\s*/`. -/
def TOKEN_SPLIT_REGEXP : Re :=
  .seq (.star isSpace) (.seq (.lit ['>']) (.star isSpace))

/-- The loop of `String.prototype.split` with a regular expression separator:
`cur` is the text since the end of the last separator (reversed), `skip` the
number of characters of the current separator still to pass. A separator that
matches the empty string right after the last one only moves the position on. -/
def splitGo (r : Re) : List Char → Nat → List Char → List (List Char)
  | cur, _, [] => [cur.reverse]
  | cur, skip + 1, _ :: t => splitGo r cur skip t
  | cur, 0, c :: t =>
      match r.matchHere (c :: t) with
      | some m =>
          if (c :: t).length - m.1.length = 0 then
            if cur = [] then splitGo r [c] 0 t else cur.reverse :: splitGo r [c] 0 t
          else cur.reverse :: splitGo r [] ((c :: t).length - m.1.length - 1) t
      | none => splitGo r (c :: cur) 0 t

/-- Model of `String.prototype.split` with a separator that has no capture group. -/
def split (r : Re) (s : List Char) : List (List Char) :=
  match s with
  | [] => if (r.matchHere []).isSome then [] else [[]]
  | _ => splitGo r [] 0 s

/-! ## Numbers -/

/-- A JavaScript Number as far as the resolver meets one: a double whose value is
the integer `i`, `NaN`, or an infinity. The resolver makes Numbers with
`Number.parseInt` and `index - 1` only, here `parseInt` and `JSNumber.pred`, which
give `int i` for integers `i` that are doubles. The sign of zero is not kept: the
resolver only compares an index with `undefined` and subtracts 1 from it, and both
treat the two zeros alike. -/
inductive JSNumber where
  | int (i : Int)
  | nan
  | inf (negative : Bool)
  deriving DecidableEq, Repr

/-- The number of low bits a natural number has beyond 53 bits: how often `m` is
halved until it is below `2 ^ 53`; the first argument bounds the recursion. -/
def excessBits : Nat → Nat → Nat
  | 0, _ => 0
  | fuel + 1, m => if m < 2 ^ 53 then 0 else excessBits fuel (m / 2) + 1

/-- The natural number nearest to `m` that has at most 53 significant bits, a tie
going to the even significand: the rounding of IEEE 754 doubles, before overflow. -/
def roundToDouble (m : Nat) : Nat :=
  let e := excessBits m m
  let q := m / 2 ^ e
  let r := m % 2 ^ e
  if 2 * r < 2 ^ e then q * 2 ^ e
  else if 2 ^ e < 2 * r then (q + 1) * 2 ^ e
  else (q + q % 2) * 2 ^ e

/-- The magnitude `2 ^ 1024`, the least that no finite double reaches. -/
def doubleLimit : Nat := (2 ^ 256) ^ 4

/-- The Number value of a mathematical integer: the nearest double, and an infinity
when the rounded magnitude reaches `2 ^ 1024`. -/
def JSNumber.ofInt (z : Int) : JSNumber :=
  if roundToDouble z.natAbs < doubleLimit then
    .int (if z < 0 then - (roundToDouble z.natAbs : Int) else roundToDouble z.natAbs)
  else .inf (decide (z < 0))

/-- The value of a digit in radix `r`, if the character is one. -/
def digitValue (r : Nat) (c : Char) : Option Nat :=
  let d :=
    if 0x30 ≤ c.toNat ∧ c.toNat ≤ 0x39 then some (c.toNat - 0x30)
    else if 0x61 ≤ c.toNat ∧ c.toNat ≤ 0x7A then some (c.toNat - 0x61 + 10)
    else if 0x41 ≤ c.toNat ∧ c.toNat ≤ 0x5A then some (c.toNat - 0x41 + 10)
    else none
  match d with
  | some v => if v < r then some v else none
  | none => none

/-- Read the longest run of radix-`r` digits: the value so far and whether a digit
was seen. -/
def readDigits (r : Nat) : Nat → Bool → List Char → Nat × Bool
  | acc, seen, [] => (acc, seen)
  | acc, seen, c :: t =>
      match digitValue r c with
      | some v => readDigits r (acc * r + v) true t
      | none => (acc, seen)

/-- The sign of `parseInt`: whether the text starts with `-`, and the text after an
optional sign `-` or `+`. -/
def stripSign : List Char → Bool × List Char
  | '-' :: t => (true, t)
  | '+' :: t => (false, t)
  | s => (false, s)

/-- The radix of `parseInt` with no radix argument: 16 after a prefix `0x` / `0X`,
which is dropped, and 10 otherwise. -/
def stripRadix : List Char → Nat × List Char
  | '0' :: 'x' :: t => (16, t)
  | '0' :: 'X' :: t => (16, t)
  | s => (10, s)

/-- Model of `Number.parseInt(string)` with no radix argument: leading white space
is dropped, then an optional sign, then an optional `0x` / `0X` prefix (radix 16,
otherwise radix 10), then the longest run of digits; no digit gives `NaN`, and the
integer the digits denote is returned as a Number, that is rounded to the nearest
double (`9007199254740993` reads as `9007199254740992`, a 1 followed by 400 zeros
as `Infinity`). Beyond 20 significant decimal digits ECMAScript lets an implementation
replace the further digits by zeros before rounding; the model rounds the exact
value. -/
def parseInt (s : List Char) : JSNumber :=
  let signed := stripSign (s.dropWhile isSpace)
  let based := stripRadix signed.2
  match readDigits based.1 0 false based.2 with
  | (v, true) => JSNumber.ofInt (if signed.1 then - (v : Int) else v)
  | (_, false) => .nan

/-- The result of `number - 1` in Number arithmetic: the exact difference rounded
to the nearest double. -/
def JSNumber.pred : JSNumber → JSNumber
  | .int i => JSNumber.ofInt (i - 1)
  | .nan => .nan
  | .inf negative => .inf negative

/-! ## Parsed tokens -/

/-- Class `ParsedToken`: `none` in `index` and `innerText` is `undefined`; the
field `alias_` is the property `alias` of the source. -/
structure ParsedToken where
  alias_ : List Char
  index : Option JSNumber
  innerText : Option (List Char)
  deriving DecidableEq

/-- The text of a capture group of a successful match (`parsedTokens[i]`). -/
def group (c : Caps) (i : Nat) : List Char := (c i).getD []

/-- The constructor of `ParsedToken`. -/
def ParsedToken.new (token : List Char) : ParsedToken :=
  match ELEMENT_OF_COLLECTION_REGEXP.exec token with
  | some parsedTokens =>
      let value := group parsedTokens.2.2 1
      { index := if group parsedTokens.2.2 2 = ['o', 'f'] then some (parseInt value) else none
        innerText := if group parsedTokens.2.2 2 = ['i', 'n'] then some value else none
        alias_ := group parsedTokens.2.2 3 }
  | none => { alias_ := token, index := none, innerText := none }

/-- Method `isElementOfCollection`. -/
def ParsedToken.isElementOfCollection (t : ParsedToken) : Bool :=
  t.index.isSome || t.innerText.isSome

/-- Method `hasTokenOf`. -/
def ParsedToken.hasTokenOf (t : ParsedToken) : Bool := t.index.isSome

/-- Method `hasTokenIn`. -/
def ParsedToken.hasTokenIn (t : ParsedToken) : Bool := t.innerText.isSome

/-! ## Registered entries -/

/-- What the resolver reads of a registered `Element`, `Collection` or `Component`
(and of the page itself, of which only `elements` is read). The classes of the
entries are not part of `AbstractPage.js`, so every property the resolver reads is
a field: `selectorType` and `text` may be `undefined` (`none`), and `elements`, the
`Map` from alias to entry in insertion order, may be missing (`none`). -/
inductive Entry where
  | mk (selector : List Char) (selectorType : Option (List Char))
      (text : Option (List Char)) (isCollection : Bool)
      (elements : Option (List (List Char × Entry)))

/-- Property `selector`. -/
def Entry.selector : Entry → List Char
  | .mk s _ _ _ _ => s

/-- Property `selectorType`. -/
def Entry.selectorType : Entry → Option (List Char)
  | .mk _ t _ _ _ => t

/-- Property `text`. -/
def Entry.text : Entry → Option (List Char)
  | .mk _ _ x _ _ => x

/-- Property `isCollection`, as its truth value. -/
def Entry.isCollection : Entry → Bool
  | .mk _ _ _ c _ => c

/-- Property `elements`. -/
def Entry.elements : Entry → Option (List (List Char × Entry))
  | .mk _ _ _ _ m => m

/-- A page: an object whose `elements` map is `m`. -/
def page (m : List (List Char × Entry)) : Entry := .mk [] none none false (some m)

/-- Look up a key of a `Map` (`has` followed by `get`). -/
def mapGet : List (List Char × Entry) → List Char → Option Entry
  | [], _ => none
  | (k, v) :: m, key => if k = key then some v else mapGet m key

/-! ## Driver objects -/

/-- Locators built by the driver's `by` object; `undefined` is the JavaScript
value `undefined` passed where a locator is expected. -/
inductive By where
  | css (selector : List Char)
  | xpath (selector : List Char)
  | js (selector : List Char)
  | cssContainingText (selector : List Char) (text : List Char)
  | undefined
  deriving DecidableEq

/-- Property `using` of a locator: set by the WebDriver locators, absent on the
locators of Protractor (`by.js`, `by.cssContainingText`). -/
def By.using : By → Option (List Char)
  | .css _ => some "css selector".toList
  | .xpath _ => some "xpath".toList
  | _ => none

/-- Property `value` of a locator. -/
def By.value : By → List Char
  | .css s => s
  | .xpath s => s
  | _ => []

/-- Finders of the driver, as the calls that built them: `doc b` is the global
`element(b)`, `filterIncludes f s` is
`f.filter(elem => elem.getText().then(text => text.includes(s)))`. -/
inductive Finder where
  | doc (b : By)
  | element (f : Finder) (b : By)
  | all (f : Finder) (b : By)
  | get (f : Finder) (i : JSNumber)
  | filterIncludes (f : Finder) (s : List Char)
  | first (f : Finder)
  deriving DecidableEq

/-- Whether a finder has a `count` member: the `ElementArrayFinder`s (results of
`all` and `filter`) have one, the `ElementFinder`s (results of `element`, `get`
and `first`) have none. -/
def Finder.count : Finder → Bool
  | .all _ _ => true
  | .filterIncludes _ _ => true
  | _ => false

/-- Method `locator()` of a finder: the locator it was built with. -/
def Finder.locator : Finder → By
  | .doc b => b
  | .element _ b => b
  | .all _ b => b
  | .get f _ => f.locator
  | .filterIncludes f _ => f.locator
  | .first f => f.locator

/-- The finder on which the driver calls that built a finder were made: the
receiver of its `all` or `element` call. -/
def Finder.scope : Finder → Option Finder
  | .doc _ => none
  | .element f _ => some f
  | .all f _ => some f
  | .get f _ => f.scope
  | .filterIncludes f _ => f.scope
  | .first f => f.scope

/-- The number of `filter` calls among the driver calls that built a finder. -/
def Finder.filterSteps : Finder → Nat
  | .doc _ => 0
  | .element f _ => f.filterSteps
  | .all f _ => f.filterSteps
  | .get f _ => f.filterSteps
  | .filterIncludes f _ => f.filterSteps + 1
  | .first f => f.filterSteps

/-! ## Errors -/

/-- The errors the resolver raises; `typeError` is the `TypeError` of reading a
property of `undefined`. -/
inductive Err where
  | noSuchElement (a : List Char)
  | notCollection (a : List Char)
  | textNotDefined
  | selectorTypeNotDefined (t : Option (List Char))
  | typeError
  deriving DecidableEq

/-- The message of an error. -/
def Err.message : Err → List Char
  | .noSuchElement a => "There is no such element: \x27".toList ++ a ++ "\x27".toList
  | .notCollection a => a ++ " is not collection".toList
  | .textNotDefined => "Text is not defined".toList
  | .selectorTypeNotDefined t =>
      "Selector type ".toList ++ t.getD "undefined".toList ++ " is not defined".toList
  | .typeError => "TypeError".toList

/-! ## The resolver -/

/-- Method `_getComponent`. -/
def _getComponent (currentComponent : Entry) (token : List Char) : Except Err Entry :=
  let parsedToken := ParsedToken.new token
  match currentComponent.elements with
  | none => .error .typeError
  | some m =>
      match mapGet m parsedToken.alias_ with
      | some e => .ok e
      | none => .error (.noSuchElement parsedToken.alias_)

/-- Method `_getSelector`. -/
def _getSelector (element : Entry) : Except Err By :=
  if element.selectorType = some "css".toList then .ok (.css element.selector)
  else if element.selectorType = some "xpath".toList then .ok (.xpath element.selector)
  else if element.selectorType = some "js".toList then .ok (.js element.selector)
  else if element.selectorType = some "cssContainingText".toList then
    match element.text with
    | some (c :: t) => .ok (.cssContainingText element.selector (c :: t))
    | _ => .error .textNotDefined
  else .error (.selectorTypeNotDefined element.selectorType)

/-- Method `_isLocatorTranformable`. -/
def _isLocatorTranformable (locator : By) : Bool :=
  locator.using = some "css selector".toList

/-- Method `_transformLocatorByText`. -/
def _transformLocatorByText (locator : By) (text : List Char) : By :=
  if locator.using = some "css selector".toList then .cssContainingText locator.value text
  else .undefined

/-- The constant `ROOT_ELEMENT_SELECTOR`, `by.css("html")`. -/
def ROOT_ELEMENT_SELECTOR : By := .css "html".toList

/-- The scope root: `currentProtractorElement ? currentProtractorElement :
element(ROOT_ELEMENT_SELECTOR)`. -/
def rootElement (currentProtractorElement : Option Finder) : Finder :=
  match currentProtractorElement with
  | some f => f
  | none => .doc ROOT_ELEMENT_SELECTOR

/-- Method `_getElementOfCollection`; the result `none` is `undefined`. -/
def _getElementOfCollection (currentProtractorElement : Option Finder)
    (currentComponent : Entry) (parsedToken : ParsedToken) : Except Err (Option Finder) := do
  let newComponent ← _getComponent currentComponent parsedToken.alias_
  let rootElement := rootElement currentProtractorElement
  if newComponent.isCollection then
    let elementsCollection := rootElement.all (← _getSelector newComponent)
    match parsedToken.innerText, parsedToken.index with
    | some innerText, _ =>
        let locator := elementsCollection.locator
        if _isLocatorTranformable locator then
          return some (rootElement.all (_transformLocatorByText locator innerText)).first
        else
          return some (elementsCollection.filterIncludes innerText).first
    | none, some index => return some (elementsCollection.get index.pred)
    | none, none => return none
  else
    throw (.notCollection parsedToken.alias_)

/-- Method `_getElementOrCollection`. -/
def _getElementOrCollection (currentProtractorElement : Option Finder)
    (currentComponent : Entry) (parsedToken : ParsedToken) : Except Err (Option Finder) := do
  let newComponent ← _getComponent currentComponent parsedToken.alias_
  let rootElement := rootElement currentProtractorElement
  if newComponent.isCollection || rootElement.count then
    return some (rootElement.all (← _getSelector newComponent))
  else
    return some (rootElement.element (← _getSelector newComponent))

/-- Method `_getProtractorElement`. -/
def _getProtractorElement (currentProtractorElement : Option Finder)
    (currentComponent : Entry) (token : List Char) : Except Err (Option Finder) :=
  let parsedToken := ParsedToken.new token
  if parsedToken.isElementOfCollection then
    _getElementOfCollection currentProtractorElement currentComponent parsedToken
  else
    _getElementOrCollection currentProtractorElement currentComponent parsedToken

/-- Class `ComponentNode`. -/
structure ComponentNode where
  element : Option Finder
  component : Entry

/-- One step of the traversal: `new ComponentNode(_getProtractorElement(..),
_getComponent(..))`, the arguments evaluated from left to right. -/
def step (current : ComponentNode) (token : List Char) : Except Err ComponentNode := do
  let element ← _getProtractorElement current.element current.component token
  let component ← _getComponent current.component token
  return ⟨element, component⟩

/-- The traversal of `getElement` over the tokens: the first token starts from
`(null, this)`, the others are reduced from the left. -/
def resolve (current : ComponentNode) : List (List Char) → Except Err ComponentNode
  | [] => .ok current
  | token :: tokens =>
      match step current token with
      | .ok node => resolve node tokens
      | .error e => .error e

/-- Method `getElement` of the page `this`. -/
def getElement (this : Entry) (key : List Char) : Except Err (Option Finder) :=
  match split TOKEN_SPLIT_REGEXP key with
  | [] => .error (.noSuchElement "undefined".toList)
  | firstToken :: tokens =>
      match step ⟨none, this⟩ firstToken with
      | .ok startNode => (resolve startNode tokens).map (fun node => node.element)
      | .error e => .error e

/-! ## Shapes of tokens -/

/-- The group `([!\$]?.+)` of `ELEMENT_OF_COLLECTION_REGEXP`. -/
def valueRe : Re := .cap 1 (.seq (.opt isMarker) (.plus isDot))

/-- The part `\s+(in|of)\s+(.+)` of `ELEMENT_OF_COLLECTION_REGEXP`. -/
def tailRe : Re :=
  .seq (.plus isSpace)
    (.seq (.cap 2 (.alt (.lit ['i', 'n']) (.lit ['o', 'f'])))
      (.seq (.plus isSpace) (.cap 3 (.plus isDot))))

/-- The ways `[!\$]?.+` can match at the start of a text. -/
def valueRests (s : List Char) : List (List Char) :=
  (optRests isMarker s).flatMap (plusRests isDot)

/-- The text is one of the keywords `in` and `of`. -/
def isKeyword (k : List Char) : Bool := k = ['i', 'n'] || k = ['o', 'f']

/-- The text starts with a keyword `in` / `of` that is followed by white space and
at least one more character. -/
def keywordHead : List Char → Bool
  | k1 :: k2 :: w :: _ :: _ => isKeyword [k1, k2] && isSpace w
  | _ => false

/-- Somewhere in the text a white space character is followed by a keyword
`in` / `of`, white space and at least one more character. -/
def keywordInside : List Char → Bool
  | [] => false
  | c :: t => (isSpace c && keywordHead t) || keywordInside t

/-- An alias that formatting and parsing preserve: non-empty, without line
terminator, not beginning with white space, and with no keyword `in` / `of` that is
delimited by white space and followed by text, neither inside nor at its start. -/
def GoodAlias (a : List Char) : Prop :=
  a ≠ [] ∧ (∀ c ∈ a, isLineTerminator c = false) ∧ (∀ c t, a = c :: t → isSpace c = false) ∧
    keywordInside a = false ∧ keywordHead a = false

/-- The decimal digits of a natural number, as `String(n)` writes them. -/
def decimalNat (n : Nat) : List Char :=
  if n = 0 then ['0'] else (Nat.digits 10 n).reverse.map (fun d => Char.ofNat (0x30 + d))

/-- The text `String(n)` of an integer. -/
def decimal (n : Int) : List Char :=
  if n < 0 then '-' :: decimalNat n.natAbs else decimalNat n.natAbs

/-- The key under which `_getComponent` looks an alias up: the alias is parsed as a
token once more. -/
def lookupKey (a : List Char) : List Char := (ParsedToken.new a).alias_

/-- Method `String.prototype.includes`: the text contains `s` as a substring. -/
def includes (text s : List Char) : Bool := decide (s <:+: text)

/-- The entry a component's map has under a key, if any. -/
def entryAt (comp : Entry) (key : List Char) : Option Entry :=
  match comp.elements with
  | some m => mapGet m key
  | none => none

/-- Modelled from the spec: the driver's `filter` with the predicate "the text of
the element contains `s`", on a collection given as the list of its elements in
document order (the driver is not part of this repository). -/
def filterByText {α : Type} (text : α → List Char) (elements : List α) (s : List Char) :
    List α :=
  elements.filter (fun x => includes (text x) s)

/-- Modelled from the spec: the driver's `first`, the first element of a collection,
and nothing for an empty one (the driver is not part of this repository). -/
def firstOf {α : Type} (elements : List α) : Option α := elements.head?

/-- The registry `e'` is the registry `e` without some registrations of the entry
`L`: the two have the same properties, and at every key of their maps either `e'`
has nothing and `e` has nothing or `L`, or both have entries, which are related in
the same way. -/
inductive Without (L : Entry) : Entry → Entry → Prop where
  | same (e : Entry) : Without L e e
  | erase (selector : List Char) (selectorType text : Option (List Char)) (isCollection : Bool)
      (m m' : List (List Char × Entry))
      (hnone : ∀ key, mapGet m' key = none → mapGet m key = none ∨ mapGet m key = some L)
      (hdom : ∀ key x', mapGet m' key = some x' → mapGet m key ≠ none)
      (hrel : ∀ key x x', mapGet m key = some x → mapGet m' key = some x' → Without L x x') :
      Without L (.mk selector selectorType text isCollection (some m))
        (.mk selector selectorType text isCollection (some m'))

/-- No hop of the tokens, resolved from the node, selects the entry `L`: neither
the lookup made for the locator of the hop nor the lookup of its component gives
`L`. -/
def Avoids (L : Entry) : ComponentNode → List (List Char) → Prop
  | _, [] => True
  | node, token :: tokens =>
      entryAt node.component (lookupKey (ParsedToken.new token).alias_) ≠ some L ∧
      entryAt node.component (lookupKey token) ≠ some L ∧
      match step node token with
      | .ok node' => Avoids L node' tokens
      | .error _ => True

/-! ## Sample registries -/

/-- A registered element or collection without nested entries and without text. -/
def leaf (selector selectorType : String) (isCollection : Bool) : Entry :=
  .mk selector.toList (some selectorType.toList) none isCollection none

/-- A registered component with the selector type `css`. -/
def component (selector : String) (isCollection : Bool) (m : List (List Char × Entry)) :
    Entry :=
  .mk selector.toList (some "css".toList) none isCollection (some m)

/-- A page with a collection `Buttons`, an element `Title`, a component `Header` with
two collections, and a component `Rows` that is a collection and has an element. -/
def samplePage : Entry :=
  page [("Buttons".toList, leaf ".btn" "css" true),
    ("Title".toList, leaf "//h1" "xpath" false),
    ("Header".toList, component "header" false
      [("Links".toList, leaf "a" "css" true), ("XLinks".toList, leaf "//a" "xpath" true)]),
    ("Rows".toList, component "tr" true [("Cell".toList, leaf "td" "css" false)])]

/-- A page whose only entry is a collection with the alias `x of y`. -/
def keywordAliasPage : Entry := page [("x of y".toList, leaf ".q" "css" true)]

/-- A page with two collections of selector type `css`, one under the alias
`#x in y` and one under the alias `y`. -/
def nestedPatternPage : Entry :=
  page [("#x in y".toList, leaf ".p" "css" true), ("y".toList, leaf ".q" "css" true)]

/-- As `nestedPatternPage`, with collections of selector type `xpath`. -/
def nestedPatternXPathPage : Entry :=
  page [("#x in y".toList, leaf "//p" "xpath" true), ("y".toList, leaf "//q" "xpath" true)]

/-- A leaf of selector type `cssContainingText` whose text is unset. -/
def textlessLeaf : Entry := .mk ".hint".toList (some "cssContainingText".toList) none false none

/-- A page with an element `Title` and the leaf without text under `Hint`. -/
def textlessPage : Entry :=
  page [("Title".toList, leaf "//h1" "xpath" false), ("Hint".toList, textlessLeaf)]

/-- The page `textlessPage` without the leaf `Hint`. -/
def titlePage : Entry := page [("Title".toList, leaf "//h1" "xpath" false)]

/-! ## Tokens of a path, as the specification describes them -/

/-- The parts of a text between its `>` characters. -/
def splitOnGt : List Char → List (List Char)
  | [] => [[]]
  | c :: t =>
      if c = '>' then [] :: splitOnGt t
      else
        match splitOnGt t with
        | h :: r => (c :: h) :: r
        | [] => [[c]]

/-- The text without its leading white space. -/
def trimStart (s : List Char) : List Char := s.dropWhile isSpace

/-- The text without its trailing white space. -/
def trimEnd : List Char → List Char
  | [] => []
  | c :: t => if (c :: t).all isSpace then [] else c :: trimEnd t

/-- The parts that follow a `>`, without the white space adjacent to a `>`: the
last part keeps its trailing white space. -/
def trimRest : List (List Char) → List (List Char)
  | [] => []
  | [last] => [trimStart last]
  | x :: rest => trimEnd (trimStart x) :: trimRest rest

/-- The parts of a text between its `>` characters without the white space adjacent
to a `>`: the first part keeps its leading white space and the last part its
trailing white space. -/
def trimAdjacent : List (List Char) → List (List Char)
  | [] => []
  | [only] => [only]
  | first :: rest => trimEnd first :: trimRest rest

/-! ## The resolver with a count of the alias lookups

The methods of the resolver once more, each with the number of calls of
`_getComponent` made so far as a further argument and a further result. -/

/-- Method `_getComponent`, counted: one more call. -/
def _getComponentN (currentComponent : Entry) (token : List Char) (n : Nat) :
    Except Err (Entry × Nat) := do
  let component ← _getComponent currentComponent token
  return (component, n + 1)

/-- Method `_getElementOfCollection`, with the count of the lookups. -/
def _getElementOfCollectionN (currentProtractorElement : Option Finder)
    (currentComponent : Entry) (parsedToken : ParsedToken) (n : Nat) :
    Except Err (Option Finder × Nat) := do
  let (newComponent, n) ← _getComponentN currentComponent parsedToken.alias_ n
  let rootElement := rootElement currentProtractorElement
  if newComponent.isCollection then
    let elementsCollection := rootElement.all (← _getSelector newComponent)
    match parsedToken.innerText, parsedToken.index with
    | some innerText, _ =>
        let locator := elementsCollection.locator
        if _isLocatorTranformable locator then
          return (some (rootElement.all (_transformLocatorByText locator innerText)).first, n)
        else
          return (some (elementsCollection.filterIncludes innerText).first, n)
    | none, some index => return (some (elementsCollection.get index.pred), n)
    | none, none => return (none, n)
  else
    throw (.notCollection parsedToken.alias_)

/-- Method `_getElementOrCollection`, with the count of the lookups. -/
def _getElementOrCollectionN (currentProtractorElement : Option Finder)
    (currentComponent : Entry) (parsedToken : ParsedToken) (n : Nat) :
    Except Err (Option Finder × Nat) := do
  let (newComponent, n) ← _getComponentN currentComponent parsedToken.alias_ n
  let rootElement := rootElement currentProtractorElement
  if newComponent.isCollection || rootElement.count then
    return (some (rootElement.all (← _getSelector newComponent)), n)
  else
    return (some (rootElement.element (← _getSelector newComponent)), n)

/-- Method `_getProtractorElement`, with the count of the lookups. -/
def _getProtractorElementN (currentProtractorElement : Option Finder)
    (currentComponent : Entry) (token : List Char) (n : Nat) :
    Except Err (Option Finder × Nat) :=
  let parsedToken := ParsedToken.new token
  if parsedToken.isElementOfCollection then
    _getElementOfCollectionN currentProtractorElement currentComponent parsedToken n
  else
    _getElementOrCollectionN currentProtractorElement currentComponent parsedToken n

/-- One step of the traversal, with the count of the lookups. -/
def stepN (current : ComponentNode) (token : List Char) (n : Nat) :
    Except Err (ComponentNode × Nat) := do
  let (element, n) ← _getProtractorElementN current.element current.component token n
  let (component, n) ← _getComponentN current.component token n
  return (⟨element, component⟩, n)

/-- The traversal over the tokens, with the count of the lookups. -/
def resolveN (current : ComponentNode) (n : Nat) :
    List (List Char) → Except Err (ComponentNode × Nat)
  | [] => .ok (current, n)
  | token :: tokens =>
      match stepN current token n with
      | .ok (node, n') => resolveN node n' tokens
      | .error e => .error e

/-- Method `getElement`, with the number of calls of `_getComponent` it makes. -/
def getElementN (this : Entry) (key : List Char) : Except Err (Option Finder × Nat) :=
  match split TOKEN_SPLIT_REGEXP key with
  | [] => .error (.noSuchElement "undefined".toList)
  | firstToken :: tokens =>
      match stepN ⟨none, this⟩ firstToken 0 with
      | .ok (startNode, n) =>
          (resolveN startNode n tokens).map (fun r => (r.1.element, r.2))
      | .error e => .error e

/-! ## Registration of components -/

/-- Method `set` of a `Map`: the value of an existing key is replaced in place, a
new key is added at the end. -/
def mapSet : List (List Char × Entry) → List Char → Entry → List (List Char × Entry)
  | [], key, v => [(key, v)]
  | (k, x) :: m, key, v => if k = key then (k, v) :: m else (k, x) :: mapSet m key v

/-- The object with another `elements` map. -/
def Entry.setElements : Entry → List (List Char × Entry) → Entry
  | .mk s t x c _, m => .mk s t x c (some m)

/-- The key `defineComponent` registers under: `component.alias` when it is truthy
(a non-empty string), and `component.component.alias` otherwise. -/
def definedKey (alias_ : Option (List Char)) (componentAlias : List Char) : List Char :=
  match alias_ with
  | some (c :: t) => c :: t
  | _ => componentAlias

/-- Method `defineComponent` of the page `this`, giving the page after the call:
`alias_` is `component.alias` (`none` when omitted), `c` is `component.component`
and `componentAlias` its property `alias`, a string, which no other method reads. -/
def defineComponent (this : Entry) (alias_ : Option (List Char)) (c : Entry)
    (componentAlias : List Char) : Except Err Entry :=
  match this.elements with
  | none => .error .typeError
  | some m => .ok (this.setElements (mapSet m (definedKey alias_ componentAlias) c))

/-! ## The resolver with a log of the driver calls

The methods of the resolver once more, each giving also the list of the method
calls it makes on finders, in the order of the calls. -/

/-- The methods of finders the resolver calls. -/
inductive DriverOp where
  | element
  | all
  | get
  | filter
  | first
  | locator
  deriving DecidableEq

/-- A call of a method on a finder. -/
structure DriverCall where
  op : DriverOp
  receiver : Finder
  deriving DecidableEq

/-- Whether the receiver of a call has the method: `all` is a method of every
finder, `element` of the single-match finders (those without `count`), and `get`,
`filter`, `first` and `locator` are called only on multi-match finders (those with
`count`). -/
def DriverCall.supported (c : DriverCall) : Bool :=
  match c.op with
  | .all => true
  | .element => !c.receiver.count
  | _ => c.receiver.count

/-- Method `_getElementOfCollection`, with the log of the driver calls. -/
def _getElementOfCollectionL (currentProtractorElement : Option Finder)
    (currentComponent : Entry) (parsedToken : ParsedToken) :
    Except Err (Option Finder × List DriverCall) := do
  let newComponent ← _getComponent currentComponent parsedToken.alias_
  let rootElement := rootElement currentProtractorElement
  if newComponent.isCollection then
    let elementsCollection := rootElement.all (← _getSelector newComponent)
    let log := [DriverCall.mk .all rootElement]
    match parsedToken.innerText, parsedToken.index with
    | some innerText, _ =>
        let locator := elementsCollection.locator
        let log := log ++ [DriverCall.mk .locator elementsCollection]
        if _isLocatorTranformable locator then
          return (some (rootElement.all (_transformLocatorByText locator innerText)).first,
            log ++ [DriverCall.mk .all rootElement,
              DriverCall.mk .first (rootElement.all (_transformLocatorByText locator innerText))])
        else
          return (some (elementsCollection.filterIncludes innerText).first,
            log ++ [DriverCall.mk .filter elementsCollection,
              DriverCall.mk .first (elementsCollection.filterIncludes innerText)])
    | none, some index =>
        return (some (elementsCollection.get index.pred),
          log ++ [DriverCall.mk .get elementsCollection])
    | none, none => return (none, log)
  else
    throw (.notCollection parsedToken.alias_)

/-- Method `_getElementOrCollection`, with the log of the driver calls. -/
def _getElementOrCollectionL (currentProtractorElement : Option Finder)
    (currentComponent : Entry) (parsedToken : ParsedToken) :
    Except Err (Option Finder × List DriverCall) := do
  let newComponent ← _getComponent currentComponent parsedToken.alias_
  let rootElement := rootElement currentProtractorElement
  if newComponent.isCollection || rootElement.count then
    return (some (rootElement.all (← _getSelector newComponent)),
      [DriverCall.mk .all rootElement])
  else
    return (some (rootElement.element (← _getSelector newComponent)),
      [DriverCall.mk .element rootElement])

/-- Method `_getProtractorElement`, with the log of the driver calls. -/
def _getProtractorElementL (currentProtractorElement : Option Finder)
    (currentComponent : Entry) (token : List Char) :
    Except Err (Option Finder × List DriverCall) :=
  let parsedToken := ParsedToken.new token
  if parsedToken.isElementOfCollection then
    _getElementOfCollectionL currentProtractorElement currentComponent parsedToken
  else
    _getElementOrCollectionL currentProtractorElement currentComponent parsedToken

/-- One step of the traversal, with the log of the driver calls. -/
def stepL (current : ComponentNode) (token : List Char) :
    Except Err (ComponentNode × List DriverCall) := do
  let (element, log) ← _getProtractorElementL current.element current.component token
  let component ← _getComponent current.component token
  return (⟨element, component⟩, log)

/-- The traversal over the tokens, with the log of the driver calls. -/
def resolveL (current : ComponentNode) (log : List DriverCall) :
    List (List Char) → Except Err (ComponentNode × List DriverCall)
  | [] => .ok (current, log)
  | token :: tokens =>
      match stepL current token with
      | .ok (node, log') => resolveL node (log ++ log') tokens
      | .error e => .error e

/-- Method `getElement`, with the log of the driver calls it makes. -/
def getElementL (this : Entry) (key : List Char) :
    Except Err (Option Finder × List DriverCall) :=
  match split TOKEN_SPLIT_REGEXP key with
  | [] => .error (.noSuchElement "undefined".toList)
  | firstToken :: tokens =>
      match stepL ⟨none, this⟩ firstToken with
      | .ok (startNode, log) =>
          (resolveL startNode log tokens).map (fun r => (r.1.element, r.2))
      | .error e => .error e

/-! ## Readings of the text after a `#` -/

/-- The text `s` read as VALUE, white space, a keyword, white space, ALIAS and a
rest, the way `ELEMENT_OF_COLLECTION_REGEXP` reads what follows a `#`: VALUE and
ALIAS are not empty and have no line terminator, and both white spaces are not
empty. -/
def Reading (s v sp1 k sp2 al rest : List Char) : Prop :=
  s = v ++ (sp1 ++ (k ++ (sp2 ++ (al ++ rest)))) ∧
    v ≠ [] ∧ (∀ x ∈ v, isLineTerminator x = false) ∧
    sp1 ≠ [] ∧ (∀ x ∈ sp1, isSpace x = true) ∧ isKeyword k = true ∧
    sp2 ≠ [] ∧ (∀ x ∈ sp2, isSpace x = true) ∧
    al ≠ [] ∧ (∀ x ∈ al, isLineTerminator x = false)

/-! ## The fallback scan with a log of the text fetches -/

/-- The scan of `filterByTextL` from position `i` on. -/
def filterByTextFrom {α : Type} (text : α → List Char) (s : List Char) :
    Nat → List α → List α × List Nat
  | _, [] => ([], [])
  | i, x :: xs =>
      let r := filterByTextFrom text s (i + 1) xs
      (if includes (text x) s then x :: r.1 else r.1, i :: r.2)

/-- The driver's `filter` of `filterByText` once more, with a log of the text
fetches (the driver is not part of this repository). `filter` gives the collection of
the elements for which the predicate holds, so it calls the predicate on every
element of the collection, in document order; the predicate of the source,
`elem => elem.getText().then(text => text.includes(s))`, fetches the text of the
element it is called on. The result is the elements kept and the positions whose
text is fetched, in the order of the calls. -/
def filterByTextL {α : Type} (text : α → List Char) (elements : List α) (s : List Char) :
    List α × List Nat :=
  filterByTextFrom text s 0 elements

/-! ## Lemmas on the matcher -/

theorem mem_plusRests {p : Char → Bool} {r : List Char} :
    ∀ {s : List Char}, r ∈ plusRests p s ↔
      ∃ pre, pre ≠ [] ∧ s = pre ++ r ∧ ∀ x ∈ pre, p x = true
  | [] => by
      simp only [plusRests, List.not_mem_nil, false_iff]
      rintro ⟨pre, hne, heq, -⟩
      cases pre with
      | nil => exact hne rfl
      | cons d pre => simp at heq
  | c :: t => by
      unfold plusRests
      by_cases hc : p c = true
      · simp only [hc, if_true, List.mem_append, List.mem_singleton]
        constructor
        · rintro (h | h)
          · obtain ⟨pre, hne, rfl, hall⟩ := mem_plusRests.1 h
            exact ⟨c :: pre, by simp, by simp, by simpa [hc] using hall⟩
          · subst h
            exact ⟨[c], by simp, by simp, by simpa using hc⟩
        · rintro ⟨pre, hne, heq, hall⟩
          cases pre with
          | nil => exact absurd rfl hne
          | cons d pre =>
              simp only [List.cons_append, List.cons.injEq] at heq
              obtain ⟨rfl, rfl⟩ := heq
              cases pre with
              | nil => right; rfl
              | cons e pre =>
                  left
                  exact mem_plusRests.2 ⟨e :: pre, by simp, rfl,
                    fun x hx => hall x (List.mem_cons_of_mem _ hx)⟩
      · simp only [hc, Bool.false_eq_true, if_false, List.not_mem_nil, false_iff]
        rintro ⟨pre, hne, heq, hall⟩
        cases pre with
        | nil => exact hne rfl
        | cons d pre =>
            simp only [List.cons_append, List.cons.injEq] at heq
            exact hc (heq.1 ▸ hall d (List.mem_cons_self _ _))

theorem plusRests_append {p : Char → Bool} (r : List Char) :
    ∀ (pre : List Char), pre ≠ [] → (∀ x ∈ pre, p x = true) →
      ∃ l2, plusRests p (pre ++ r) = plusRests p r ++ r :: l2
  | [], h, _ => absurd rfl h
  | [c], _, hall => by
      refine ⟨[], ?_⟩
      have hc : p c = true := hall c (List.mem_singleton.2 rfl)
      simp [plusRests, hc]
  | c :: d :: pre, _, hall => by
      have hc : p c = true := hall c (List.mem_cons_self _ _)
      obtain ⟨l2, h2⟩ := plusRests_append r (d :: pre) (by simp)
        (fun x hx => hall x (List.mem_cons_of_mem _ hx))
      refine ⟨l2 ++ [d :: pre ++ r], ?_⟩
      have : plusRests p (c :: d :: pre ++ r) = plusRests p (d :: pre ++ r) ++ [d :: pre ++ r] := by
        simp [plusRests, hc]
      rw [this, h2]
      simp

theorem stripLit_eq_some {w s r : List Char} : stripLit w s = some r ↔ s = w ++ r := by
  induction w generalizing s with
  | nil => simp [stripLit, eq_comm]
  | cons a w ih =>
      cases s with
      | nil => simp [stripLit]
      | cons c s =>
          by_cases h : a = c
          · subst h; simp [stripLit, ih]
          · simp [stripLit, h, Ne.symm h]

theorem take_length_sub (v r : List Char) : (v ++ r).take ((v ++ r).length - r.length) = v := by
  simp

theorem plusRests_cons_false {p : Char → Bool} {c : Char} (t : List Char) (h : p c = false) :
    plusRests p (c :: t) = [] := by
  simp [plusRests, h]

theorem plusRests_all_head {p : Char → Bool} {a : List Char} (hne : a ≠ [])
    (hall : ∀ x ∈ a, p x = true) : ∃ l, plusRests p a = [] :: l := by
  obtain ⟨l2, h⟩ := plusRests_append (p := p) [] a hne hall
  exact ⟨l2, by simpa [plusRests] using h⟩

theorem isKeyword_iff {k : List Char} : isKeyword k = true ↔ k = ['i', 'n'] ∨ k = ['o', 'f'] := by
  simp [isKeyword]

theorem mem_run_lit {w s r : List Char} {c c' : Caps} :
    (r, c') ∈ (Re.lit w).run s c ↔ s = w ++ r ∧ c' = c := by
  unfold Re.run
  cases h : stripLit w s with
  | none =>
      simp only [List.not_mem_nil, false_iff, not_and]
      intro hs
      rw [← stripLit_eq_some] at hs
      rw [hs] at h
      cases h
  | some r' =>
      rw [stripLit_eq_some] at h
      subst h
      simp only [List.mem_singleton, Prod.mk.injEq, List.append_cancel_left_eq]
      constructor
      · rintro ⟨rfl, rfl⟩; exact ⟨rfl, rfl⟩
      · rintro ⟨rfl, rfl⟩; exact ⟨rfl, rfl⟩

theorem mem_run_plus {p : Char → Bool} {s r : List Char} {c c' : Caps} :
    (r, c') ∈ (Re.plus p).run s c ↔
      (∃ pre, pre ≠ [] ∧ s = pre ++ r ∧ ∀ x ∈ pre, p x = true) ∧ c' = c := by
  simp only [Re.run, List.mem_map, Prod.mk.injEq]
  constructor
  · rintro ⟨r', hr, rfl, rfl⟩
    exact ⟨mem_plusRests.1 hr, rfl⟩
  · rintro ⟨hr, rfl⟩
    exact ⟨r, mem_plusRests.2 hr, rfl, rfl⟩

theorem mem_run_seq {a b : Re} {s : List Char} {c : Caps} {m : List Char × Caps} :
    m ∈ (Re.seq a b).run s c ↔ ∃ r1 c1, (r1, c1) ∈ a.run s c ∧ m ∈ b.run r1 c1 := by
  simp [Re.run, List.mem_flatMap]

theorem mem_run_cap {i : Nat} {a : Re} {s r : List Char} {c c' : Caps} :
    (r, c') ∈ (Re.cap i a).run s c ↔
      ∃ c1, (r, c1) ∈ a.run s c ∧ c' = c1.set i (s.take (s.length - r.length)) := by
  simp only [Re.run, List.mem_map, Prod.mk.injEq, Prod.exists]
  constructor
  · rintro ⟨r1, c1, h, rfl, rfl⟩
    exact ⟨c1, h, rfl⟩
  · rintro ⟨c1, h, rfl⟩
    exact ⟨r, c1, h, rfl, rfl⟩

theorem mem_run_alt {a b : Re} {s : List Char} {c : Caps} {m : List Char × Caps} :
    m ∈ (Re.alt a b).run s c ↔ m ∈ a.run s c ∨ m ∈ b.run s c := by
  simp [Re.run]

/-- What the matches of `\s+(in|of)\s+(.+)` at the start of a text are. -/
theorem mem_tailRe_run {t rest : List Char} {c caps : Caps} :
    (rest, caps) ∈ tailRe.run t c ↔
      ∃ pre k sp al, t = pre ++ (k ++ (sp ++ (al ++ rest))) ∧ pre ≠ [] ∧
        (∀ x ∈ pre, isSpace x = true) ∧ isKeyword k = true ∧ sp ≠ [] ∧
        (∀ x ∈ sp, isSpace x = true) ∧ al ≠ [] ∧ (∀ x ∈ al, isDot x = true) ∧
        caps = (c.set 2 k).set 3 al := by
  unfold tailRe
  constructor
  · intro h
    obtain ⟨r1, c1, h1, g1⟩ := mem_run_seq.1 h
    obtain ⟨⟨pre, hpre, rfl, hsp⟩, rfl⟩ := mem_run_plus.1 h1
    obtain ⟨r2, c2, h2, g2⟩ := mem_run_seq.1 g1
    obtain ⟨c2', h2', rfl⟩ := mem_run_cap.1 h2
    obtain ⟨r3, c3, h3, g3⟩ := mem_run_seq.1 g2
    obtain ⟨⟨sp, hspne, rfl, hsp2⟩, rfl⟩ := mem_run_plus.1 h3
    obtain ⟨c4, h4, rfl⟩ := mem_run_cap.1 g3
    obtain ⟨⟨al, halne, rfl, hal⟩, rfl⟩ := mem_run_plus.1 h4
    rcases mem_run_alt.1 h2' with h2 | h2
    · obtain ⟨rfl, rfl⟩ := mem_run_lit.1 h2
      exact ⟨pre, ['i', 'n'], sp, al, rfl, hpre, hsp, by decide, hspne, hsp2, halne, hal,
        by rw [take_length_sub, take_length_sub]⟩
    · obtain ⟨rfl, rfl⟩ := mem_run_lit.1 h2
      exact ⟨pre, ['o', 'f'], sp, al, rfl, hpre, hsp, by decide, hspne, hsp2, halne, hal,
        by rw [take_length_sub, take_length_sub]⟩
  · rintro ⟨pre, k, sp, al, rfl, hpre, hsp, hk, hspne, hsp2, halne, hal, rfl⟩
    refine mem_run_seq.2 ⟨k ++ (sp ++ (al ++ rest)), c,
      mem_run_plus.2 ⟨⟨pre, hpre, rfl, hsp⟩, rfl⟩, ?_⟩
    refine mem_run_seq.2 ⟨sp ++ (al ++ rest), c.set 2 k, mem_run_cap.2 ⟨c, ?_, ?_⟩, ?_⟩
    · rcases isKeyword_iff.1 hk with rfl | rfl
      · exact mem_run_alt.2 (Or.inl (mem_run_lit.2 ⟨rfl, rfl⟩))
      · exact mem_run_alt.2 (Or.inr (mem_run_lit.2 ⟨rfl, rfl⟩))
    · rw [take_length_sub]
    · refine mem_run_seq.2 ⟨al ++ rest, c.set 2 k,
        mem_run_plus.2 ⟨⟨sp, hspne, rfl, hsp2⟩, rfl⟩, ?_⟩
      exact mem_run_cap.2 ⟨c.set 2 k, mem_run_plus.2 ⟨⟨al, halne, rfl, hal⟩, rfl⟩,
        by rw [take_length_sub]⟩

/-! ## Keywords inside a text -/

theorem keywordHead_append {k sp u : List Char} (hk : isKeyword k = true) (hne : sp ≠ [])
    (hsp : ∀ x ∈ sp, isSpace x = true) (hu : u ≠ []) : keywordHead (k ++ (sp ++ u)) = true := by
  cases sp with
  | nil => exact absurd rfl hne
  | cons w sp =>
      have hw : isSpace w = true := hsp w (List.mem_cons_self _ _)
      have hrest : ∃ x y, sp ++ u = x :: y := by
        cases sp with
        | nil =>
            cases u with
            | nil => exact absurd rfl hu
            | cons x y => exact ⟨x, y, rfl⟩
        | cons x y => exact ⟨x, y ++ u, rfl⟩
      obtain ⟨x, y, hxy⟩ := hrest
      rcases isKeyword_iff.1 hk with rfl | rfl
      · simp only [List.cons_append, List.nil_append, hxy, keywordHead, hw, Bool.and_true]
        decide
      · simp only [List.cons_append, List.nil_append, hxy, keywordHead, hw, Bool.and_true]
        decide

theorem keywordInside_append_left (r : List Char) (h : keywordInside r = true) :
    ∀ pre : List Char, keywordInside (pre ++ r) = true
  | [] => h
  | c :: pre => by
      simp [keywordInside, keywordInside_append_left r h pre]

theorem keywordInside_of_spaces {r : List Char} (h : keywordHead r = true) :
    ∀ pre : List Char, pre ≠ [] → (∀ x ∈ pre, isSpace x = true) →
      keywordInside (pre ++ r) = true
  | [], hne, _ => absurd rfl hne
  | [c], _, hsp => by
      have hc : isSpace c = true := hsp c (List.mem_singleton.2 rfl)
      simp [keywordInside, hc, h]
  | c :: d :: pre, _, hsp => by
      have ih := keywordInside_of_spaces h (d :: pre) (by simp)
        (fun x hx => hsp x (List.mem_cons_of_mem _ hx))
      simp only [List.cons_append] at ih ⊢
      rw [keywordInside, ih, Bool.or_true]

/-- A text at whose start `\s+(in|of)\s+(.+)` matches has a keyword inside. -/
theorem keywordInside_of_tailRe {t : List Char} {c : Caps} {m : List Char × Caps}
    (h : m ∈ tailRe.run t c) : keywordInside t = true := by
  obtain ⟨rest, caps⟩ := m
  obtain ⟨pre, k, sp, al, rfl, hpre, hsp, hk, hspne, hsp2, halne, -, -⟩ := mem_tailRe_run.1 h
  exact keywordInside_of_spaces
    (keywordHead_append hk hspne hsp2 (by simp [halne])) pre hpre hsp

theorem tailRe_run_eq_nil {t : List Char} (c : Caps) (h : keywordInside t = false) :
    tailRe.run t c = [] := by
  apply List.eq_nil_iff_forall_not_mem.2
  intro m hm
  rw [keywordInside_of_tailRe hm] at h
  cases h

/-! ## The value group -/

theorem valueRe_run (s : List Char) (c : Caps) :
    valueRe.run s c =
      (valueRests s).map (fun r => (r, c.set 1 (s.take (s.length - r.length)))) := by
  simp [valueRe, valueRests, Re.run, List.map_flatMap, List.flatMap_map, Function.comp_def]

theorem valueRests_split {v : List Char} (r0 : List Char) (hne : v ≠ [])
    (hv : ∀ x ∈ v, isDot x = true) :
    ∃ l1 l2, valueRests (v ++ r0) = l1 ++ r0 :: l2 ∧ ∀ y ∈ l1, y ∈ plusRests isDot r0 := by
  obtain ⟨k2, hk2⟩ := plusRests_append (p := isDot) r0 v hne hv
  cases v with
  | nil => exact absurd rfl hne
  | cons x v =>
      by_cases hx : isMarker x = true
      · cases v with
        | nil =>
            refine ⟨plusRests isDot r0 ++ plusRests isDot r0, k2, ?_, ?_⟩
            · simp only [valueRests, List.cons_append, List.nil_append, optRests, hx, if_true,
                List.flatMap_cons, List.flatMap_nil, List.append_nil]
              simp only [List.cons_append, List.nil_append] at hk2
              rw [hk2]
              simp
            · intro y hy
              rcases List.mem_append.1 hy with h | h <;> exact h
        | cons z v =>
            obtain ⟨k1, hk1⟩ := plusRests_append (p := isDot) r0 (z :: v) (by simp)
              (fun y hy => hv y (List.mem_cons_of_mem _ hy))
            refine ⟨plusRests isDot r0, k1 ++ plusRests isDot (x :: z :: v ++ r0), ?_, ?_⟩
            · simp only [valueRests, List.cons_append, optRests, hx, if_true,
                List.flatMap_cons, List.flatMap_nil, List.append_nil]
              simp only [List.cons_append] at hk1
              rw [hk1]
              simp
            · intro y hy
              exact hy
      · refine ⟨plusRests isDot r0, k2, ?_, fun y hy => hy⟩
        simp only [valueRests, List.cons_append, optRests, hx, Bool.false_eq_true, if_false,
          List.flatMap_cons, List.flatMap_nil, List.append_nil]
        simpa using hk2

/-! ## Parsing a formatted token -/

theorem run_seq (a b : Re) (s : List Char) (c : Caps) :
    (Re.seq a b).run s c = (a.run s c).flatMap (fun m => b.run m.1 m.2) := by
  rw [Re.run]

theorem run_cap (i : Nat) (a : Re) (s : List Char) (c : Caps) :
    (Re.cap i a).run s c =
      (a.run s c).map (fun m => (m.1, m.2.set i (s.take (s.length - m.1.length)))) := by
  rw [Re.run]

theorem run_plus (p : Char → Bool) (s : List Char) (c : Caps) :
    (Re.plus p).run s c = (plusRests p s).map (fun r => (r, c)) := by
  rw [Re.run]

theorem regexp_run_cons (s : List Char) (c : Caps) :
    ELEMENT_OF_COLLECTION_REGEXP.run ('#' :: s) c =
      (valueRests s).flatMap
        (fun r => tailRe.run r (c.set 1 (s.take (s.length - r.length)))) := by
  have h : ELEMENT_OF_COLLECTION_REGEXP = .seq (.lit ['#']) (.seq valueRe tailRe) := rfl
  rw [h, run_seq]
  have h1 : (Re.lit ['#']).run ('#' :: s) c = [(s, c)] := by simp [Re.run, stripLit]
  rw [h1]
  simp only [List.flatMap_cons, List.flatMap_nil, List.append_nil]
  rw [run_seq, valueRe_run, List.flatMap_map]

theorem regexp_run_not_hash {x : Char} (s : List Char) (c : Caps) (h : x ≠ '#') :
    ELEMENT_OF_COLLECTION_REGEXP.run (x :: s) c = [] := by
  have h' : ELEMENT_OF_COLLECTION_REGEXP = .seq (.lit ['#']) (.seq valueRe tailRe) := rfl
  rw [h', run_seq]
  have h1 : (Re.lit ['#']).run (x :: s) c = [] := by simp [Re.run, stripLit, Ne.symm h]
  rw [h1]
  rfl

theorem regexp_run_nil (c : Caps) : ELEMENT_OF_COLLECTION_REGEXP.run [] c = [] := by
  rfl

/-- The first match of `\s+(in|of)\s+(.+)` on `" in a"` / `" of a"`. -/
theorem tailRe_run_head {k a : List Char} (c : Caps) (hk : isKeyword k = true) (hne : a ≠ [])
    (hdot : ∀ x ∈ a, isDot x = true) (hsp : ∀ x t, a = x :: t → isSpace x = false) :
    ∃ l, tailRe.run (' ' :: (k ++ ' ' :: a)) c = ([], (c.set 2 k).set 3 a) :: l := by
  obtain ⟨l, hl⟩ := plusRests_all_head hne hdot
  obtain ⟨x, t, rfl⟩ : ∃ x t, a = x :: t := by
    cases a with
    | nil => exact absurd rfl hne
    | cons x t => exact ⟨x, t, rfl⟩
  have hx : isSpace x = false := hsp x t rfl
  have hs : isSpace ' ' = true := by decide
  have hi : isSpace 'i' = false := by decide
  have ho : isSpace 'o' = false := by decide
  have ha : plusRests isSpace (x :: t) = [] := plusRests_cons_false t hx
  rcases isKeyword_iff.1 hk with rfl | rfl
  · refine ⟨l.map (fun r => (r, (c.set 2 ['i', 'n']).set 3
      ((x :: t).take ((x :: t).length - r.length)))), ?_⟩
    simp only [tailRe, run_seq, run_cap, run_plus, Re.run, List.cons_append, List.nil_append]
    have h1 : plusRests isSpace (' ' :: 'i' :: 'n' :: ' ' :: x :: t)
        = ['i' :: 'n' :: ' ' :: x :: t] := by
      simp [plusRests, hs, hi]
    have h2 : plusRests isSpace (' ' :: x :: t) = [x :: t] := by
      simp [plusRests, hs, hx]
    rw [h1]
    simp [stripLit, h2, hl]
  · refine ⟨l.map (fun r => (r, (c.set 2 ['o', 'f']).set 3
      ((x :: t).take ((x :: t).length - r.length)))), ?_⟩
    simp only [tailRe, run_seq, run_cap, run_plus, Re.run, List.cons_append, List.nil_append]
    have h1 : plusRests isSpace (' ' :: 'o' :: 'f' :: ' ' :: x :: t)
        = ['o' :: 'f' :: ' ' :: x :: t] := by
      simp [plusRests, hs, ho]
    have h2 : plusRests isSpace (' ' :: x :: t) = [x :: t] := by
      simp [plusRests, hs, hx]
    rw [h1]
    simp [stripLit, h2, hl]

theorem keywordInside_keyword_cons {k a : List Char} (hk : isKeyword k = true)
    (hin : keywordInside a = false) (hhead : keywordHead a = false) :
    keywordInside (k ++ ' ' :: a) = false := by
  have hi : isSpace 'i' = false := by decide
  have hn : isSpace 'n' = false := by decide
  have ho : isSpace 'o' = false := by decide
  have hf : isSpace 'f' = false := by decide
  rcases isKeyword_iff.1 hk with rfl | rfl
  · simp [keywordInside, hi, hn, hin, hhead]
  · simp [keywordInside, ho, hf, hin, hhead]

/-- The first match of the regular expression on `"#" + v + " in " + a` (or with `of`)
captures `v`, the keyword and `a`. -/
theorem regexp_run_formatted {v k a : List Char} (c : Caps) (hne : v ≠ [])
    (hv : ∀ x ∈ v, isDot x = true) (hk : isKeyword k = true) (ha : GoodAlias a) :
    ∃ l, ELEMENT_OF_COLLECTION_REGEXP.run ('#' :: (v ++ ' ' :: (k ++ ' ' :: a))) c
      = ([], ((c.set 1 v).set 2 k).set 3 a) :: l := by
  obtain ⟨hane, hlt, hsp, hin, hhead⟩ := ha
  have hdot : ∀ x ∈ a, isDot x = true := fun x hx => by simp [isDot, hlt x hx]
  obtain ⟨l1, l2, hsplit, hl1⟩ := valueRests_split (' ' :: (k ++ ' ' :: a)) hne hv
  obtain ⟨l, hl⟩ := tailRe_run_head (c.set 1 v) hk hane hdot hsp
  rw [regexp_run_cons, hsplit, List.flatMap_append, List.flatMap_cons, take_length_sub, hl]
  have h1 : l1.flatMap (fun r => tailRe.run r
      (c.set 1 ((v ++ ' ' :: (k ++ ' ' :: a)).take
        ((v ++ ' ' :: (k ++ ' ' :: a)).length - r.length)))) = [] := by
    rw [List.flatMap_eq_nil_iff]
    intro y hy
    apply tailRe_run_eq_nil
    obtain ⟨pre, hpre, heq, -⟩ := mem_plusRests.1 (hl1 y hy)
    cases pre with
    | nil => exact absurd rfl hpre
    | cons p0 pre =>
        simp only [List.cons_append, List.cons.injEq] at heq
        cases hy' : keywordInside y with
        | false => rfl
        | true =>
            have h2 := keywordInside_append_left y hy' pre
            rw [← heq.2, keywordInside_keyword_cons hk hin hhead] at h2
            cases h2
  rw [h1]
  exact ⟨_, rfl⟩

theorem exec_of_run_cons {r : Re} {s rest : List Char} {caps : Caps}
    {l : List (List Char × Caps)} (hs : s ≠ []) (h : r.run s Caps.empty = (rest, caps) :: l) :
    r.exec s = some ([], rest, caps) := by
  cases s with
  | nil => exact absurd rfl hs
  | cons x t => simp [Re.exec, Re.matchHere, h]

/-- The parse of a formatted token `"#" + v + " in " + a` or `"#" + v + " of " + a`. -/
theorem ParsedToken_new_formatted {v k a : List Char} (hne : v ≠ [])
    (hv : ∀ x ∈ v, isLineTerminator x = false) (hk : isKeyword k = true) (ha : GoodAlias a) :
    ParsedToken.new ('#' :: (v ++ ' ' :: (k ++ ' ' :: a))) =
      { alias_ := a
        index := if k = ['o', 'f'] then some (parseInt v) else none
        innerText := if k = ['i', 'n'] then some v else none } := by
  have hdot : ∀ x ∈ v, isDot x = true := fun x hx => by simp [isDot, hv x hx]
  obtain ⟨l, hl⟩ := regexp_run_formatted Caps.empty hne hdot hk ha
  have he := exec_of_run_cons (by simp) hl
  simp only [ParsedToken.new, he]
  simp [group, Caps.set]

/-! ## What a match is -/

theorem isDot_of_isMarker {x : Char} (h : isMarker x = true) : isDot x = true := by
  simp only [isMarker, Bool.or_eq_true, decide_eq_true_eq] at h
  simp only [isDot, isLineTerminator, Bool.not_eq_true', Bool.or_eq_false_iff,
    decide_eq_false_iff_not]
  omega

theorem mem_valueRests {s r : List Char} (h : r ∈ valueRests s) :
    ∃ v, v ≠ [] ∧ s = v ++ r ∧ ∀ x ∈ v, isDot x = true := by
  simp only [valueRests, List.mem_flatMap] at h
  obtain ⟨s', hs', hr⟩ := h
  obtain ⟨pre, hpre, rfl, hall⟩ := mem_plusRests.1 hr
  cases s with
  | nil =>
      simp only [optRests, List.mem_singleton] at hs'
      exact ⟨pre, hpre, hs'.symm, hall⟩
  | cons x t =>
      by_cases hx : isMarker x = true
      · simp only [optRests, hx, if_true, List.mem_cons, List.mem_singleton,
          List.not_mem_nil, or_false] at hs'
        rcases hs' with h1 | h1
        · refine ⟨x :: pre, by simp, by simp [h1], ?_⟩
          intro y hy
          rcases List.mem_cons.1 hy with rfl | hy
          · exact isDot_of_isMarker hx
          · exact hall y hy
        · exact ⟨pre, hpre, h1.symm, hall⟩
      · simp only [optRests, hx, Bool.false_eq_true, if_false, List.mem_singleton] at hs'
        exact ⟨pre, hpre, hs'.symm, hall⟩

/-- Every match of the regular expression at the start of a text has the shape
`# VALUE \s+ (in|of) \s+ ALIAS` and captures these parts. -/
theorem mem_regexp_run {s rest : List Char} {c caps : Caps}
    (h : (rest, caps) ∈ ELEMENT_OF_COLLECTION_REGEXP.run s c) :
    ∃ v sp1 k sp2 al, s = '#' :: (v ++ (sp1 ++ (k ++ (sp2 ++ (al ++ rest))))) ∧
      v ≠ [] ∧ (∀ x ∈ v, isDot x = true) ∧ sp1 ≠ [] ∧ (∀ x ∈ sp1, isSpace x = true) ∧
      isKeyword k = true ∧ sp2 ≠ [] ∧ (∀ x ∈ sp2, isSpace x = true) ∧
      al ≠ [] ∧ (∀ x ∈ al, isDot x = true) ∧
      caps = ((c.set 1 v).set 2 k).set 3 al := by
  cases s with
  | nil => simp [regexp_run_nil] at h
  | cons x t =>
      by_cases hx : x = '#'
      · subst hx
        rw [regexp_run_cons, List.mem_flatMap] at h
        obtain ⟨r, hr, hm⟩ := h
        obtain ⟨v, hv, rfl, hvd⟩ := mem_valueRests hr
        rw [take_length_sub] at hm
        obtain ⟨sp1, k, sp2, al, rfl, h1, h2, h3, h4, h5, h6, h7, h8⟩ := mem_tailRe_run.1 hm
        exact ⟨v, sp1, k, sp2, al, rfl, hv, hvd, h1, h2, h3, h4, h5, h6, h7, h8⟩
      · simp [regexp_run_not_hash t c hx] at h

theorem exec_some_mem {r : Re} :
    ∀ {t pre rest : List Char} {caps : Caps}, r.exec t = some (pre, rest, caps) →
      ∃ s, t = pre ++ s ∧ (rest, caps) ∈ r.run s Caps.empty
  | [], pre, rest, caps, h => by
      simp only [Re.exec, Re.matchHere, Option.map_eq_some'] at h
      obtain ⟨m, hm, heq⟩ := h
      simp only [Prod.mk.injEq] at heq
      obtain ⟨rfl, rfl, rfl⟩ := heq
      exact ⟨[], rfl, List.mem_of_mem_head? hm⟩
  | x :: t, pre, rest, caps, h => by
      simp only [Re.exec] at h
      cases hm : r.matchHere (x :: t) with
      | some m =>
          simp only [hm, Option.some.injEq, Prod.mk.injEq] at h
          obtain ⟨rfl, rfl, rfl⟩ := h
          exact ⟨x :: t, rfl, List.mem_of_mem_head? hm⟩
      | none =>
          simp only [hm, Option.map_eq_some'] at h
          obtain ⟨⟨pre', rest', caps'⟩, he, heq⟩ := h
          simp only [Prod.mk.injEq] at heq
          obtain ⟨rfl, rfl, rfl⟩ := heq
          obtain ⟨s, rfl, hs⟩ := exec_some_mem he
          exact ⟨s, rfl, hs⟩

theorem exec_eq_none {r : Re} :
    ∀ {t : List Char}, (∀ pre s, t = pre ++ s → r.run s Caps.empty = []) → r.exec t = none
  | [], h => by
      simp [Re.exec, Re.matchHere, h [] [] rfl]
  | x :: t, h => by
      have h0 : r.run (x :: t) Caps.empty = [] := h [] (x :: t) rfl
      have ih : r.exec t = none :=
        exec_eq_none (fun pre s hs => h (x :: pre) s (by simp [hs]))
      simp [Re.exec, Re.matchHere, h0, ih]

theorem regexp_run_eq_nil {s : List Char} (c : Caps) (h : keywordInside s = false) :
    ELEMENT_OF_COLLECTION_REGEXP.run s c = [] := by
  apply List.eq_nil_iff_forall_not_mem.2
  rintro ⟨rest, caps⟩ hm
  obtain ⟨v, sp1, k, sp2, al, rfl, -, -, h1, h2, h3, h4, h5, h6, -, -⟩ := mem_regexp_run hm
  have hh : keywordHead (k ++ (sp2 ++ (al ++ rest))) = true :=
    keywordHead_append h3 h4 h5 (by simp [h6])
  have h7 := keywordInside_of_spaces hh sp1 h1 h2
  have h8 := keywordInside_append_left _ h7 ('#' :: v)
  simp only [List.cons_append] at h8
  rw [h8] at h
  cases h

/-- A text with no keyword inside is a plain token. -/
theorem ParsedToken_new_plain {t : List Char} (h : keywordInside t = false) :
    ParsedToken.new t = { alias_ := t, index := none, innerText := none } := by
  have he : ELEMENT_OF_COLLECTION_REGEXP.exec t = none := by
    apply exec_eq_none
    intro pre s hs
    apply regexp_run_eq_nil
    cases hk : keywordInside s with
    | false => rfl
    | true =>
        rw [hs, keywordInside_append_left s hk pre] at h
        cases h
  simp [ParsedToken.new, he]

/-! ## Reading a decimal number -/

/-- The character of a decimal digit. -/
theorem digitValue_digit {d : Nat} (h : d < 10) :
    digitValue 10 (Char.ofNat (0x30 + d)) = some d := by
  interval_cases d <;> rfl

theorem readDigits_map (xs : List Nat) (hx : ∀ d ∈ xs, d < 10) :
    ∀ (acc : Nat) (seen : Bool),
      readDigits 10 acc seen (xs.map (fun d => Char.ofNat (0x30 + d))) =
        (xs.foldl (fun a d => a * 10 + d) acc, seen || !xs.isEmpty) := by
  induction xs with
  | nil => intro acc seen; simp [readDigits]
  | cons d xs ih =>
      intro acc seen
      have hd : d < 10 := hx d (List.mem_cons_self _ _)
      simp only [List.map_cons, readDigits, digitValue_digit hd, List.foldl_cons]
      rw [ih (fun e he => hx e (List.mem_cons_of_mem _ he))]
      simp

theorem foldl_digits (m : Nat) :
    (Nat.digits 10 m).reverse.foldl (fun a d => a * 10 + d) 0 = m := by
  rw [List.foldl_reverse]
  have h : ∀ L : List Nat, L.foldr (fun d a => a * 10 + d) 0 = Nat.ofDigits 10 L := by
    intro L
    induction L with
    | nil => rfl
    | cons d L ih =>
        simp only [List.foldr_cons, ih, Nat.ofDigits_cons]
        omega
  rw [h, Nat.ofDigits_digits]

theorem readDigits_decimalNat (m : Nat) : readDigits 10 0 false (decimalNat m) = (m, true) := by
  unfold decimalNat
  by_cases hm : m = 0
  · subst hm; rfl
  · rw [if_neg hm, readDigits_map _ (fun d hd => by
      rw [List.mem_reverse] at hd
      exact Nat.digits_lt_base (by norm_num) hd), foldl_digits]
    have : Nat.digits 10 m ≠ [] := Nat.digits_ne_nil_iff_ne_zero.2 hm
    simp [this]

/-- The text of a natural number starts with a digit, and with `0` only for zero. -/
theorem decimalNat_head (m : Nat) :
    ∃ d t, decimalNat m = Char.ofNat (0x30 + d) :: t ∧ d < 10 ∧ (d = 0 → t = []) := by
  unfold decimalNat
  by_cases hm : m = 0
  · subst hm
    exact ⟨0, [], rfl, by norm_num, fun _ => rfl⟩
  · rw [if_neg hm]
    have hne : Nat.digits 10 m ≠ [] := Nat.digits_ne_nil_iff_ne_zero.2 hm
    have hlast := Nat.getLast_digit_ne_zero 10 hm
    obtain ⟨L, d, hL⟩ : ∃ L d, Nat.digits 10 m = L ++ [d] :=
      ⟨_, _, (List.dropLast_append_getLast hne).symm⟩
    have hd : d < 10 := Nat.digits_lt_base (by norm_num) (by rw [hL]; simp)
    have hd0 : d ≠ 0 := by
      have : (Nat.digits 10 m).getLast hne = d := by simp [hL]
      rw [this] at hlast
      exact hlast
    refine ⟨d, L.reverse.map (fun d => Char.ofNat (0x30 + d)), ?_, hd, fun h => absurd h hd0⟩
    rw [hL]
    simp

theorem stripSign_digit {d : Nat} (t : List Char) (h : d < 10) :
    stripSign (Char.ofNat (0x30 + d) :: t) = (false, Char.ofNat (0x30 + d) :: t) := by
  interval_cases d <;> rfl

theorem stripRadix_digit {d : Nat} (t : List Char) (h : d < 10) (h0 : d = 0 → t = []) :
    stripRadix (Char.ofNat (0x30 + d) :: t) = (10, Char.ofNat (0x30 + d) :: t) := by
  interval_cases d
  · rw [h0 rfl]; rfl
  all_goals rfl

theorem isSpace_digit {d : Nat} (h : d < 10) : isSpace (Char.ofNat (0x30 + d)) = false := by
  interval_cases d <;> rfl

theorem excessBits_small (f m : Nat) (h : m < 2 ^ 53) : excessBits f m = 0 := by
  cases f with
  | zero => rfl
  | succ k => simp only [excessBits, h, if_true]

theorem roundToDouble_small (m : Nat) (h : m < 2 ^ 53) : roundToDouble m = m := by
  simp [roundToDouble, excessBits_small m m h, Nat.mod_one]

/-- Natural numbers up to `2 ^ 53` are doubles. -/
theorem roundToDouble_le (m : Nat) (h : m ≤ 2 ^ 53) : roundToDouble m = m := by
  rcases Nat.lt_or_ge m (2 ^ 53) with h1 | h1
  · exact roundToDouble_small m h1
  · have h2 : m = 2 ^ 53 := le_antisymm h h1
    subst h2; rfl

/-- Integers of magnitude up to `2 ^ 53` are Number values. -/
theorem JSNumber.ofInt_exact (n : Int) (h : n.natAbs ≤ 2 ^ 53) :
    JSNumber.ofInt n = .int n := by
  have hl : n.natAbs < doubleLimit := lt_of_le_of_lt h (by decide)
  unfold JSNumber.ofInt
  rw [roundToDouble_le _ h, if_pos hl]
  congr 1
  split_ifs with hn <;> omega

/-- Subtracting 1 is exact from `-(2 ^ 53) + 1` to `2 ^ 53`. -/
theorem JSNumber.pred_ofInt (n : Int) (h1 : -(2 ^ 53) < n) (h2 : n ≤ 2 ^ 53) :
    (JSNumber.ofInt n).pred = .int (n - 1) := by
  rw [JSNumber.ofInt_exact n (by omega)]
  exact JSNumber.ofInt_exact (n - 1) (by omega)

/-- Reading the text of an integer gives the Number nearest to the integer. -/
theorem parseInt_decimal (n : Int) : parseInt (decimal n) = JSNumber.ofInt n := by
  obtain ⟨d, t, hdt, hd, hd0⟩ := decimalNat_head n.natAbs
  have hr := readDigits_decimalNat n.natAbs
  rw [hdt] at hr
  unfold decimal
  by_cases hn : n < 0
  · rw [if_pos hn, hdt]
    have hval : (-(n.natAbs : Int)) = n := by omega
    have h1 : List.dropWhile isSpace ('-' :: Char.ofNat (0x30 + d) :: t)
        = '-' :: Char.ofNat (0x30 + d) :: t := by
      rw [List.dropWhile_cons, show isSpace '-' = false by decide]; rfl
    have h2 : stripSign ('-' :: Char.ofNat (0x30 + d) :: t)
        = (true, Char.ofNat (0x30 + d) :: t) := rfl
    simp only [parseInt, h1, h2, stripRadix_digit t hd hd0, hr, if_true, hval]
  · rw [if_neg hn, hdt]
    have hval : ((n.natAbs : Int)) = n := by omega
    have h1 : List.dropWhile isSpace (Char.ofNat (0x30 + d) :: t)
        = Char.ofNat (0x30 + d) :: t := by
      rw [List.dropWhile_cons, isSpace_digit hd]; rfl
    simp only [parseInt, h1, stripSign_digit t hd, stripRadix_digit t hd hd0, hr, hval]
    simp

theorem isLineTerminator_digit {d : Nat} (h : d < 10) :
    isLineTerminator (Char.ofNat (0x30 + d)) = false := by
  interval_cases d <;> rfl

theorem decimalNat_chars (m : Nat) : ∀ x ∈ decimalNat m, isLineTerminator x = false := by
  unfold decimalNat
  by_cases hm : m = 0
  · subst hm
    intro x hx
    simp only [if_true, List.mem_singleton] at hx
    subst hx
    rfl
  · rw [if_neg hm]
    intro x hx
    simp only [List.mem_map, List.mem_reverse] at hx
    obtain ⟨d, hd, rfl⟩ := hx
    exact isLineTerminator_digit (Nat.digits_lt_base (by norm_num) hd)

theorem decimal_chars (n : Int) : ∀ x ∈ decimal n, isLineTerminator x = false := by
  unfold decimal
  intro x hx
  by_cases hn : n < 0
  · rw [if_pos hn] at hx
    rcases List.mem_cons.1 hx with rfl | hx
    · rfl
    · exact decimalNat_chars _ x hx
  · rw [if_neg hn] at hx
    exact decimalNat_chars _ x hx

theorem decimal_ne_nil (n : Int) : decimal n ≠ [] := by
  obtain ⟨d, t, hdt, -, -⟩ := decimalNat_head n.natAbs
  unfold decimal
  by_cases hn : n < 0
  · rw [if_pos hn]; simp
  · rw [if_neg hn, hdt]; simp

/-! ## Claims on parsing and on index hops -/

theorem _getComponent_plain {comp : Entry} {m : List (List Char × Entry)} {a : List Char}
    (hm : comp.elements = some m) (ha : keywordInside a = false) :
    _getComponent comp a =
      match mapGet m a with
      | some e => .ok e
      | none => .error (.noSuchElement a) := by
  simp only [_getComponent, hm, ParsedToken_new_plain ha]

theorem parse_inverts_format_aux (n : Int) (a : List Char) (ha : GoodAlias a) :
    ParsedToken.new ("#".toList ++ decimal n ++ " of ".toList ++ a) =
      { alias_ := a, index := some (JSNumber.ofInt n), innerText := none } := by
  have h := ParsedToken_new_formatted (k := ['o', 'f']) (decimal_ne_nil n) (decimal_chars n)
    (by decide) ha
  rw [parseInt_decimal] at h
  simpa using h

/-- C10 (amended): parsing inverts formatting, up to the rounding of Numbers. For a
non-empty value `v` without line terminator and an alias `a` that is non-empty, has
no line terminator, does not begin with white space and has no keyword `in` / `of`
delimited by white space and followed by text (nor at its start), the token
`"#" + v + " in " + a` parses to alias `a`, inner text `v` and no index, and for
every integer `n` the token `"#" + n + " of " + a` parses to alias `a`, no inner text
and the index that is the Number nearest to `n`: `n` itself whenever the magnitude
of `n` is at most `2 ^ 53`. -/
theorem parse_inverts_format (v a : List Char) (n : Int) (hv : v ≠ [])
    (hvl : ∀ c ∈ v, isLineTerminator c = false) (ha : GoodAlias a) :
    ParsedToken.new ("#".toList ++ v ++ " in ".toList ++ a) =
        { alias_ := a, index := none, innerText := some v } ∧
      ParsedToken.new ("#".toList ++ decimal n ++ " of ".toList ++ a) =
        { alias_ := a, index := some (JSNumber.ofInt n), innerText := none } ∧
      (n.natAbs ≤ 2 ^ 53 →
        ParsedToken.new ("#".toList ++ decimal n ++ " of ".toList ++ a) =
          { alias_ := a, index := some (.int n), innerText := none }) := by
  refine ⟨?_, parse_inverts_format_aux n a ha, ?_⟩
  · have h := ParsedToken_new_formatted (k := ['i', 'n']) hv hvl (by decide) ha
    simpa using h
  · intro hn
    rw [parse_inverts_format_aux n a ha, JSNumber.ofInt_exact n hn]

theorem decimal_two : decimal 2 = "2".toList := by
  norm_num [decimal, decimalNat]

theorem goodAlias_Buttons : GoodAlias "Buttons".toList := by
  refine ⟨by decide, by decide, ?_, by decide, by decide⟩
  intro c t h
  simp only [String.toList, List.cons.injEq] at h
  rw [← h.1]
  decide

/-- C10 (amended) at `"#Save in Buttons"` and `"#2 of Buttons"`. -/
theorem parse_inverts_format_witness :
    ParsedToken.new "#Save in Buttons".toList =
        { alias_ := "Buttons".toList, index := none, innerText := some "Save".toList } ∧
      ParsedToken.new "#2 of Buttons".toList =
        { alias_ := "Buttons".toList, index := some (.int 2), innerText := none } := by
  have h := parse_inverts_format "Save".toList "Buttons".toList 2 (by decide) (by decide)
    goodAlias_Buttons
  rw [decimal_two] at h
  exact ⟨h.1, h.2.2 (by decide)⟩

/-- C10 fails as stated: the token `"#9007199254740993 of Buttons"`, formatted from
the integer `2 ^ 53 + 1`, parses to the index `9007199254740992`, the nearest
Number, and not to the integer. -/
theorem parse_inverts_format_large_index_fails :
    GoodAlias "Buttons".toList ∧
    "#".toList ++ decimal 9007199254740993 ++ " of ".toList ++ "Buttons".toList =
      "#9007199254740993 of Buttons".toList ∧
    ParsedToken.new "#9007199254740993 of Buttons".toList =
      { alias_ := "Buttons".toList, index := some (.int 9007199254740992),
        innerText := none } ∧
    JSNumber.int 9007199254740992 ≠ .int 9007199254740993 := by
  refine ⟨goodAlias_Buttons, ?_, rfl, by decide⟩
  norm_num [decimal, decimalNat]

/-- C1 (amended): for every integer `n`, every alias `a` that formatting and parsing
preserve (`GoodAlias`) and that the current component maps to a collection whose
selector translates to `sel`, the hop token `"#" + n + " of " + a` under the scope
root resolves without error, with no bounds check, to `root.all(sel).get(i - 1)`
where `i` is the Number nearest to `n` and the subtraction is that of Numbers; this
is `root.all(sel).get(n - 1)` whenever `-(2 ^ 53) < n` and `n ≤ 2 ^ 53`. -/
theorem index_hop_good_alias (n : Int) (a : List Char) (cur : Option Finder) (comp e : Entry)
    (m : List (List Char × Entry)) (sel : By) (ha : GoodAlias a)
    (hm : comp.elements = some m) (hget : mapGet m a = some e)
    (hc : e.isCollection = true) (hs : _getSelector e = .ok sel) :
    _getProtractorElement cur comp ("#".toList ++ decimal n ++ " of ".toList ++ a) =
        .ok (some (((rootElement cur).all sel).get (JSNumber.ofInt n).pred)) ∧
      (-(2 ^ 53) < n → n ≤ 2 ^ 53 →
        _getProtractorElement cur comp ("#".toList ++ decimal n ++ " of ".toList ++ a) =
          .ok (some (((rootElement cur).all sel).get (.int (n - 1))))) := by
  have hp := (parse_inverts_format_aux n a ha)
  have h : _getProtractorElement cur comp ("#".toList ++ decimal n ++ " of ".toList ++ a) =
      .ok (some (((rootElement cur).all sel).get (JSNumber.ofInt n).pred)) := by
    simp only [_getProtractorElement, hp, ParsedToken.isElementOfCollection,
      Option.isSome_some, Bool.true_or, if_true, _getElementOfCollection,
      _getComponent_plain hm ha.2.2.2.1, hget]
    simp [bind, Except.bind, hc, hs, pure, Except.pure]
  refine ⟨h, fun h1 h2 => ?_⟩
  rw [h, JSNumber.pred_ofInt n h1 h2]

/-- C1 (amended) at `"#2 of Buttons"` on the sample page. -/
theorem index_hop_good_alias_witness :
    _getProtractorElement none samplePage "#2 of Buttons".toList =
      .ok (some (((Finder.doc (.css "html".toList)).all (.css ".btn".toList)).get (.int 1))) := by
  have h := (index_hop_good_alias 2 "Buttons".toList none samplePage (leaf ".btn" "css" true) _
    (.css ".btn".toList) goodAlias_Buttons rfl rfl rfl rfl).2 (by decide) (by decide)
  rw [decimal_two] at h
  exact h

/-- C1 fails as stated: the page maps the alias `x of y` to a collection with a
translatable selector, and the hop token `"#3 of x of y"` raises the alias-not-found
error for `y`; and on the sample page the hop token `"#9007199254740993 of Buttons"`,
with `n = 2 ^ 53 + 1`, resolves to the position `9007199254740991`, not to `n - 1`. -/
theorem index_hop_keyword_alias_fails :
    (∃ e, entryAt keywordAliasPage "x of y".toList = some e ∧ e.isCollection = true ∧
      _getSelector e = .ok (.css ".q".toList)) ∧
    "#".toList ++ decimal 3 ++ " of ".toList ++ "x of y".toList = "#3 of x of y".toList ∧
    _getProtractorElement (some (.doc ROOT_ELEMENT_SELECTOR)) keywordAliasPage
        "#3 of x of y".toList = .error (.noSuchElement "y".toList) ∧
    "#".toList ++ decimal 9007199254740993 ++ " of ".toList ++ "Buttons".toList =
      "#9007199254740993 of Buttons".toList ∧
    _getProtractorElement none samplePage "#9007199254740993 of Buttons".toList =
      .ok (some (((Finder.doc (.css "html".toList)).all (.css ".btn".toList)).get
        (.int 9007199254740991))) ∧
    (9007199254740991 : Int) ≠ 9007199254740993 - 1 := by
  refine ⟨⟨leaf ".q" "css" true, rfl, rfl, rfl⟩, ?_, rfl, ?_, rfl, by decide⟩
  · norm_num [decimal, decimalNat]
  · norm_num [decimal, decimalNat]

/-! ## Claims on the traversal -/

theorem resolve_append (node : ComponentNode) (pre post : List (List Char)) :
    resolve node (pre ++ post) =
      match resolve node pre with
      | .ok node' => resolve node' post
      | .error e => .error e := by
  induction pre generalizing node with
  | nil => rfl
  | cons t pre ih =>
      simp only [List.cons_append, resolve]
      cases step node t with
      | ok node' => exact ih node'
      | error e => rfl

theorem getElement_eq_resolve (this : Entry) (key : List Char) (t : List Char)
    (ts : List (List Char)) (h : split TOKEN_SPLIT_REGEXP key = t :: ts) :
    getElement this key = (resolve ⟨none, this⟩ (t :: ts)).map (fun node => node.element) := by
  simp only [getElement, h, resolve]
  cases step ⟨none, this⟩ t <;> rfl

/-- The first thing a hop does is the lookup of its alias, under the key
`lookupKey`. -/
theorem _getProtractorElement_not_found {comp : Entry} {m : List (List Char × Entry)}
    (cur : Option Finder) (token : List Char) (hm : comp.elements = some m)
    (hk : mapGet m (lookupKey (ParsedToken.new token).alias_) = none) :
    _getProtractorElement cur comp token =
      .error (.noSuchElement (lookupKey (ParsedToken.new token).alias_)) := by
  have h : _getComponent comp (ParsedToken.new token).alias_ =
      .error (.noSuchElement (lookupKey (ParsedToken.new token).alias_)) := by
    simp only [lookupKey] at hk
    simp only [_getComponent, hm, hk, lookupKey]
  unfold _getProtractorElement
  by_cases hq : (ParsedToken.new token).isElementOfCollection = true
  · simp only [hq, if_true, _getElementOfCollection, h]
    rfl
  · simp only [hq, Bool.false_eq_true, if_false, _getElementOrCollection, h]
    rfl

/-- C2 (amended): if the hops before hop `k` resolve and the key the resolver looks
up first for hop `k` (the alias of the hop parsed once more, `lookupKey`) is not a
key of the current component's mapping, `getElement` fails with the alias-not-found
error for that key, whatever the later tokens are. -/
theorem alias_not_found (this : Entry) (key tk : List Char) (pre post : List (List Char))
    (node : ComponentNode) (m : List (List Char × Entry))
    (hsplit : split TOKEN_SPLIT_REGEXP key = pre ++ tk :: post)
    (hpre : resolve ⟨none, this⟩ pre = .ok node)
    (hm : node.component.elements = some m)
    (hk : mapGet m (lookupKey (ParsedToken.new tk).alias_) = none) :
    getElement this key =
      .error (.noSuchElement (lookupKey (ParsedToken.new tk).alias_)) := by
  have hstep : step node tk =
      .error (.noSuchElement (lookupKey (ParsedToken.new tk).alias_)) := by
    simp only [step, _getProtractorElement_not_found node.element tk hm hk]
    rfl
  have hres : resolve ⟨none, this⟩ (pre ++ tk :: post) =
      .error (.noSuchElement (lookupKey (ParsedToken.new tk).alias_)) := by
    rw [resolve_append, hpre]
    simp only [resolve, hstep]
  cases hp : pre ++ tk :: post with
  | nil => simp at hp
  | cons t ts =>
      rw [hp] at hsplit hres
      rw [getElement_eq_resolve this key t ts hsplit, hres]
      rfl

/-- C2 (amended) at the path `"Header > Missing > Links"` on the sample page. -/
theorem alias_not_found_witness :
    getElement samplePage "Header > Missing > Links".toList =
      .error (.noSuchElement "Missing".toList) :=
  alias_not_found samplePage "Header > Missing > Links".toList "Missing".toList
    ["Header".toList] ["Links".toList]
    ⟨some (.element (.doc ROOT_ELEMENT_SELECTOR) (.css "header".toList)),
      component "header" false
        [("Links".toList, leaf "a" "css" true), ("XLinks".toList, leaf "//a" "xpath" true)]⟩
    _ rfl rfl rfl rfl

/-- C2 fails as stated: the alias `#x in y` of the only hop of the path
`"#a\nin #x in y"` is not a key of the page, and `getElement` fails with the
not-a-collection error, not with the alias-not-found error. -/
theorem alias_not_found_nested_pattern_fails :
    split TOKEN_SPLIT_REGEXP "#a\nin #x in y".toList = ["#a\nin #x in y".toList] ∧
    (ParsedToken.new "#a\nin #x in y".toList).alias_ = "#x in y".toList ∧
    entryAt (page [("y".toList, leaf ".q" "css" false)]) "#x in y".toList = none ∧
    getElement (page [("y".toList, leaf ".q" "css" false)]) "#a\nin #x in y".toList =
      .error (.notCollection "#x in y".toList) :=
  ⟨rfl, rfl, rfl, rfl⟩

/-- C3 (amended): a qualified hop, of either kind, whose alias the resolver finds
(under the key `lookupKey`) mapped to an entry that is not a collection fails with
the not-a-collection error `"<alias> is not collection"`, whatever the selector
type, selector and text of the entry are. -/
theorem not_collection (cur : Option Finder) (comp e : Entry) (token : List Char)
    (m : List (List Char × Entry))
    (hq : (ParsedToken.new token).isElementOfCollection = true)
    (hm : comp.elements = some m)
    (hget : mapGet m (lookupKey (ParsedToken.new token).alias_) = some e)
    (hc : e.isCollection = false) :
    _getProtractorElement cur comp token =
        .error (.notCollection (ParsedToken.new token).alias_) ∧
      (Err.notCollection (ParsedToken.new token).alias_).message =
        (ParsedToken.new token).alias_ ++ " is not collection".toList := by
  refine ⟨?_, rfl⟩
  have h : _getComponent comp (ParsedToken.new token).alias_ = .ok e := by
    simp only [lookupKey] at hget
    simp only [_getComponent, hm, hget]
  simp only [_getProtractorElement, hq, if_true, _getElementOfCollection, h]
  simp [bind, Except.bind, hc, throw, throwThe, MonadExceptOf.throw]

/-- C3 (amended) at `"#1 of Title"` on the sample page. -/
theorem not_collection_witness :
    _getProtractorElement none samplePage "#1 of Title".toList =
        .error (.notCollection "Title".toList) ∧
      (Err.notCollection "Title".toList).message = "Title is not collection".toList :=
  not_collection none samplePage (leaf "//h1" "xpath" false) "#1 of Title".toList _
    rfl rfl rfl rfl

/-- C3 fails as stated: the hop `"#a\nin #x in y"` is qualified, its alias `#x in y`
is a key of the page and maps to an entry that is not a collection, and the hop
fails with the alias-not-found error for `y`; so does the token `"#1 of x of y"`,
formatted from the alias `x of y` of an entry that is not a collection. -/
theorem not_collection_nested_pattern_fails :
    (ParsedToken.new "#a\nin #x in y".toList).isElementOfCollection = true ∧
    (ParsedToken.new "#a\nin #x in y".toList).alias_ = "#x in y".toList ∧
    (∃ e, entryAt (page [("#x in y".toList, leaf ".q" "css" false)]) "#x in y".toList = some e ∧
      e.isCollection = false) ∧
    _getProtractorElement none (page [("#x in y".toList, leaf ".q" "css" false)])
        "#a\nin #x in y".toList = .error (.noSuchElement "y".toList) ∧
    (ParsedToken.new "#1 of x of y".toList).isElementOfCollection = true ∧
    (∃ e, entryAt (page [("x of y".toList, leaf ".q" "css" false)]) "x of y".toList = some e ∧
      e.isCollection = false) ∧
    _getProtractorElement none (page [("x of y".toList, leaf ".q" "css" false)])
        "#1 of x of y".toList = .error (.noSuchElement "y".toList) :=
  ⟨rfl, rfl, ⟨_, rfl, rfl⟩, rfl, rfl, ⟨_, rfl, rfl⟩, rfl⟩

theorem splitGo_ne_nil (r : Re) :
    ∀ (s cur : List Char) (skip : Nat), splitGo r cur skip s ≠ []
  | [], cur, skip => by simp [splitGo]
  | c :: t, cur, skip + 1 => by
      rw [splitGo]
      exact splitGo_ne_nil r t cur skip
  | c :: t, cur, 0 => by
      rw [splitGo]
      cases r.matchHere (c :: t) with
      | none => exact splitGo_ne_nil r t (c :: cur) 0
      | some m =>
          simp only
          split
          · split
            · exact splitGo_ne_nil r t [c] 0
            · simp
          · simp

/-- The tokens of a path are never empty. -/
theorem split_ne_nil (key : List Char) : split TOKEN_SPLIT_REGEXP key ≠ [] := by
  cases key with
  | nil => decide
  | cons c t => exact splitGo_ne_nil _ _ _ _

theorem resolve_eq_foldlM (tokens : List (List Char)) :
    ∀ node : ComponentNode, resolve node tokens = tokens.foldlM step node := by
  induction tokens with
  | nil => intro node; rfl
  | cons t ts ih =>
      intro node
      simp only [resolve, List.foldlM_cons]
      cases h : step node t with
      | ok node' => exact ih node'
      | error e => rfl

/-- Every hop that resolves gives a finder, built by driver calls on the scope
root. -/
theorem _getProtractorElement_scope {cur : Option Finder} {comp : Entry} {token : List Char}
    {r : Option Finder} (h : _getProtractorElement cur comp token = .ok r) :
    ∃ f, r = some f ∧ f.scope = some (rootElement cur) := by
  unfold _getProtractorElement at h
  by_cases hq : (ParsedToken.new token).isElementOfCollection = true
  · simp only [hq, if_true, _getElementOfCollection] at h
    cases hc : _getComponent comp (ParsedToken.new token).alias_ with
    | error e => simp [hc, bind, Except.bind] at h
    | ok e =>
        cases hcoll : e.isCollection with
        | false =>
            simp [hc, bind, Except.bind, hcoll, throw, throwThe, MonadExceptOf.throw] at h
        | true =>
            cases hs : _getSelector e with
            | error e' => simp [hc, bind, Except.bind, hcoll, hs] at h
            | ok sel =>
                cases hi : (ParsedToken.new token).innerText with
                | some s =>
                    simp only [hc, bind, Except.bind, hcoll, hs, hi, if_true, pure,
                      Except.pure] at h
                    split at h
                    · cases h; exact ⟨_, rfl, rfl⟩
                    · cases h; exact ⟨_, rfl, rfl⟩
                | none =>
                    cases hx : (ParsedToken.new token).index with
                    | some i =>
                        simp only [hc, bind, Except.bind, hcoll, hs, hi, hx, if_true, pure,
                          Except.pure] at h
                        cases h; exact ⟨_, rfl, rfl⟩
                    | none =>
                        simp [ParsedToken.isElementOfCollection, hi, hx] at hq
  · simp only [hq, Bool.false_eq_true, if_false, _getElementOrCollection] at h
    cases hc : _getComponent comp (ParsedToken.new token).alias_ with
    | error e => simp [hc, bind, Except.bind] at h
    | ok e =>
        cases hs : _getSelector e with
        | error e' =>
            simp only [hc, bind, Except.bind, hs] at h
            split at h <;> cases h
        | ok sel =>
            simp only [hc, bind, Except.bind, hs, pure, Except.pure] at h
            split at h
            · cases h; exact ⟨_, rfl, rfl⟩
            · cases h; exact ⟨_, rfl, rfl⟩

theorem step_null (comp : Entry) (token : List Char) :
    step ⟨none, comp⟩ token = step ⟨some (.doc ROOT_ELEMENT_SELECTOR), comp⟩ token := by
  simp only [step, _getProtractorElement, _getElementOfCollection, _getElementOrCollection,
    rootElement]

/-- C4: `getElement` is the left fold of the hop function over the tokens of the
path, started at the document root `element(by.css("html"))` and the page; a hop
made from the locator `scope` and the entry `comp` gives a locator built by driver
calls on `scope` itself and the entry found for the token in `comp`; the result is
the locator of the last hop. -/
theorem getElement_is_left_fold (this : Entry) (key : List Char) :
    getElement this key =
        ((split TOKEN_SPLIT_REGEXP key).foldlM step
          ⟨some (.doc (.css "html".toList)), this⟩).map (fun node => node.element) ∧
      ∀ (scope : Finder) (comp : Entry) (token : List Char) (node : ComponentNode),
        step ⟨some scope, comp⟩ token = .ok node →
          (∃ f, node.element = some f ∧ f.scope = some scope) ∧
            _getComponent comp token = .ok node.component := by
  constructor
  · cases hs : split TOKEN_SPLIT_REGEXP key with
    | nil => exact absurd hs (split_ne_nil key)
    | cons t ts =>
        rw [getElement_eq_resolve this key t ts hs, resolve_eq_foldlM, List.foldlM_cons,
          List.foldlM_cons, step_null]
        rfl
  · intro scope comp token node h
    simp only [step] at h
    cases h1 : _getProtractorElement (some scope) comp token with
    | error e => simp [h1, bind, Except.bind] at h
    | ok r =>
        cases h2 : _getComponent comp token with
        | error e => simp [h1, h2, bind, Except.bind] at h
        | ok c =>
            simp only [h1, h2, bind, Except.bind, pure, Except.pure, Except.ok.injEq] at h
            subst h
            exact ⟨_getProtractorElement_scope h1, rfl⟩

/-- C4 at the path `"Header > #Home in Links"` on the sample page: the fold gives
the first link with the text under the header under the document root. -/
theorem getElement_is_left_fold_witness :
    getElement samplePage "Header > #Home in Links".toList =
      .ok (some (((Finder.doc (.css "html".toList)).element (.css "header".toList)).all
        (.cssContainingText "a".toList "Home".toList)).first) :=
  (getElement_is_left_fold samplePage "Header > #Home in Links".toList).1.trans rfl

/-! ## Claims on single hops -/

/-- The parse of a token the regular expression matches. -/
theorem ParsedToken_new_of_exec {t pre rest : List Char} {caps : Caps}
    (h : ELEMENT_OF_COLLECTION_REGEXP.exec t = some (pre, rest, caps)) :
    ∃ v k al, v ≠ [] ∧ isKeyword k = true ∧ al ≠ [] ∧
      ParsedToken.new t =
        { alias_ := al
          index := if k = ['o', 'f'] then some (parseInt v) else none
          innerText := if k = ['i', 'n'] then some v else none } := by
  obtain ⟨s, -, hs⟩ := exec_some_mem h
  obtain ⟨v, sp1, k, sp2, al, -, hv, -, -, -, hk, -, -, hal, -, rfl⟩ := mem_regexp_run hs
  refine ⟨v, k, al, hv, hk, hal, ?_⟩
  simp only [ParsedToken.new, h]
  simp [group, Caps.set]

/-- A token that is not qualified is a plain hop whose alias is the whole token. -/
theorem ParsedToken_new_of_not_qualified {t : List Char}
    (h : (ParsedToken.new t).isElementOfCollection = false) :
    ParsedToken.new t = { alias_ := t, index := none, innerText := none } := by
  cases he : ELEMENT_OF_COLLECTION_REGEXP.exec t with
  | none => simp [ParsedToken.new, he]
  | some r =>
      obtain ⟨pre, rest, caps⟩ := r
      obtain ⟨v, k, al, -, hk, -, hp⟩ := ParsedToken_new_of_exec he
      rw [hp] at h
      rcases isKeyword_iff.1 hk with rfl | rfl <;>
        simp [ParsedToken.isElementOfCollection] at h

/-- C5 (amended): a plain hop, at any position and under any scope root, whose
alias the current component maps to an entry with the translated selector `sel`
gives `scope.all(sel)` if the entry is a collection or the scope root is a
multi-match locator (it has a `count` member), and `scope.element(sel)` otherwise. -/
theorem plain_hop (cur : Option Finder) (comp e : Entry) (token : List Char)
    (m : List (List Char × Entry)) (sel : By)
    (hq : (ParsedToken.new token).isElementOfCollection = false)
    (hm : comp.elements = some m) (hget : mapGet m token = some e)
    (hs : _getSelector e = .ok sel) :
    _getProtractorElement cur comp token =
      .ok (some (if e.isCollection || (rootElement cur).count
        then (rootElement cur).all sel else (rootElement cur).element sel)) := by
  have hp := ParsedToken_new_of_not_qualified hq
  have h : _getComponent comp token = .ok e := by
    simp only [_getComponent, hm, hp, hget]
  have hq' : ({ alias_ := token, index := none, innerText := none } :
      ParsedToken).isElementOfCollection = false := rfl
  simp only [_getProtractorElement, hp, hq', Bool.false_eq_true, if_false,
    _getElementOrCollection, h]
  cases hc : (e.isCollection || (rootElement cur).count) <;>
    simp [bind, Except.bind, hc, hs, pure, Except.pure]

/-- C5 (amended) at the hop `Cell` under the multi-match scope root of `Rows`. -/
theorem plain_hop_witness :
    _getProtractorElement (some ((Finder.doc (.css "html".toList)).all (.css "tr".toList)))
        (component "tr" true [("Cell".toList, leaf "td" "css" false)]) "Cell".toList =
      .ok (some (((Finder.doc (.css "html".toList)).all (.css "tr".toList)).all
        (.css "td".toList))) :=
  plain_hop (some ((Finder.doc (.css "html".toList)).all (.css "tr".toList)))
    (component "tr" true [("Cell".toList, leaf "td" "css" false)]) (leaf "td" "css" false)
    "Cell".toList _ (.css "td".toList) rfl rfl rfl rfl

/-- C5 fails as stated: in the path `"Rows > Cell"` the hop `Cell` is plain and its
entry is not a collection, but under the multi-match scope root of `Rows` its locator
is `scope.all(selector)`, not `scope.element(selector)`. -/
theorem plain_hop_under_collection_fails :
    (ParsedToken.new "Cell".toList).isElementOfCollection = false ∧
    (leaf "td" "css" false).isCollection = false ∧
    getElement samplePage "Rows".toList =
      .ok (some ((Finder.doc (.css "html".toList)).all (.css "tr".toList))) ∧
    getElement samplePage "Rows > Cell".toList =
      .ok (some (((Finder.doc (.css "html".toList)).all (.css "tr".toList)).all
        (.css "td".toList))) ∧
    getElement samplePage "Rows > Cell".toList ≠
      .ok (some (((Finder.doc (.css "html".toList)).all (.css "tr".toList)).element
        (.css "td".toList))) := by
  refine ⟨rfl, rfl, rfl, rfl, ?_⟩
  intro h
  have h' : getElement samplePage "Rows > Cell".toList =
      .ok (some (((Finder.doc (.css "html".toList)).all (.css "tr".toList)).all
        (.css "td".toList))) := rfl
  rw [h'] at h
  cases h

/-- The key looked up for an alias is the alias itself unless the regular expression
of qualified tokens matches inside the alias. -/
theorem lookupKey_eq_self {a : List Char} (h : ELEMENT_OF_COLLECTION_REGEXP.exec a = none) :
    lookupKey a = a := by
  simp [lookupKey, ParsedToken.new, h]

theorem _getComponent_lookupKey {comp e : Entry} {m : List (List Char × Entry)} {a : List Char}
    (hm : comp.elements = some m) (hget : mapGet m (lookupKey a) = some e) :
    _getComponent comp a = .ok e := by
  simp only [lookupKey] at hget
  simp only [_getComponent, hm, hget]

/-- A text hop on a collection whose selector translated to `sel`. -/
theorem text_hop (cur : Option Finder) (comp e : Entry) (token s : List Char)
    (m : List (List Char × Entry)) (sel : By)
    (hi : (ParsedToken.new token).innerText = some s)
    (hm : comp.elements = some m)
    (hget : mapGet m (lookupKey (ParsedToken.new token).alias_) = some e)
    (hc : e.isCollection = true) (hs : _getSelector e = .ok sel) :
    _getProtractorElement cur comp token =
      .ok (some (if _isLocatorTranformable sel
        then ((rootElement cur).all (_transformLocatorByText sel s)).first
        else (((rootElement cur).all sel).filterIncludes s).first)) := by
  have hq : (ParsedToken.new token).isElementOfCollection = true := by
    simp [ParsedToken.isElementOfCollection, hi]
  simp only [_getProtractorElement, hq, if_true, _getElementOfCollection,
    _getComponent_lookupKey hm hget, hi]
  cases ht : _isLocatorTranformable sel <;>
    simp [bind, Except.bind, hc, hs, pure, Except.pure, Finder.locator, ht]

/-- C6 (amended): a text hop `#s in A` whose alias the resolver finds (under the key
`lookupKey`) mapped to a collection of selector type `css` gives, under the scope
root, exactly `root.all(by.cssContainingText(selector, s)).first()`: one combined
query and `first`, which adds no filter step to those of the scope root. -/
theorem text_hop_css (cur : Option Finder) (comp e : Entry) (token s : List Char)
    (m : List (List Char × Entry))
    (hi : (ParsedToken.new token).innerText = some s)
    (hm : comp.elements = some m)
    (hget : mapGet m (lookupKey (ParsedToken.new token).alias_) = some e)
    (hc : e.isCollection = true) (hcss : e.selectorType = some "css".toList) :
    _getProtractorElement cur comp token =
        .ok (some ((rootElement cur).all (.cssContainingText e.selector s)).first) ∧
      ((rootElement cur).all (.cssContainingText e.selector s)).first.filterSteps =
        (rootElement cur).filterSteps := by
  have hs : _getSelector e = .ok (.css e.selector) := by
    simp [_getSelector, hcss]
  rw [text_hop cur comp e token s m (.css e.selector) hi hm hget hc hs]
  exact ⟨rfl, rfl⟩

/-- C6 (amended) at the hop `"#Home in Links"` under the header of the sample page. -/
theorem text_hop_css_witness :
    _getProtractorElement
        (some ((Finder.doc (.css "html".toList)).element (.css "header".toList)))
        (component "header" false
          [("Links".toList, leaf "a" "css" true), ("XLinks".toList, leaf "//a" "xpath" true)])
        "#Home in Links".toList =
      .ok (some (((Finder.doc (.css "html".toList)).element (.css "header".toList)).all
        (.cssContainingText "a".toList "Home".toList)).first) :=
  (text_hop_css
    (some ((Finder.doc (.css "html".toList)).element (.css "header".toList)))
    (component "header" false
      [("Links".toList, leaf "a" "css" true), ("XLinks".toList, leaf "//a" "xpath" true)])
    (leaf "a" "css" true) "#Home in Links".toList "Home".toList
    [("Links".toList, leaf "a" "css" true), ("XLinks".toList, leaf "//a" "xpath" true)]
    rfl rfl rfl rfl rfl).1

/-- C6 fails as stated: the hop `"#a\nin #x in y"` has the text `a` and the alias
`#x in y`, which the page maps to the `css` collection `.p`, but its locator is
built from the selector `.q` of the entry `y`; and the token `"#s in x in y"`,
formatted from the alias `x in y` of a `css` collection, raises an error. -/
theorem text_hop_css_nested_pattern_fails :
    (ParsedToken.new "#a\nin #x in y".toList).innerText = some "a".toList ∧
    (ParsedToken.new "#a\nin #x in y".toList).alias_ = "#x in y".toList ∧
    entryAt nestedPatternPage "#x in y".toList = some (leaf ".p" "css" true) ∧
    _getProtractorElement none nestedPatternPage "#a\nin #x in y".toList =
      .ok (some ((Finder.doc (.css "html".toList)).all
        (.cssContainingText ".q".toList "a".toList)).first) ∧
    entryAt (page [("x in y".toList, leaf ".p" "css" true)]) "x in y".toList =
      some (leaf ".p" "css" true) ∧
    _getProtractorElement none (page [("x in y".toList, leaf ".p" "css" true)])
      "#s in x in y".toList = .error (.noSuchElement "y".toList) :=
  ⟨rfl, rfl, rfl, rfl, rfl, rfl⟩

theorem _getSelector_xpath {d : Entry} (h : d.selectorType = some "xpath".toList) :
    _getSelector d = .ok (.xpath d.selector) := by
  simp [_getSelector, h]

theorem _getSelector_js {d : Entry} (h : d.selectorType = some "js".toList) :
    _getSelector d = .ok (.js d.selector) := by
  simp [_getSelector, h]

theorem _getSelector_cssContainingText {d : Entry}
    (h : d.selectorType = some "cssContainingText".toList) :
    _getSelector d =
      match d.text with
      | some (c :: t) => .ok (.cssContainingText d.selector (c :: t))
      | _ => .error .textNotDefined := by
  simp [_getSelector, h]

/-- C7 (amended): a text hop `#s in A` whose alias the resolver finds (under the key
`lookupKey`) mapped to a collection of selector type `xpath`, `js` or
`cssContainingText` with the translated selector `sel` gives, without error,
`root.all(sel).filter(text includes s).first()`; on a collection given as the list
of its elements in document order, `filter` and `first` give the first element whose
text contains `s`, and nothing exactly when no element's text contains `s`. -/
theorem text_hop_fallback (cur : Option Finder) (comp e : Entry) (token s : List Char)
    (m : List (List Char × Entry)) (sel : By)
    (hi : (ParsedToken.new token).innerText = some s)
    (hm : comp.elements = some m)
    (hget : mapGet m (lookupKey (ParsedToken.new token).alias_) = some e)
    (hc : e.isCollection = true)
    (hty : e.selectorType = some "xpath".toList ∨ e.selectorType = some "js".toList ∨
      e.selectorType = some "cssContainingText".toList)
    (hs : _getSelector e = .ok sel) :
    _getProtractorElement cur comp token =
        .ok (some (((rootElement cur).all sel).filterIncludes s).first) ∧
      ∀ (α : Type) (text : α → List Char) (elements : List α),
        firstOf (filterByText text elements s) =
            elements.find? (fun x => includes (text x) s) ∧
          (firstOf (filterByText text elements s) = none ↔
            ∀ x ∈ elements, includes (text x) s = false) := by
  constructor
  · have ht : _isLocatorTranformable sel = false := by
      rcases hty with h | h | h
      · rw [_getSelector_xpath h] at hs
        cases hs
        rfl
      · rw [_getSelector_js h] at hs
        cases hs
        rfl
      · rw [_getSelector_cssContainingText h] at hs
        split at hs
        · cases hs
          rfl
        · cases hs
    rw [text_hop cur comp e token s m sel hi hm hget hc hs, ht]
    rfl
  · intro α text elements
    have hf : firstOf (filterByText text elements s) =
        elements.find? (fun x => includes (text x) s) := by
      unfold firstOf filterByText
      induction elements with
      | nil => rfl
      | cons x xs ih =>
          cases hx : includes (text x) s <;> simp [List.filter, List.find?, hx, ih]
    refine ⟨hf, ?_⟩
    rw [hf, List.find?_eq_none]
    simp

/-- C7 (amended) at the hop `"#Home in XLinks"` under the header of the sample
page. -/
theorem text_hop_fallback_witness :
    _getProtractorElement
        (some ((Finder.doc (.css "html".toList)).element (.css "header".toList)))
        (component "header" false
          [("Links".toList, leaf "a" "css" true), ("XLinks".toList, leaf "//a" "xpath" true)])
        "#Home in XLinks".toList =
      .ok (some ((((Finder.doc (.css "html".toList)).element (.css "header".toList)).all
        (.xpath "//a".toList)).filterIncludes "Home".toList).first) :=
  (text_hop_fallback
    (some ((Finder.doc (.css "html".toList)).element (.css "header".toList)))
    (component "header" false
      [("Links".toList, leaf "a" "css" true), ("XLinks".toList, leaf "//a" "xpath" true)])
    (leaf "//a" "xpath" true) "#Home in XLinks".toList "Home".toList
    [("Links".toList, leaf "a" "css" true), ("XLinks".toList, leaf "//a" "xpath" true)]
    (.xpath "//a".toList) rfl rfl rfl rfl (Or.inl rfl) rfl).1

/-- C7 fails as stated: the hop `"#a\nin #x in y"` has the text `a` and the alias
`#x in y`, which the page maps to the `xpath` collection `//p`, but its locator is
built from the selector `//q` of the entry `y`; and the token `"#s in x in y"`,
formatted from the alias `x in y` of an `xpath` collection, raises an error. -/
theorem text_hop_fallback_nested_pattern_fails :
    (ParsedToken.new "#a\nin #x in y".toList).innerText = some "a".toList ∧
    (ParsedToken.new "#a\nin #x in y".toList).alias_ = "#x in y".toList ∧
    entryAt nestedPatternXPathPage "#x in y".toList = some (leaf "//p" "xpath" true) ∧
    _getProtractorElement none nestedPatternXPathPage "#a\nin #x in y".toList =
      .ok (some (((Finder.doc (.css "html".toList)).all
        (.xpath "//q".toList)).filterIncludes "a".toList).first) ∧
    entryAt (page [("x in y".toList, leaf "//p" "xpath" true)]) "x in y".toList =
      some (leaf "//p" "xpath" true) ∧
    _getProtractorElement none (page [("x in y".toList, leaf "//p" "xpath" true)])
      "#s in x in y".toList = .error (.noSuchElement "y".toList) :=
  ⟨rfl, rfl, rfl, rfl, rfl, rfl⟩

/-- C8: `_getSelector` is the table of the selector types: `by.css`, `by.xpath`,
`by.js` of the selector, `by.cssContainingText` of the selector and a non-empty
text; the missing-text error exactly for `cssContainingText` with an absent or empty
text; the unknown-selector-type error exactly for any other selector type,
`undefined` included. -/
theorem _getSelector_table (d : Entry) :
    (d.selectorType = some "css".toList → _getSelector d = .ok (.css d.selector)) ∧
    (d.selectorType = some "xpath".toList → _getSelector d = .ok (.xpath d.selector)) ∧
    (d.selectorType = some "js".toList → _getSelector d = .ok (.js d.selector)) ∧
    (∀ c t, d.selectorType = some "cssContainingText".toList → d.text = some (c :: t) →
      _getSelector d = .ok (.cssContainingText d.selector (c :: t))) ∧
    (_getSelector d = .error .textNotDefined ↔
      d.selectorType = some "cssContainingText".toList ∧
        (d.text = none ∨ d.text = some [])) ∧
    ((∃ t, _getSelector d = .error (.selectorTypeNotDefined t)) ↔
      d.selectorType ≠ some "css".toList ∧ d.selectorType ≠ some "xpath".toList ∧
        d.selectorType ≠ some "js".toList ∧
        d.selectorType ≠ some "cssContainingText".toList) ∧
    (∀ t, _getSelector d = .error (.selectorTypeNotDefined t) → t = d.selectorType) := by
  refine ⟨?_, ?_, ?_, ?_, ?_, ?_, ?_⟩
  · intro h; simp [_getSelector, h]
  · intro h; simp [_getSelector, h]
  · intro h; simp [_getSelector, h]
  · intro c t h ht; simp [_getSelector, h, ht]
  · unfold _getSelector
    constructor
    · intro h
      split at h
      · cases h
      · split at h
        · cases h
        · split at h
          · cases h
          · split at h
            · rename_i h4
              refine ⟨h4, ?_⟩
              cases ht : d.text with
              | none => exact Or.inl rfl
              | some x =>
                  cases x with
                  | nil => exact Or.inr rfl
                  | cons c t => simp [ht] at h
            · cases h
    · rintro ⟨h, ht⟩
      rcases ht with ht | ht <;> simp [h, ht]
  · unfold _getSelector
    constructor
    · rintro ⟨t, h⟩
      split at h
      · cases h
      · split at h
        · cases h
        · split at h
          · cases h
          · split at h
            · split at h <;> cases h
            · rename_i h1 h2 h3 h4
              exact ⟨h1, h2, h3, h4⟩
    · rintro ⟨h1, h2, h3, h4⟩
      exact ⟨d.selectorType, by rw [if_neg h1, if_neg h2, if_neg h3, if_neg h4]⟩
  · intro t h
    unfold _getSelector at h
    split at h
    · cases h
    · split at h
      · cases h
      · split at h
        · cases h
        · split at h
          · split at h <;> cases h
          · cases h; rfl

/-! ## A leaf without text -/

theorem Without.fields {L e e' : Entry} (h : Without L e e') :
    e.selector = e'.selector ∧ e.selectorType = e'.selectorType ∧ e.text = e'.text ∧
      e.isCollection = e'.isCollection := by
  cases h with
  | same => exact ⟨rfl, rfl, rfl, rfl⟩
  | erase => exact ⟨rfl, rfl, rfl, rfl⟩

theorem Without._getSelector {L e e' : Entry} (h : Without L e e') :
    _getSelector e = _getSelector e' := by
  obtain ⟨h1, h2, h3, -⟩ := h.fields
  simp only [AbstractPage._getSelector, h1, h2, h3]

/-- The lookup of an alias in two related registries, when it does not give `L`. -/
theorem Without._getComponent {L c c' : Entry} (h : Without L c c') (a : List Char)
    (ha : entryAt c (lookupKey a) ≠ some L) :
    (∃ err, _getComponent c a = .error err ∧ _getComponent c' a = .error err) ∨
      ∃ x x', _getComponent c a = .ok x ∧ _getComponent c' a = .ok x' ∧ Without L x x' := by
  cases h with
  | same =>
      cases hc : AbstractPage._getComponent c a with
      | error err => exact Or.inl ⟨err, rfl, rfl⟩
      | ok x => exact Or.inr ⟨x, x, rfl, rfl, Without.same x⟩
  | erase s t x b m m' hnone hdom hrel =>
      simp only [entryAt, Entry.elements, lookupKey] at ha
      simp only [AbstractPage._getComponent, Entry.elements]
      cases hm' : mapGet m' (ParsedToken.new a).alias_ with
      | none =>
          rcases hnone _ hm' with hm | hm
          · exact Or.inl ⟨_, by simp [hm], rfl⟩
          · exact absurd hm ha
      | some x' =>
          cases hm : mapGet m (ParsedToken.new a).alias_ with
          | none => exact absurd hm (hdom _ _ hm')
          | some x => exact Or.inr ⟨x, x', rfl, rfl, hrel _ _ _ hm hm'⟩

/-- The locator of a hop is the same in two related registries, when the hop does
not select `L`. -/
theorem Without._getProtractorElement {L c c' : Entry} (h : Without L c c')
    (cur : Option Finder) (token : List Char)
    (ha : entryAt c (lookupKey (ParsedToken.new token).alias_) ≠ some L) :
    _getProtractorElement cur c token = _getProtractorElement cur c' token := by
  unfold AbstractPage._getProtractorElement _getElementOfCollection _getElementOrCollection
  rcases h._getComponent _ ha with ⟨err, h1, h2⟩ | ⟨x, x', h1, h2, hx⟩
  · simp only [h1, h2]
  · obtain ⟨-, -, -, hcoll⟩ := hx.fields
    simp only [h1, h2, bind, Except.bind, hx._getSelector, hcoll]

/-- A hop in two related registries, when it does not select `L`. -/
theorem Without.step {L c c' : Entry} (h : Without L c c') (cur : Option Finder)
    (token : List Char)
    (h1 : entryAt c (lookupKey (ParsedToken.new token).alias_) ≠ some L)
    (h2 : entryAt c (lookupKey token) ≠ some L) :
    (∃ err, step ⟨cur, c⟩ token = .error err ∧ step ⟨cur, c'⟩ token = .error err) ∨
      ∃ f x x', step ⟨cur, c⟩ token = .ok ⟨f, x⟩ ∧ step ⟨cur, c'⟩ token = .ok ⟨f, x'⟩ ∧
        Without L x x' := by
  simp only [AbstractPage.step, ← h._getProtractorElement cur token h1]
  cases hp : AbstractPage._getProtractorElement cur c token with
  | error err => exact Or.inl ⟨err, rfl, rfl⟩
  | ok f =>
      rcases h._getComponent token h2 with ⟨err, e1, e2⟩ | ⟨x, x', e1, e2, hx⟩
      · exact Or.inl ⟨err, by simp [e1, bind, Except.bind], by simp [e2, bind, Except.bind]⟩
      · exact Or.inr ⟨f, x, x', by simp [e1, bind, Except.bind, pure, Except.pure],
          by simp [e2, bind, Except.bind, pure, Except.pure], hx⟩

theorem Without.resolve {L : Entry} (tokens : List (List Char)) :
    ∀ (cur : Option Finder) (c c' : Entry), Without L c c' → Avoids L ⟨cur, c⟩ tokens →
      (resolve ⟨cur, c⟩ tokens).map (fun node => node.element) =
        (resolve ⟨cur, c'⟩ tokens).map (fun node => node.element) := by
  induction tokens with
  | nil => intro cur c c' _ _; rfl
  | cons t ts ih =>
      intro cur c c' h hav
      obtain ⟨h1, h2, h3⟩ := hav
      simp only [AbstractPage.resolve]
      rcases h.step cur t h1 h2 with ⟨err, e1, e2⟩ | ⟨f, x, x', e1, e2, hx⟩
      · simp only [e1, e2]
      · simp only [e1] at h3
        simp only [e1, e2]
        exact ih f x x' hx h3

theorem getElement_error_of_step {this : Entry} {key tk : List Char}
    {pre post : List (List Char)} {node : ComponentNode} {err : Err}
    (hsplit : split TOKEN_SPLIT_REGEXP key = pre ++ tk :: post)
    (hpre : resolve ⟨none, this⟩ pre = .ok node) (hstep : step node tk = .error err) :
    getElement this key = .error err := by
  have hres : resolve ⟨none, this⟩ (pre ++ tk :: post) = .error err := by
    rw [resolve_append, hpre]
    simp only [resolve, hstep]
  cases hp : pre ++ tk :: post with
  | nil => simp at hp
  | cons t ts =>
      rw [hp] at hsplit hres
      rw [getElement_eq_resolve this key t ts hsplit, hres]
      rfl

/-- A hop that translates the selector of a `cssContainingText` entry without text
fails with the missing-text error. -/
theorem _getProtractorElement_textNotDefined {L comp : Entry} {m : List (List Char × Entry)}
    (cur : Option Finder) (token : List Char)
    (hty : L.selectorType = some "cssContainingText".toList)
    (htext : L.text = none ∨ L.text = some [])
    (hm : comp.elements = some m)
    (hget : mapGet m (lookupKey (ParsedToken.new token).alias_) = some L)
    (hsel : (ParsedToken.new token).isElementOfCollection = false ∨ L.isCollection = true) :
    _getProtractorElement cur comp token = .error .textNotDefined := by
  have hs : _getSelector L = .error .textNotDefined := by
    rw [_getSelector_cssContainingText hty]
    rcases htext with h | h <;> simp [h]
  have hc := _getComponent_lookupKey hm hget
  unfold _getProtractorElement
  by_cases hq : (ParsedToken.new token).isElementOfCollection = true
  · have hcoll : L.isCollection = true := by
      rcases hsel with h | h
      · rw [hq] at h; cases h
      · exact h
    simp only [hq, if_true, _getElementOfCollection, hc]
    simp [bind, Except.bind, hcoll, hs]
  · simp only [hq, Bool.false_eq_true, if_false, _getElementOrCollection, hc]
    simp only [bind, Except.bind, hs]
    split <;> rfl

/-- C9: a registered `cssContainingText` leaf `L` whose text is unset or empty makes
resolution fail with the missing-text error only when a hop translates its selector.
A path with a plain hop that selects `L`, or with a qualified hop that selects `L`
when `L` is a collection, fails with `"Text is not defined"`; a path none of whose
hops selects `L` resolves to the same result as in the registry without `L`. -/
theorem missing_text_only_when_reached (L : Entry)
    (hty : L.selectorType = some "cssContainingText".toList)
    (htext : L.text = none ∨ L.text = some []) :
    (∀ (this : Entry) (key tk : List Char) (pre post : List (List Char))
        (node : ComponentNode) (m : List (List Char × Entry)),
        split TOKEN_SPLIT_REGEXP key = pre ++ tk :: post →
        resolve ⟨none, this⟩ pre = .ok node →
        node.component.elements = some m →
        mapGet m (lookupKey (ParsedToken.new tk).alias_) = some L →
        ((ParsedToken.new tk).isElementOfCollection = false ∨ L.isCollection = true) →
        getElement this key = .error .textNotDefined) ∧
      Err.textNotDefined.message = "Text is not defined".toList ∧
      ∀ (this this' : Entry) (key : List Char), Without L this this' →
        Avoids L ⟨none, this⟩ (split TOKEN_SPLIT_REGEXP key) →
        getElement this key = getElement this' key := by
  refine ⟨?_, rfl, ?_⟩
  · intro this key tk pre post node m hsplit hpre hm hget hsel
    apply getElement_error_of_step hsplit hpre
    simp only [step, _getProtractorElement_textNotDefined node.element tk hty htext hm hget hsel]
    rfl
  · intro this this' key h hav
    cases hs : split TOKEN_SPLIT_REGEXP key with
    | nil => exact absurd hs (split_ne_nil key)
    | cons t ts =>
        rw [hs] at hav
        rw [getElement_eq_resolve this key t ts hs, getElement_eq_resolve this' key t ts hs]
        exact Without.resolve (t :: ts) none this this' h hav

theorem mapGet_cons (k key : List Char) (v : Entry) (m : List (List Char × Entry)) :
    mapGet ((k, v) :: m) key = if k = key then some v else mapGet m key := rfl

theorem textlessPage_without : Without textlessLeaf textlessPage titlePage := by
  refine Without.erase [] none none false _ _ ?_ ?_ ?_
  · intro key h
    rw [mapGet_cons] at h
    rw [mapGet_cons, mapGet_cons]
    by_cases h1 : "Title".toList = key
    · rw [if_pos h1] at h
      cases h
    · rw [if_neg h1]
      by_cases h2 : "Hint".toList = key
      · right; rw [if_pos h2]
      · left; rw [if_neg h2]; rfl
  · intro key x' h
    rw [mapGet_cons] at h
    rw [mapGet_cons]
    by_cases h1 : "Title".toList = key
    · rw [if_pos h1]
      exact fun h0 => Option.noConfusion h0
    · rw [if_neg h1] at h
      cases h
  · intro key x x' h h'
    rw [mapGet_cons] at h h'
    by_cases h1 : "Title".toList = key
    · rw [if_pos h1] at h h'
      cases h
      cases h'
      exact Without.same _
    · rw [if_neg h1] at h'
      cases h'

theorem textlessPage_avoids :
    Avoids textlessLeaf ⟨none, textlessPage⟩ (split TOKEN_SPLIT_REGEXP "Title".toList) := by
  have hne : entryAt textlessPage "Title".toList ≠ some textlessLeaf := fun h =>
    absurd (congrArg (Option.map Entry.selectorType) h) (by decide)
  exact ⟨hne, hne, trivial⟩

/-- C9 on a page with an element `Title` and a `cssContainingText` leaf `Hint`
without text: the path `"Hint"` fails with the missing-text error, and the path
`"Title"` resolves as on the page without `Hint`. -/
theorem missing_text_only_when_reached_witness :
    getElement textlessPage "Hint".toList = .error .textNotDefined ∧
      getElement textlessPage "Title".toList = getElement titlePage "Title".toList :=
  ⟨(missing_text_only_when_reached textlessLeaf rfl (Or.inl rfl)).1 textlessPage
      "Hint".toList "Hint".toList [] [] ⟨none, textlessPage⟩
      [("Title".toList, leaf "//h1" "xpath" false), ("Hint".toList, textlessLeaf)]
      rfl rfl rfl rfl (Or.inl rfl),
    (missing_text_only_when_reached textlessLeaf rfl (Or.inl rfl)).2.2 textlessPage titlePage
      "Title".toList textlessPage_without textlessPage_avoids⟩

/-! ## Claims on the shape of tokens -/

/-- C11: for every token, the parsed token has neither of `index` and `innerText`
defined or exactly one of them, never both: `hasTokenOf` and `hasTokenIn` are never
both true and `isElementOfCollection` is true exactly when one of them is. A value
before `of` that is not numeric gives the index `NaN`, which is defined. -/
theorem index_innerText_exclusive (t : List Char) :
    ¬ ((ParsedToken.new t).hasTokenOf = true ∧ (ParsedToken.new t).hasTokenIn = true) ∧
    (ParsedToken.new t).isElementOfCollection =
      ((ParsedToken.new t).hasTokenOf || (ParsedToken.new t).hasTokenIn) ∧
    (((ParsedToken.new t).index = none ∧ (ParsedToken.new t).innerText = none) ∨
      ((ParsedToken.new t).index ≠ none ∧ (ParsedToken.new t).innerText = none) ∨
      ((ParsedToken.new t).index = none ∧ (ParsedToken.new t).innerText ≠ none)) ∧
    (ParsedToken.new "#abc of Items".toList).index = some .nan ∧
    (ParsedToken.new "#abc of Items".toList).innerText = none := by
  refine ⟨?_, rfl, ?_, rfl, rfl⟩
  · cases he : ELEMENT_OF_COLLECTION_REGEXP.exec t with
    | none => simp [ParsedToken.new, he, ParsedToken.hasTokenOf]
    | some r =>
        obtain ⟨pre, rest, caps⟩ := r
        obtain ⟨v, k, al, -, hk, -, hp⟩ := ParsedToken_new_of_exec he
        rw [hp]
        rcases isKeyword_iff.1 hk with rfl | rfl <;>
          simp [ParsedToken.hasTokenOf, ParsedToken.hasTokenIn]
  · cases he : ELEMENT_OF_COLLECTION_REGEXP.exec t with
    | none => simp [ParsedToken.new, he]
    | some r =>
        obtain ⟨pre, rest, caps⟩ := r
        obtain ⟨v, k, al, -, hk, -, hp⟩ := ParsedToken_new_of_exec he
        rw [hp]
        rcases isKeyword_iff.1 hk with rfl | rfl <;> simp

theorem exec_isSome_of_run {r : Re} :
    ∀ (pre s : List Char), r.run s Caps.empty ≠ [] → (r.exec (pre ++ s)).isSome = true
  | [], s, h => by
      cases s with
      | nil =>
          cases hr : r.run [] Caps.empty with
          | nil => exact absurd hr h
          | cons m l => simp [Re.exec, Re.matchHere, hr]
      | cons x t =>
          cases hr : r.run (x :: t) Caps.empty with
          | nil => exact absurd hr h
          | cons m l => simp [Re.exec, Re.matchHere, hr]
  | x :: pre, s, h => by
      have ih := exec_isSome_of_run pre s h
      simp only [List.cons_append, Re.exec]
      cases hm : r.matchHere (x :: (pre ++ s)) with
      | some m => rfl
      | none =>
          cases he : r.exec (pre ++ s) with
          | none => rw [he] at ih; cases ih
          | some m => rfl

theorem valueRests_mem_of_dots {v r : List Char} (hv : v ≠ [])
    (hd : ∀ x ∈ v, isDot x = true) : r ∈ valueRests (v ++ r) := by
  simp only [valueRests, List.mem_flatMap]
  refine ⟨v ++ r, ?_, mem_plusRests.2 ⟨v, hv, rfl, hd⟩⟩
  cases v with
  | nil => exact absurd rfl hv
  | cons x v =>
      simp only [List.cons_append, optRests]
      split <;> simp

/-- A text of the shape `# VALUE \s+ (in|of) \s+ ALIAS` is matched at its start. -/
theorem regexp_run_of_shape {v sp1 k sp2 al rest : List Char} (c : Caps) (hv : v ≠ [])
    (hvd : ∀ x ∈ v, isDot x = true) (h1 : sp1 ≠ []) (h2 : ∀ x ∈ sp1, isSpace x = true)
    (hk : isKeyword k = true) (h3 : sp2 ≠ []) (h4 : ∀ x ∈ sp2, isSpace x = true)
    (h5 : al ≠ []) (h6 : ∀ x ∈ al, isDot x = true) :
    (rest, ((c.set 1 v).set 2 k).set 3 al) ∈
      ELEMENT_OF_COLLECTION_REGEXP.run ('#' :: (v ++ (sp1 ++ (k ++ (sp2 ++ (al ++ rest)))))) c := by
  rw [regexp_run_cons, List.mem_flatMap]
  refine ⟨sp1 ++ (k ++ (sp2 ++ (al ++ rest))), valueRests_mem_of_dots hv hvd, ?_⟩
  rw [take_length_sub]
  exact mem_tailRe_run.2 ⟨sp1, k, sp2, al, rfl, h1, h2, hk, h3, h4, h5, h6, rfl⟩

/-- C13 (amended): a token is a qualified hop if and only if somewhere in it, not
necessarily at its start nor up to its end, there is a part of the shape
`#` VALUE WS (`in` | `of`) WS ALIAS, with VALUE and ALIAS non-empty and free of line
terminators and both WS non-empty white space; every other token is a plain hop
whose alias is the whole token. -/
theorem qualified_iff_shape (t : List Char) :
    ((ParsedToken.new t).isElementOfCollection = true ↔
      ∃ pre v sp1 k sp2 al rest,
        t = pre ++ '#' :: (v ++ (sp1 ++ (k ++ (sp2 ++ (al ++ rest))))) ∧
        v ≠ [] ∧ (∀ x ∈ v, isLineTerminator x = false) ∧
        sp1 ≠ [] ∧ (∀ x ∈ sp1, isSpace x = true) ∧ isKeyword k = true ∧
        sp2 ≠ [] ∧ (∀ x ∈ sp2, isSpace x = true) ∧
        al ≠ [] ∧ (∀ x ∈ al, isLineTerminator x = false)) ∧
    ((ParsedToken.new t).isElementOfCollection = false →
      ParsedToken.new t = { alias_ := t, index := none, innerText := none }) := by
  refine ⟨⟨?_, ?_⟩, ParsedToken_new_of_not_qualified⟩
  · intro h
    cases he : ELEMENT_OF_COLLECTION_REGEXP.exec t with
    | none => simp [ParsedToken.new, he, ParsedToken.isElementOfCollection] at h
    | some r =>
        obtain ⟨pre, rest, caps⟩ := r
        obtain ⟨s, rfl, hs⟩ := exec_some_mem he
        obtain ⟨v, sp1, k, sp2, al, rfl, h1, h2, h3, h4, h5, h6, h7, h8, h9, -⟩ :=
          mem_regexp_run hs
        refine ⟨pre, v, sp1, k, sp2, al, rest, rfl, h1, ?_, h3, h4, h5, h6, h7, h8, ?_⟩
        · intro x hx
          simpa [isDot] using h2 x hx
        · intro x hx
          simpa [isDot] using h9 x hx
  · rintro ⟨pre, v, sp1, k, sp2, al, rest, rfl, h1, h2, h3, h4, h5, h6, h7, h8, h9⟩
    have hrun := @regexp_run_of_shape v sp1 k sp2 al rest Caps.empty h1
      (fun x hx => by simp [isDot, h2 x hx]) h3 h4 h5 h6 h7 h8
      (fun x hx => by simp [isDot, h9 x hx])
    have hsome := exec_isSome_of_run pre _ (List.ne_nil_of_mem hrun)
    cases he : ELEMENT_OF_COLLECTION_REGEXP.exec
        (pre ++ '#' :: (v ++ (sp1 ++ (k ++ (sp2 ++ (al ++ rest)))))) with
    | none => rw [he] at hsome; cases hsome
    | some r =>
        obtain ⟨pre', rest', caps⟩ := r
        obtain ⟨v', k', al', -, hk', -, hp⟩ := ParsedToken_new_of_exec he
        rw [hp]
        rcases isKeyword_iff.1 hk' with rfl | rfl <;>
          simp [ParsedToken.isElementOfCollection]

/-- C13 fails as stated: the token `"x#2 of Items"`, with text before the `#`, is a
qualified hop with the alias `Items`, and the token `"#2of Items"`, of the shape with
an empty white space before the keyword, is a plain hop. -/
theorem qualified_iff_shape_whole_token_fails :
    ParsedToken.new "x#2 of Items".toList =
      { alias_ := "Items".toList, index := some (.int 2), innerText := none } ∧
    ParsedToken.new "#2of Items".toList =
      { alias_ := "#2of Items".toList, index := none, innerText := none } :=
  ⟨rfl, rfl⟩

/-- Of `index` and `innerText`, one is always undefined. -/
theorem index_innerText_none (t : List Char) :
    (ParsedToken.new t).index = none ∨ (ParsedToken.new t).innerText = none := by
  cases he : ELEMENT_OF_COLLECTION_REGEXP.exec t with
  | none => simp [ParsedToken.new, he]
  | some r =>
      obtain ⟨pre, rest, caps⟩ := r
      obtain ⟨v, k, al, -, hk, -, hp⟩ := ParsedToken_new_of_exec he
      rw [hp]
      rcases isKeyword_iff.1 hk with rfl | rfl <;> simp

/-- C14 fails as stated: the token `"#a in b in c"` gives the value `a in b` and the
alias `c`, not the value `a` and the alias `b in c`. -/
theorem value_captured_greedily_first_keyword_fails :
    ParsedToken.new "#a in b in c".toList =
      { alias_ := "c".toList, index := none, innerText := some "a in b".toList } ∧
    ParsedToken.new "#a in b in c".toList ≠
      { alias_ := "b in c".toList, index := none, innerText := some "a".toList } := by
  decide

/-- The greedy capture on three tokens: in `"#a in b in c"` the value ends before the
last keyword; in `"#a\nin b in c"` the line terminator ends the value, which `.`
does not match; in `"#a in b in "` no alias follows the last keyword, and the value
ends before the first one. -/
theorem greedy_capture_examples :
    ParsedToken.new "#a in b in c".toList =
      { alias_ := "c".toList, index := none, innerText := some "a in b".toList } ∧
    ParsedToken.new "#a\nin b in c".toList =
      { alias_ := "b in c".toList, index := none, innerText := some "a".toList } ∧
    ParsedToken.new "#a in b in ".toList =
      { alias_ := "b in ".toList, index := none, innerText := some "a".toList } := by
  decide

/-- C15 fails as stated: the paths `"#abc of Buttons"`, `"#!2 of Buttons"` and
`"#2nd of Buttons"` resolve to locators, with the positions `NaN`, `NaN` and 1. -/
theorem index_hop_malformed_value_fails :
    getElement samplePage "#abc of Buttons".toList =
      .ok (some (((Finder.doc (.css "html".toList)).all (.css ".btn".toList)).get .nan)) ∧
    getElement samplePage "#!2 of Buttons".toList =
      .ok (some (((Finder.doc (.css "html".toList)).all (.css ".btn".toList)).get .nan)) ∧
    getElement samplePage "#2nd of Buttons".toList =
      .ok (some (((Finder.doc (.css "html".toList)).all (.css ".btn".toList)).get (.int 1))) :=
  ⟨rfl, rfl, rfl⟩

/-! ## The first match is the greedy one -/

theorem head?_flatMap_split {α β : Type} {f : α → List β} {m : β} :
    ∀ {l : List α}, (l.flatMap f).head? = some m →
      ∃ l1 a l2, l = l1 ++ a :: l2 ∧ (∀ y ∈ l1, f y = []) ∧ (f a).head? = some m
  | [], h => by simp at h
  | x :: l, h => by
      cases hx : f x with
      | nil =>
          simp only [List.flatMap_cons, hx, List.nil_append] at h
          obtain ⟨l1, a, l2, rfl, h1, h2⟩ := head?_flatMap_split h
          refine ⟨x :: l1, a, l2, rfl, ?_, h2⟩
          intro y hy
          rcases List.mem_cons.1 hy with rfl | hy
          · exact hx
          · exact h1 y hy
      | cons b bs =>
          simp only [List.flatMap_cons, hx, List.cons_append, List.head?_cons,
            Option.some.injEq] at h
          exact ⟨[], x, l, rfl, by simp, by simp [hx, h]⟩

theorem head?_append_append {β : Type} (X Y : List β) :
    (X ++ (X ++ Y)).head? = (X ++ Y).head? := by
  cases X <;> simp

/-- The first match of `[!\$]?.+` followed by something is the first match of `.+`
followed by it: the marker is a character `.` matches. -/
theorem head?_valueRests_flatMap {β : Type} (F : List Char → List β) (s : List Char) :
    ((valueRests s).flatMap F).head? = ((plusRests isDot s).flatMap F).head? := by
  cases s with
  | nil => simp [valueRests, optRests, plusRests]
  | cons x t =>
      by_cases hx : isMarker x = true
      · have hd : isDot x = true := isDot_of_isMarker hx
        simp only [valueRests, optRests, hx, if_true, List.flatMap_cons, List.flatMap_nil,
          List.append_nil]
        have hp : plusRests isDot (x :: t) = plusRests isDot t ++ [t] := by
          simp [plusRests, hd]
        rw [hp, List.flatMap_append, List.flatMap_append, head?_append_append]
      · simp [valueRests, optRests, hx]

theorem plusRests_pairwise (p : Char → Bool) :
    ∀ s : List Char, (plusRests p s).Pairwise (fun a b => a.length < b.length)
  | [] => by simp [plusRests]
  | c :: t => by
      unfold plusRests
      split
      · rw [List.pairwise_append]
        refine ⟨plusRests_pairwise p t, by simp, ?_⟩
        intro a ha b hb
        rw [List.mem_singleton] at hb
        subst hb
        obtain ⟨pre, hpre, rfl, -⟩ := mem_plusRests.1 ha
        cases pre with
        | nil => exact absurd rfl hpre
        | cons d pre =>
            simp only [List.cons_append, List.length_cons, List.length_append]
            omega
      · simp

theorem plusRests_before {p : Char → Bool} {s r r0 : List Char} {l1 l2 : List (List Char)}
    (h : plusRests p s = l1 ++ r0 :: l2) (hr : r ∈ plusRests p s)
    (hlen : r.length < r0.length) : r ∈ l1 := by
  have hpw := plusRests_pairwise p s
  rw [h] at hpw hr
  rw [List.pairwise_append] at hpw
  obtain ⟨-, h2, -⟩ := hpw
  rw [List.pairwise_cons] at h2
  rcases List.mem_append.1 hr with hr | hr
  · exact hr
  · rcases List.mem_cons.1 hr with rfl | hr
    · exact absurd hlen (lt_irrefl _)
    · exact absurd (h2.1 r hr) (not_lt.2 (le_of_lt hlen))

theorem tailRe_run_caps {r : List Char} {c : Caps} (c' : Caps) (h : tailRe.run r c ≠ []) :
    tailRe.run r c' ≠ [] := by
  obtain ⟨⟨rest, caps⟩, hm⟩ := List.exists_mem_of_ne_nil _ h
  obtain ⟨pre, k, sp, al, rfl, h1, h2, h3, h4, h5, h6, h7, -⟩ := mem_tailRe_run.1 hm
  exact List.ne_nil_of_mem (mem_tailRe_run.2 ⟨pre, k, sp, al, rfl, h1, h2, h3, h4, h5, h6, h7, rfl⟩)

/-- The first match at a `#` takes the longest value: after a longer run of
characters `.` matches, the rest of the expression does not match. -/
theorem regexp_head_greedy {s rest : List Char} {c caps : Caps}
    (h : (ELEMENT_OF_COLLECTION_REGEXP.run ('#' :: s) c).head? = some (rest, caps)) :
    ∃ v r0, s = v ++ r0 ∧ (rest, caps) ∈ tailRe.run r0 (c.set 1 v) ∧
      ∀ r ∈ plusRests isDot s, r.length < r0.length → ∀ c', tailRe.run r c' = [] := by
  rw [regexp_run_cons, head?_valueRests_flatMap] at h
  obtain ⟨l1, r0, l2, hl, h1, h2⟩ := head?_flatMap_split h
  have hr0 : r0 ∈ plusRests isDot s := by rw [hl]; simp
  obtain ⟨v, -, hs, -⟩ := mem_plusRests.1 hr0
  refine ⟨v, r0, hs, ?_, ?_⟩
  · have := List.mem_of_mem_head? h2
    rw [hs, take_length_sub] at this
    exact this
  · intro r hr hlen c'
    have hmem := plusRests_before hl hr hlen
    have hnil := h1 r hmem
    cases hc : tailRe.run r c' with
    | nil => rfl
    | cons m l =>
        exact absurd hnil (tailRe_run_caps _ (by rw [hc]; simp))

theorem exec_some_head {r : Re} :
    ∀ {t pre rest : List Char} {caps : Caps}, r.exec t = some (pre, rest, caps) →
      ∃ s, t = pre ++ s ∧ (r.run s Caps.empty).head? = some (rest, caps)
  | [], pre, rest, caps, h => by
      simp only [Re.exec, Re.matchHere, Option.map_eq_some'] at h
      obtain ⟨m, hm, heq⟩ := h
      simp only [Prod.mk.injEq] at heq
      obtain ⟨rfl, rfl, rfl⟩ := heq
      exact ⟨[], rfl, hm⟩
  | x :: t, pre, rest, caps, h => by
      simp only [Re.exec] at h
      cases hm : r.matchHere (x :: t) with
      | some m =>
          simp only [hm, Option.some.injEq, Prod.mk.injEq] at h
          obtain ⟨rfl, rfl, rfl⟩ := h
          exact ⟨x :: t, rfl, hm⟩
      | none =>
          simp only [hm, Option.map_eq_some'] at h
          obtain ⟨⟨pre', rest', caps'⟩, he, heq⟩ := h
          simp only [Prod.mk.injEq] at heq
          obtain ⟨rfl, rfl, rfl⟩ := heq
          obtain ⟨s, rfl, hs⟩ := exec_some_head he
          exact ⟨s, rfl, hs⟩

/-- In a token without line terminator, the regular expression matches nowhere
inside the alias it captures. -/
theorem alias_of_exec_plain {t pre rest : List Char} {caps : Caps}
    (ht : ∀ x ∈ t, isLineTerminator x = false)
    (he : ELEMENT_OF_COLLECTION_REGEXP.exec t = some (pre, rest, caps)) :
    ELEMENT_OF_COLLECTION_REGEXP.exec (group caps 3) = none := by
  obtain ⟨s0, rfl, hhead⟩ := exec_some_head he
  cases s0 with
  | nil => simp [regexp_run_nil] at hhead
  | cons y s =>
      by_cases hy : y = '#'
      swap
      · simp [regexp_run_not_hash s Caps.empty hy] at hhead
      subst hy
      obtain ⟨v, r0, rfl, hm, hmax⟩ := regexp_head_greedy hhead
      obtain ⟨sp1, k, sp2, al, rfl, h1, h2, h3, h4, h5, h6, h7, rfl⟩ := mem_tailRe_run.1 hm
      have hal : group (((Caps.empty.set 1 v).set 2 k).set 3 al) 3 = al := by
        simp [group, Caps.set]
      rw [hal]
      apply exec_eq_none
      intro x s' hs'
      apply List.eq_nil_iff_forall_not_mem.2
      rintro ⟨rest', caps'⟩ hm'
      obtain ⟨v', sp1', k', sp2', al', rfl, g1, g2, g3, g4, g5, g6, g7, g8, g9, -⟩ :=
        mem_regexp_run hm'
      subst hs'
      have heq : v ++ (sp1 ++ (k ++ (sp2 ++ ((x ++ '#' ::
            (v' ++ (sp1' ++ (k' ++ (sp2' ++ (al' ++ rest')))))) ++ rest)))) =
          (v ++ (sp1 ++ (k ++ (sp2 ++ (x ++ '#' :: v'))))) ++
            (sp1' ++ (k' ++ (sp2' ++ (al' ++ (rest' ++ rest))))) := by
        simp only [List.append_assoc, List.cons_append]
      have hdots : ∀ z ∈ v ++ (sp1 ++ (k ++ (sp2 ++ (x ++ '#' :: v')))), isDot z = true := by
        intro z hz
        have hzt : isLineTerminator z = false := by
          apply ht z
          apply List.mem_append_right
          apply List.mem_cons_of_mem
          rw [heq]
          exact List.mem_append_left _ hz
        simp [isDot, hzt]
      have hr : sp1' ++ (k' ++ (sp2' ++ (al' ++ (rest' ++ rest)))) ∈
          plusRests isDot (v ++ (sp1 ++ (k ++ (sp2 ++ ((x ++ '#' ::
            (v' ++ (sp1' ++ (k' ++ (sp2' ++ (al' ++ rest')))))) ++ rest))))) :=
        mem_plusRests.2 ⟨v ++ (sp1 ++ (k ++ (sp2 ++ (x ++ '#' :: v')))), by simp, heq, hdots⟩
      have hlen : (sp1' ++ (k' ++ (sp2' ++ (al' ++ (rest' ++ rest))))).length <
          (sp1 ++ (k ++ (sp2 ++ ((x ++ '#' ::
            (v' ++ (sp1' ++ (k' ++ (sp2' ++ (al' ++ rest')))))) ++ rest)))).length := by
        simp only [List.length_append, List.length_cons]
        omega
      have hnil := hmax _ hr hlen Caps.empty
      have hne : tailRe.run (sp1' ++ (k' ++ (sp2' ++ (al' ++ (rest' ++ rest))))) Caps.empty
          ≠ [] :=
        List.ne_nil_of_mem
          (mem_tailRe_run.2 ⟨sp1', k', sp2', al', rfl, g3, g4, g5, g6, g7, g8, g9, rfl⟩)
      exact hne hnil

/-- The alias of a token without line terminator parses to itself. -/
theorem ParsedToken_new_alias {t : List Char} (ht : ∀ x ∈ t, isLineTerminator x = false) :
    ParsedToken.new (ParsedToken.new t).alias_ =
      { alias_ := (ParsedToken.new t).alias_, index := none, innerText := none } := by
  cases he : ELEMENT_OF_COLLECTION_REGEXP.exec t with
  | none => simp [ParsedToken.new, he]
  | some r =>
      obtain ⟨pre, rest, caps⟩ := r
      have h := alias_of_exec_plain ht he
      have ha : (ParsedToken.new t).alias_ = group caps 3 := by
        simp [ParsedToken.new, he]
      rw [ha]
      simp [ParsedToken.new, h]

/-- C20: for a token without line terminator, the alias of its parse is a fixed
point of parsing: parsed again it is a plain hop with the same alias. Hence the two
alias lookups made for the hop, the one on the alias and the one on the token, use
the same key and give the same result in every component. -/
theorem alias_fixed_point (t : List Char) (ht : ∀ x ∈ t, isLineTerminator x = false) :
    ParsedToken.new (ParsedToken.new t).alias_ =
        { alias_ := (ParsedToken.new t).alias_, index := none, innerText := none } ∧
      lookupKey (ParsedToken.new t).alias_ = lookupKey t ∧
      ∀ comp : Entry, _getComponent comp (ParsedToken.new t).alias_ = _getComponent comp t := by
  have h := ParsedToken_new_alias ht
  refine ⟨h, ?_, ?_⟩
  · simp [lookupKey, h]
  · intro comp
    simp only [_getComponent, h]

/-- C20 at the token `"#a in b in c"`. -/
theorem alias_fixed_point_witness :
    ParsedToken.new (ParsedToken.new "#a in b in c".toList).alias_ =
        { alias_ := "c".toList, index := none, innerText := none } ∧
      lookupKey (ParsedToken.new "#a in b in c".toList).alias_ =
        lookupKey "#a in b in c".toList ∧
      ∀ comp : Entry, _getComponent comp (ParsedToken.new "#a in b in c".toList).alias_ =
        _getComponent comp "#a in b in c".toList :=
  alias_fixed_point "#a in b in c".toList (by decide)

/-! ## The tokens of a path -/

/-- The ways `p*` can match: the longest first, every other one leaves a character
of the class. -/
theorem starRests_eq (p : Char → Bool) :
    ∀ s : List Char, ∃ l, starRests p s = s.dropWhile p :: l ∧
      ∀ y ∈ l, ∃ x t, y = x :: t ∧ p x = true
  | [] => ⟨[], by simp [starRests, plusRests], by simp⟩
  | c :: t => by
      by_cases hc : p c = true
      · obtain ⟨l, hl, hy⟩ := starRests_eq p t
        refine ⟨l ++ [c :: t], ?_, ?_⟩
        · simp only [starRests] at hl
          simp [starRests, plusRests, hc, hl, List.dropWhile_cons]
        · intro y hy'
          rcases List.mem_append.1 hy' with h | h
          · exact hy y h
          · rw [List.mem_singleton] at h
            exact ⟨c, t, h, hc⟩
      · refine ⟨[], ?_, by simp⟩
        simp [starRests, plusRests, hc, List.dropWhile_cons]

theorem isSpace_gt : isSpace '>' = false := by decide

theorem run_lit_gt_of_space {x : Char} (t : List Char) (c : Caps) (hx : isSpace x = true) :
    (Re.lit ['>']).run (x :: t) c = [] := by
  have hne : '>' ≠ x := by
    intro h
    rw [← h, isSpace_gt] at hx
    cases hx
  simp [Re.run, stripLit, hne]

/-- Where `\s*>\s*` matches at the start of a text, and what it leaves. -/
theorem matchHere_split_some {s u : List Char} (h : s.dropWhile isSpace = '>' :: u) :
    TOKEN_SPLIT_REGEXP.matchHere s = some (u.dropWhile isSpace, Caps.empty) := by
  obtain ⟨l, hl, hy⟩ := starRests_eq isSpace s
  obtain ⟨l', hl', -⟩ := starRests_eq isSpace u
  have h2 : l.flatMap (fun r => ((Re.lit ['>']).seq (Re.star isSpace)).run r Caps.empty)
      = [] := by
    rw [List.flatMap_eq_nil_iff]
    intro y hy'
    obtain ⟨x, t, rfl, hx⟩ := hy y hy'
    rw [run_seq, run_lit_gt_of_space t _ hx]
    rfl
  have h3 : ((Re.lit ['>']).seq (Re.star isSpace)).run ('>' :: u) Caps.empty =
      (u.dropWhile isSpace :: l').map (fun r => (r, Caps.empty)) := by
    rw [run_seq]
    simp [Re.run, stripLit, hl']
  simp only [Re.matchHere, TOKEN_SPLIT_REGEXP, run_seq]
  rw [show (Re.star isSpace).run s Caps.empty = (starRests isSpace s).map (fun r => (r, Caps.empty))
    by rw [Re.run]]
  rw [hl, h, List.map_cons, List.flatMap_cons, List.flatMap_map]
  simp only [← run_seq]
  rw [h3, h2]
  simp

theorem matchHere_split_none {s : List Char} (h : ∀ u, s.dropWhile isSpace ≠ '>' :: u) :
    TOKEN_SPLIT_REGEXP.matchHere s = none := by
  obtain ⟨l, hl, hy⟩ := starRests_eq isSpace s
  have h2 : l.flatMap (fun r => ((Re.lit ['>']).seq (Re.star isSpace)).run r Caps.empty)
      = [] := by
    rw [List.flatMap_eq_nil_iff]
    intro y hy'
    obtain ⟨x, t, rfl, hx⟩ := hy y hy'
    rw [run_seq, run_lit_gt_of_space t _ hx]
    rfl
  have h3 : ((Re.lit ['>']).seq (Re.star isSpace)).run (s.dropWhile isSpace) Caps.empty
      = [] := by
    rw [run_seq]
    cases hd : s.dropWhile isSpace with
    | nil => simp [Re.run, stripLit]
    | cons x t =>
        have hne : '>' ≠ x := by
          intro hx
          exact h t (by rw [hd, hx])
        simp [Re.run, stripLit, hne]
  simp only [Re.matchHere, TOKEN_SPLIT_REGEXP, run_seq]
  rw [show (Re.star isSpace).run s Caps.empty = (starRests isSpace s).map (fun r => (r, Caps.empty))
    by rw [Re.run]]
  rw [hl, List.map_cons, List.flatMap_cons, List.flatMap_map]
  simp only [← run_seq]
  rw [h3, h2]
  rfl

theorem splitGo_nil (r : Re) (cur : List Char) (skip : Nat) :
    splitGo r cur skip [] = [cur.reverse] := by
  cases skip <;> rfl

theorem splitGo_skip (r : Re) :
    ∀ (s cur : List Char) (skip : Nat), splitGo r cur skip s = splitGo r cur 0 (s.drop skip)
  | [], cur, skip => by rw [List.drop_nil, splitGo_nil, splitGo_nil]
  | c :: t, cur, 0 => rfl
  | c :: t, cur, skip + 1 => by
      rw [splitGo, List.drop_succ_cons]
      exact splitGo_skip r t cur skip

/-- At a separator the loop gives the token read so far and goes on after the
separator. -/
theorem splitGo_match {c : Char} {t u : List Char} (cur : List Char)
    (h : (c :: t).dropWhile isSpace = '>' :: u) :
    splitGo TOKEN_SPLIT_REGEXP cur 0 (c :: t) =
      cur.reverse :: splitGo TOKEN_SPLIT_REGEXP [] 0 (u.dropWhile isSpace) := by
  have hsuf : u.dropWhile isSpace <:+ c :: t := by
    have h1 : u.dropWhile isSpace <:+ '>' :: u :=
      (List.dropWhile_suffix isSpace).trans (List.suffix_cons _ _)
    rw [← h] at h1
    exact h1.trans (List.dropWhile_suffix isSpace)
  have hlt : (u.dropWhile isSpace).length < (c :: t).length := by
    have h1 : (u.dropWhile isSpace).length ≤ u.length :=
      (List.dropWhile_suffix isSpace).length_le
    have h2 : ('>' :: u).length ≤ (c :: t).length := by
      rw [← h]
      exact (List.dropWhile_suffix isSpace).length_le
    simp only [List.length_cons] at h2 ⊢
    omega
  obtain ⟨pre, hpre⟩ := hsuf
  have hdrop : t.drop ((c :: t).length - (u.dropWhile isSpace).length - 1) =
      u.dropWhile isSpace := by
    cases pre with
    | nil =>
        simp only [List.nil_append] at hpre
        rw [hpre] at hlt
        exact absurd hlt (lt_irrefl _)
    | cons d pre =>
        simp only [List.cons_append, List.cons.injEq] at hpre
        rw [← hpre.2]
        have : (c :: (pre ++ List.dropWhile isSpace u)).length -
            (List.dropWhile isSpace u).length - 1 = pre.length := by
          simp only [List.length_cons, List.length_append]
          omega
        rw [this, List.drop_left]
  rw [splitGo, matchHere_split_some h]
  simp only
  rw [if_neg (by omega), splitGo_skip, hdrop]

theorem splitGo_no_match {c : Char} {t : List Char} (cur : List Char)
    (h : ∀ u, (c :: t).dropWhile isSpace ≠ '>' :: u) :
    splitGo TOKEN_SPLIT_REGEXP cur 0 (c :: t) = splitGo TOKEN_SPLIT_REGEXP (c :: cur) 0 t := by
  rw [splitGo, matchHere_split_none h]

/-- A text without `>` is one token. -/
theorem splitGo_of_not_mem :
    ∀ (s cur : List Char), '>' ∉ s → splitGo TOKEN_SPLIT_REGEXP cur 0 s = [cur.reverse ++ s]
  | [], cur, _ => by simp [splitGo]
  | c :: t, cur, h => by
      have hno : ∀ u, (c :: t).dropWhile isSpace ≠ '>' :: u := by
        intro u hu
        have hmem : '>' ∈ (c :: t).dropWhile isSpace := by rw [hu]; simp
        exact h ((List.dropWhile_sublist isSpace).subset hmem)
      rw [splitGo_no_match cur hno,
        splitGo_of_not_mem t (c :: cur) (fun hm => h (List.mem_cons_of_mem _ hm))]
      simp

theorem dropWhile_append_cons {p : Char → Bool} {x : Char} (u : List Char) (hx : p x = false) :
    ∀ b : List Char, (b ++ x :: u).dropWhile p = b.dropWhile p ++ x :: u
  | [] => by simp [List.dropWhile_cons, hx]
  | c :: b => by
      by_cases hc : p c = true
      · simp [List.dropWhile_cons, hc, dropWhile_append_cons u hx b]
      · simp [List.dropWhile_cons, hc]

theorem dropWhile_of_all {p : Char → Bool} :
    ∀ a : List Char, a.all p = true → a.dropWhile p = []
  | [], _ => rfl
  | c :: a, h => by
      simp only [List.all_cons, Bool.and_eq_true] at h
      simp [List.dropWhile_cons, h.1, dropWhile_of_all a h.2]

theorem dropWhile_head_of_not_all {p : Char → Bool} :
    ∀ a : List Char, a.all p = false → ∃ x t, a.dropWhile p = x :: t ∧ x ∈ a
  | [], h => by simp at h
  | c :: a, h => by
      by_cases hc : p c = true
      · have h' : a.all p = false := by
          simpa [List.all_cons, hc] using h
        obtain ⟨x, t, hx, hm⟩ := dropWhile_head_of_not_all a h'
        exact ⟨x, t, by simp [List.dropWhile_cons, hc, hx], List.mem_cons_of_mem _ hm⟩
      · exact ⟨c, a, by simp [List.dropWhile_cons, hc], List.mem_cons_self _ _⟩

/-- The token before the first `>` loses its trailing white space. -/
theorem splitGo_before_gt (u : List Char) :
    ∀ (a cur : List Char), '>' ∉ a →
      splitGo TOKEN_SPLIT_REGEXP cur 0 (a ++ '>' :: u) =
        (cur.reverse ++ trimEnd a) ::
          splitGo TOKEN_SPLIT_REGEXP [] 0 (u.dropWhile isSpace)
  | [], cur, _ => by
      have h : ('>' :: u).dropWhile isSpace = '>' :: u := by
        simp [List.dropWhile_cons, isSpace_gt]
      simp only [List.nil_append]
      rw [splitGo_match cur h]
      simp [trimEnd]
  | c :: a, cur, hno => by
      have hno' : '>' ∉ a := fun hm => hno (List.mem_cons_of_mem _ hm)
      cases hall : (c :: a).all isSpace with
      | true =>
          have h : (c :: (a ++ '>' :: u)).dropWhile isSpace = '>' :: u := by
            rw [← List.cons_append, dropWhile_append_cons u isSpace_gt, dropWhile_of_all _ hall]
            rfl
          simp only [List.cons_append]
          rw [splitGo_match cur h]
          simp [trimEnd, hall]
      | false =>
          obtain ⟨x, t, hx, hm⟩ := dropWhile_head_of_not_all _ hall
          have h : ∀ w, (c :: (a ++ '>' :: u)).dropWhile isSpace ≠ '>' :: w := by
            intro w hw
            rw [← List.cons_append, dropWhile_append_cons u isSpace_gt, hx] at hw
            simp only [List.cons_append, List.cons.injEq] at hw
            exact hno (hw.1 ▸ hm)
          simp only [List.cons_append]
          rw [splitGo_no_match cur h, splitGo_before_gt u a (c :: cur) hno']
          simp [trimEnd, hall]

theorem splitOnGt_ne_nil : ∀ s : List Char, splitOnGt s ≠ []
  | [] => by simp [splitOnGt]
  | c :: t => by
      unfold splitOnGt
      split
      · simp
      · split <;> simp

theorem splitOnGt_of_not_mem : ∀ s : List Char, '>' ∉ s → splitOnGt s = [s]
  | [], _ => rfl
  | c :: t, h => by
      have hc : c ≠ '>' := fun hc => h (hc ▸ List.mem_cons_self _ _)
      have ht := splitOnGt_of_not_mem t (fun hm => h (List.mem_cons_of_mem _ hm))
      simp [splitOnGt, hc, ht]

theorem splitOnGt_append (u : List Char) :
    ∀ a : List Char, '>' ∉ a → splitOnGt (a ++ '>' :: u) = a :: splitOnGt u
  | [], _ => by simp [splitOnGt]
  | c :: a, h => by
      have hc : c ≠ '>' := fun hc => h (hc ▸ List.mem_cons_self _ _)
      have ha := splitOnGt_append u a (fun hm => h (List.mem_cons_of_mem _ hm))
      simp [splitOnGt, hc, ha]

theorem splitOnGt_length : ∀ s : List Char, (splitOnGt s).length = s.count '>' + 1
  | [] => rfl
  | c :: t => by
      have ih := splitOnGt_length t
      by_cases hc : c = '>'
      · subst hc
        simp [splitOnGt, ih]
      · cases hs : splitOnGt t with
        | nil => exact absurd hs (splitOnGt_ne_nil t)
        | cons h r =>
            rw [hs] at ih
            simp only [splitOnGt, hc, if_false, hs, List.length_cons, List.count_cons] at ih ⊢
            simp only [beq_iff_eq, hc, if_false, Nat.add_zero]
            exact ih

theorem splitOnGt_not_mem : ∀ (s part : List Char), part ∈ splitOnGt s → '>' ∉ part
  | [], part, h => by
      simp only [splitOnGt, List.mem_singleton] at h
      simp [h]
  | c :: t, part, h => by
      by_cases hc : c = '>'
      · simp only [splitOnGt, hc, if_true, List.mem_cons] at h
        rcases h with rfl | h
        · simp
        · exact splitOnGt_not_mem t part h
      · cases hs : splitOnGt t with
        | nil => exact absurd hs (splitOnGt_ne_nil t)
        | cons x r =>
            simp only [splitOnGt, hc, if_false, hs, List.mem_cons] at h
            rcases h with rfl | h
            · have hx := splitOnGt_not_mem t x (by rw [hs]; simp)
              simp only [List.mem_cons, not_or]
              exact ⟨fun h' => hc h'.symm, hx⟩
            · exact splitOnGt_not_mem t part (by rw [hs]; exact List.mem_cons_of_mem _ h)

theorem mem_trimEnd : ∀ (a : List Char) (x : Char), x ∈ trimEnd a → x ∈ a
  | [], x, h => by simp [trimEnd] at h
  | c :: a, x, h => by
      unfold trimEnd at h
      split at h
      · simp at h
      · rcases List.mem_cons.1 h with rfl | h
        · exact List.mem_cons_self _ _
        · exact List.mem_cons_of_mem _ (mem_trimEnd a x h)

theorem mem_trimStart (a : List Char) (x : Char) (h : x ∈ trimStart a) : x ∈ a :=
  (List.dropWhile_sublist isSpace).subset h

theorem trimRest_length : ∀ l : List (List Char), (trimRest l).length = l.length
  | [] => rfl
  | [_] => rfl
  | x :: y :: l => by
      simp only [trimRest, List.length_cons, trimRest_length (y :: l)]

theorem trimAdjacent_length : ∀ l : List (List Char), (trimAdjacent l).length = l.length
  | [] => rfl
  | [_] => rfl
  | x :: y :: l => by
      simp only [trimAdjacent, List.length_cons, trimRest_length (y :: l)]

theorem trimRest_not_mem :
    ∀ l : List (List Char), (∀ part ∈ l, '>' ∉ part) → ∀ tok ∈ trimRest l, '>' ∉ tok
  | [], _, tok, h => by simp [trimRest] at h
  | [x], hl, tok, h => by
      simp only [trimRest, List.mem_singleton] at h
      subst h
      exact fun hm => hl x (by simp) (mem_trimStart _ _ hm)
  | x :: y :: l, hl, tok, h => by
      simp only [trimRest, List.mem_cons] at h
      rcases h with rfl | h
      · exact fun hm => hl x (by simp) (mem_trimStart _ _ (mem_trimEnd _ _ hm))
      · exact trimRest_not_mem (y :: l) (fun p hp => hl p (List.mem_cons_of_mem _ hp)) tok
          (by simpa [trimRest] using h)

theorem trimAdjacent_not_mem :
    ∀ l : List (List Char), (∀ part ∈ l, '>' ∉ part) → ∀ tok ∈ trimAdjacent l, '>' ∉ tok
  | [], _, tok, h => by simp [trimAdjacent] at h
  | [x], hl, tok, h => by
      simp only [trimAdjacent, List.mem_singleton] at h
      exact hl tok (by simp [h])
  | x :: y :: l, hl, tok, h => by
      simp only [trimAdjacent, List.mem_cons] at h
      rcases h with rfl | h
      · exact fun hm => hl x (by simp) (mem_trimEnd _ _ hm)
      · exact trimRest_not_mem (y :: l) (fun p hp => hl p (List.mem_cons_of_mem _ hp)) tok
          (by simpa using h)

/-- After a separator, the loop gives the remaining parts without the white space
adjacent to a `>`. -/
theorem splitGo_after_gt :
    ∀ (n : Nat) (u : List Char), u.length ≤ n →
      splitGo TOKEN_SPLIT_REGEXP [] 0 (u.dropWhile isSpace) = trimRest (splitOnGt u)
  | n, u, hn => by
      by_cases hmem : '>' ∈ u
      · obtain ⟨b, u', rfl, hb⟩ := List.eq_append_cons_of_mem hmem
        have hlen : u'.length ≤ n - 1 := by
          simp only [List.length_append, List.length_cons] at hn
          omega
        have hn0 : n - 1 < n := by
          simp only [List.length_append, List.length_cons] at hn
          omega
        have ih := splitGo_after_gt (n - 1) u' hlen
        have hb' : '>' ∉ b.dropWhile isSpace :=
          fun hm => hb ((List.dropWhile_sublist isSpace).subset hm)
        rw [dropWhile_append_cons u' isSpace_gt, splitGo_before_gt u' _ [] hb', ih,
          splitOnGt_append u' b hb]
        cases hs : splitOnGt u' with
        | nil => exact absurd hs (splitOnGt_ne_nil u')
        | cons y ys => simp [trimRest, trimStart]
      · have h' : '>' ∉ u.dropWhile isSpace :=
          fun hm => hmem ((List.dropWhile_sublist isSpace).subset hm)
        rw [splitGo_of_not_mem _ [] h', splitOnGt_of_not_mem u hmem]
        simp [trimRest, trimStart]
termination_by n => n

theorem split_eq_trimAdjacent (p : List Char) :
    split TOKEN_SPLIT_REGEXP p = trimAdjacent (splitOnGt p) := by
  cases p with
  | nil => decide
  | cons c t =>
      show splitGo TOKEN_SPLIT_REGEXP [] 0 (c :: t) = _
      by_cases hmem : '>' ∈ c :: t
      · obtain ⟨a, u, hp, ha⟩ := List.eq_append_cons_of_mem hmem
        rw [hp, splitGo_before_gt u a [] ha, splitGo_after_gt u.length u (le_refl _),
          splitOnGt_append u a ha]
        cases hs : splitOnGt u with
        | nil => exact absurd hs (splitOnGt_ne_nil u)
        | cons y ys => simp [trimAdjacent]
      · rw [splitGo_of_not_mem _ [] hmem, splitOnGt_of_not_mem _ hmem]
        simp [trimAdjacent]

/-- C12: the tokens of a path are its parts between the `>` characters without the
white space adjacent to a `>`, every other character kept in order (the first token
keeps its leading and the last its trailing white space); there is one token more
than there are `>` characters, so the sequence is never empty; no token contains
`>`; a path without `>`, the empty one included, is the only token. -/
theorem split_tokens (p : List Char) :
    split TOKEN_SPLIT_REGEXP p = trimAdjacent (splitOnGt p) ∧
    (split TOKEN_SPLIT_REGEXP p).length = p.count '>' + 1 ∧
    split TOKEN_SPLIT_REGEXP p ≠ [] ∧
    (∀ token ∈ split TOKEN_SPLIT_REGEXP p, '>' ∉ token) ∧
    ('>' ∉ p → split TOKEN_SPLIT_REGEXP p = [p]) ∧
    split TOKEN_SPLIT_REGEXP "".toList = ["".toList] ∧
    split TOKEN_SPLIT_REGEXP " a  >\tb > c ".toList = [" a".toList, "b".toList, "c ".toList] := by
  refine ⟨split_eq_trimAdjacent p, ?_, split_ne_nil p, ?_, ?_, by decide, by decide⟩
  · rw [split_eq_trimAdjacent, trimAdjacent_length, splitOnGt_length]
  · rw [split_eq_trimAdjacent]
    exact trimAdjacent_not_mem _ (splitOnGt_not_mem p)
  · intro h
    rw [split_eq_trimAdjacent, splitOnGt_of_not_mem p h]
    rfl

/-! ## The number of alias lookups -/

theorem _getElementOfCollectionN_eq (cur : Option Finder) (comp : Entry) (pt : ParsedToken)
    (n : Nat) :
    _getElementOfCollectionN cur comp pt n =
      (_getElementOfCollection cur comp pt).map (fun f => (f, n + 1)) := by
  unfold _getElementOfCollectionN _getElementOfCollection _getComponentN
  cases hc : _getComponent comp pt.alias_ with
  | error e => rfl
  | ok e =>
      cases hcoll : e.isCollection with
      | false => simp [bind, Except.bind, pure, Except.pure, hcoll, Except.map, throw, throwThe,
          MonadExceptOf.throw]
      | true =>
          cases hs : _getSelector e with
          | error e' => simp [bind, Except.bind, pure, Except.pure, hcoll, hs, Except.map]
          | ok sel =>
              cases hi : pt.innerText with
              | some s =>
                  cases ht : _isLocatorTranformable sel <;>
                    simp [bind, Except.bind, pure, Except.pure, hcoll, hs, Except.map, hi,
                      Finder.locator, ht]
              | none =>
                  cases hx : pt.index <;>
                    simp [bind, Except.bind, pure, Except.pure, hcoll, hs, Except.map, hi, hx]

theorem _getElementOrCollectionN_eq (cur : Option Finder) (comp : Entry) (pt : ParsedToken)
    (n : Nat) :
    _getElementOrCollectionN cur comp pt n =
      (_getElementOrCollection cur comp pt).map (fun f => (f, n + 1)) := by
  unfold _getElementOrCollectionN _getElementOrCollection _getComponentN
  cases hc : _getComponent comp pt.alias_ with
  | error e => rfl
  | ok e =>
      cases hs : _getSelector e with
      | error e' =>
          cases hb : (e.isCollection || (rootElement cur).count) <;>
            simp [bind, Except.bind, pure, Except.pure, hs, Except.map, hb]
      | ok sel =>
          cases hb : (e.isCollection || (rootElement cur).count) <;>
            simp [bind, Except.bind, pure, Except.pure, hs, Except.map, hb]

theorem _getProtractorElementN_eq (cur : Option Finder) (comp : Entry) (token : List Char)
    (n : Nat) :
    _getProtractorElementN cur comp token n =
      (_getProtractorElement cur comp token).map (fun f => (f, n + 1)) := by
  unfold _getProtractorElementN _getProtractorElement
  simp only
  split
  · exact _getElementOfCollectionN_eq _ _ _ _
  · exact _getElementOrCollectionN_eq _ _ _ _

/-- A step makes two lookups. -/
theorem stepN_eq (node : ComponentNode) (token : List Char) (n : Nat) :
    stepN node token n = (step node token).map (fun r => (r, n + 2)) := by
  unfold stepN step _getComponentN
  rw [_getProtractorElementN_eq]
  cases _getProtractorElement node.element node.component token with
  | error e => rfl
  | ok f =>
      cases _getComponent node.component token with
      | error e => rfl
      | ok c => rfl

theorem resolveN_eq (tokens : List (List Char)) :
    ∀ (node : ComponentNode) (n : Nat),
      resolveN node n tokens = (resolve node tokens).map (fun r => (r, n + 2 * tokens.length)) := by
  induction tokens with
  | nil => intro node n; rfl
  | cons t ts ih =>
      intro node n
      simp only [resolveN, resolve, stepN_eq]
      cases step node t with
      | error e => rfl
      | ok node' =>
          simp only [Except.map, ih, List.length_cons]
          cases resolve node' ts with
          | error e => rfl
          | ok r =>
              simp only [Except.ok.injEq, Prod.mk.injEq, true_and]
              omega

theorem getElementN_eq (this : Entry) (key : List Char) :
    getElementN this key =
      (getElement this key).map (fun f => (f, 2 * (split TOKEN_SPLIT_REGEXP key).length)) := by
  unfold getElementN getElement
  cases hs : split TOKEN_SPLIT_REGEXP key with
  | nil => rfl
  | cons t ts =>
      simp only [stepN_eq]
      cases step ⟨none, this⟩ t with
      | error e => rfl
      | ok node' =>
          simp only [Except.map, resolveN_eq, List.length_cons]
          cases resolve node' ts with
          | error e => rfl
          | ok r =>
              simp only [Except.ok.injEq, Prod.mk.injEq, true_and]
              omega

/-- C16 (amended): the counted resolver returns what `getElement` returns, and for
every path of `N` hops that resolves it makes exactly `2 * N` calls of
`_getComponent`: in every hop one inside `_getElementOfCollection` or
`_getElementOrCollection` and one in `getElement`. -/
theorem two_lookups_per_hop (this : Entry) (key : List Char) :
    (getElementN this key).map (fun r => r.1) = getElement this key ∧
      ∀ (f : Option Finder) (n : Nat), getElementN this key = .ok (f, n) →
        n = 2 * (split TOKEN_SPLIT_REGEXP key).length := by
  rw [getElementN_eq]
  constructor
  · cases getElement this key <;> rfl
  · intro f n h
    cases hg : getElement this key with
    | error e => rw [hg] at h; cases h
    | ok g =>
        rw [hg] at h
        simp only [Except.map, Except.ok.injEq, Prod.mk.injEq] at h
        exact h.2.symm

/-- C16 fails as stated: the path `"Title"`, of one hop, resolves with two calls of
`_getComponent`, and the path `"Header > #Home in Links"`, of two hops, with four. -/
theorem two_lookups_per_hop_one_fails :
    split TOKEN_SPLIT_REGEXP "Title".toList = ["Title".toList] ∧
    getElementN samplePage "Title".toList =
      .ok (some ((Finder.doc (.css "html".toList)).element (.xpath "//h1".toList)), 2) ∧
    (split TOKEN_SPLIT_REGEXP "Header > #Home in Links".toList).length = 2 ∧
    (getElementN samplePage "Header > #Home in Links".toList).map (fun r => r.2) = .ok 4 :=
  ⟨rfl, rfl, rfl, rfl⟩

/-- C16 (amended) at the path `"Title"` on the sample page: one hop, two lookups. -/
theorem two_lookups_per_hop_witness :
    (2 : Nat) = 2 * (split TOKEN_SPLIT_REGEXP "Title".toList).length :=
  (two_lookups_per_hop samplePage "Title".toList).2 _ 2 rfl

/-! ## Registration of components -/

theorem mapGet_mapSet_self (key : List Char) (v : Entry) :
    ∀ m : List (List Char × Entry), mapGet (mapSet m key v) key = some v
  | [] => by simp [mapSet, mapGet]
  | (k, x) :: m => by
      by_cases h : k = key
      · simp [mapSet, mapGet, h]
      · simp [mapSet, mapGet, h, mapGet_mapSet_self key v m]

theorem mapGet_mapSet_other {key k' : List Char} (v : Entry) (h' : k' ≠ key) :
    ∀ m : List (List Char × Entry), mapGet (mapSet m key v) k' = mapGet m k'
  | [] => by simp [mapSet, mapGet, Ne.symm h']
  | (k, x) :: m => by
      by_cases h : k = key
      · subst h
        simp [mapSet, mapGet, Ne.symm h']
      · by_cases h2 : k = k'
        · subst h2
          simp [mapSet, mapGet, h]
        · simp [mapSet, mapGet, h, h2, mapGet_mapSet_other v h' m]

theorem Entry.elements_setElements (e : Entry) (m : List (List Char × Entry)) :
    (e.setElements m).elements = some m := by
  cases e; rfl

/-- C17 (amended): on a page with a map, `defineComponent` with a non-empty alias
`a` registers the component under `a`, and with an omitted or empty alias under the
alias of the component; an earlier entry under that key is replaced, the entries
under all other keys are unchanged, and when the key is a plain token (parsed as a
token it is its own alias) a later lookup of the key by `_getComponent` succeeds
with the component. -/
theorem defineComponent_registers (this c : Entry) (alias_ : Option (List Char))
    (componentAlias : List Char) (m : List (List Char × Entry))
    (hm : this.elements = some m) :
    (∀ x t, alias_ = some (x :: t) → definedKey alias_ componentAlias = x :: t) ∧
    (alias_ = none ∨ alias_ = some [] → definedKey alias_ componentAlias = componentAlias) ∧
    ∃ this', defineComponent this alias_ c componentAlias = .ok this' ∧
      entryAt this' (definedKey alias_ componentAlias) = some c ∧
      (∀ k, k ≠ definedKey alias_ componentAlias → entryAt this' k = entryAt this k) ∧
      (lookupKey (definedKey alias_ componentAlias) = definedKey alias_ componentAlias →
        _getComponent this' (definedKey alias_ componentAlias) = .ok c) := by
  refine ⟨?_, ?_, this.setElements (mapSet m (definedKey alias_ componentAlias) c), ?_, ?_, ?_,
    ?_⟩
  · rintro x t rfl; rfl
  · rintro (rfl | rfl) <;> rfl
  · simp [defineComponent, hm]
  · simp [entryAt, Entry.elements_setElements, mapGet_mapSet_self]
  · intro k hk
    simp [entryAt, Entry.elements_setElements, hm, mapGet_mapSet_other c hk]
  · intro hkey
    simp only [lookupKey] at hkey
    simp [_getComponent, Entry.elements_setElements, hkey, mapGet_mapSet_self]

/-- C17 (amended) on the sample page: a component registered under `Title` replaces
the element, and the lookup of `Title` gives it. -/
theorem defineComponent_registers_witness :
    ∃ this', defineComponent samplePage (some "Title".toList) (leaf "h2" "css" false)
        "Heading".toList = .ok this' ∧
      entryAt this' "Title".toList = some (leaf "h2" "css" false) ∧
      (∀ k, k ≠ "Title".toList → entryAt this' k = entryAt samplePage k) ∧
      _getComponent this' "Title".toList = .ok (leaf "h2" "css" false) :=
  let ⟨this', h1, h2, h3, h4⟩ :=
    (defineComponent_registers samplePage (leaf "h2" "css" false) (some "Title".toList)
      "Heading".toList _ rfl).2.2
  ⟨this', h1, h2, h3, h4 rfl⟩

/-- C17 fails as stated: after `defineComponent` with the alias `#x in y` the map
sends the alias to the component, but the lookup of `#x in y` by `_getComponent`
fails with the alias-not-found error for `y`. -/
theorem defineComponent_pattern_alias_fails :
    defineComponent (page []) (some "#x in y".toList) (leaf "h2" "css" false) "C".toList =
      .ok (page [("#x in y".toList, leaf "h2" "css" false)]) ∧
    entryAt (page [("#x in y".toList, leaf "h2" "css" false)]) "#x in y".toList =
      some (leaf "h2" "css" false) ∧
    _getComponent (page [("#x in y".toList, leaf "h2" "css" false)]) "#x in y".toList =
      .error (.noSuchElement "y".toList) :=
  ⟨rfl, rfl, rfl⟩

/-! ## The driver calls of the resolver -/

theorem _getElementOfCollectionL_spec (cur : Option Finder) (comp : Entry) (pt : ParsedToken) :
    (_getElementOfCollectionL cur comp pt).map (fun r => r.1) =
        _getElementOfCollection cur comp pt ∧
      ∀ f log, _getElementOfCollectionL cur comp pt = .ok (f, log) →
        ∀ c ∈ log, c.supported = true := by
  unfold _getElementOfCollectionL _getElementOfCollection
  cases hc : _getComponent comp pt.alias_ with
  | error e => exact ⟨rfl, fun f log h => by cases h⟩
  | ok e =>
      cases hcoll : e.isCollection with
      | false =>
          refine ⟨by simp [bind, Except.bind, hcoll, Except.map, throw, throwThe,
            MonadExceptOf.throw], ?_⟩
          intro f log h
          simp [bind, Except.bind, hcoll, throw, throwThe, MonadExceptOf.throw] at h
      | true =>
          cases hs : _getSelector e with
          | error e' =>
              refine ⟨by simp [bind, Except.bind, hcoll, hs, Except.map], ?_⟩
              intro f log h
              simp [bind, Except.bind, hcoll, hs] at h
          | ok sel =>
              cases hi : pt.innerText with
              | some s =>
                  cases ht : _isLocatorTranformable sel
                  · refine ⟨by simp [bind, Except.bind, pure, Except.pure, hcoll, hs, Except.map,
                      hi, Finder.locator, ht], ?_⟩
                    intro f log h
                    simp only [bind, Except.bind, pure, Except.pure, hcoll, hs, hi, if_true,
                      Finder.locator, ht, Bool.false_eq_true, if_false, Except.ok.injEq,
                      Prod.mk.injEq] at h
                    obtain ⟨-, rfl⟩ := h
                    intro c hc'
                    simp only [List.mem_append, List.mem_cons, List.mem_singleton,
                      List.not_mem_nil, or_false] at hc'
                    rcases hc' with (rfl | rfl) | rfl | rfl <;> rfl
                  · refine ⟨by simp [bind, Except.bind, pure, Except.pure, hcoll, hs, Except.map,
                      hi, Finder.locator, ht], ?_⟩
                    intro f log h
                    simp only [bind, Except.bind, pure, Except.pure, hcoll, hs, hi, if_true,
                      Finder.locator, ht, Except.ok.injEq, Prod.mk.injEq] at h
                    obtain ⟨-, rfl⟩ := h
                    intro c hc'
                    simp only [List.mem_append, List.mem_cons, List.mem_singleton,
                      List.not_mem_nil, or_false] at hc'
                    rcases hc' with (rfl | rfl) | rfl | rfl <;> rfl
              | none =>
                  cases hx : pt.index with
                  | some i =>
                      refine ⟨by simp [bind, Except.bind, pure, Except.pure, hcoll, hs,
                        Except.map, hi, hx], ?_⟩
                      intro f log h
                      simp only [bind, Except.bind, pure, Except.pure, hcoll, hs, hi, hx, if_true,
                        Except.ok.injEq, Prod.mk.injEq] at h
                      obtain ⟨-, rfl⟩ := h
                      intro c hc'
                      simp only [List.mem_append, List.mem_cons, List.mem_singleton,
                        List.not_mem_nil, or_false] at hc'
                      rcases hc' with rfl | rfl <;> rfl
                  | none =>
                      refine ⟨by simp [bind, Except.bind, pure, Except.pure, hcoll, hs,
                        Except.map, hi, hx], ?_⟩
                      intro f log h
                      simp only [bind, Except.bind, pure, Except.pure, hcoll, hs, hi, hx, if_true,
                        Except.ok.injEq, Prod.mk.injEq] at h
                      obtain ⟨-, rfl⟩ := h
                      intro c hc'
                      simp only [List.mem_cons, List.mem_singleton, List.not_mem_nil,
                        or_false] at hc'
                      subst hc'
                      rfl

theorem _getElementOrCollectionL_spec (cur : Option Finder) (comp : Entry) (pt : ParsedToken) :
    (_getElementOrCollectionL cur comp pt).map (fun r => r.1) =
        _getElementOrCollection cur comp pt ∧
      ∀ f log, _getElementOrCollectionL cur comp pt = .ok (f, log) →
        ∀ c ∈ log, c.supported = true := by
  unfold _getElementOrCollectionL _getElementOrCollection
  cases hc : _getComponent comp pt.alias_ with
  | error e => exact ⟨rfl, fun f log h => by cases h⟩
  | ok e =>
      cases hs : _getSelector e with
      | error e' =>
          cases hb : (e.isCollection || (rootElement cur).count)
          · refine ⟨by simp [bind, Except.bind, hs, Except.map, hb], ?_⟩
            intro f log h
            simp [bind, Except.bind, hs, hb] at h
          · refine ⟨by simp [bind, Except.bind, hs, Except.map, hb], ?_⟩
            intro f log h
            simp [bind, Except.bind, hs, hb] at h
      | ok sel =>
          cases hb : (e.isCollection || (rootElement cur).count)
          · refine ⟨by simp [bind, Except.bind, pure, Except.pure, hs, Except.map, hb], ?_⟩
            intro f log h
            simp only [bind, Except.bind, pure, Except.pure, hs, hb, Bool.false_eq_true,
              if_false, Except.ok.injEq, Prod.mk.injEq] at h
            obtain ⟨-, rfl⟩ := h
            intro c hc'
            rw [List.mem_singleton] at hc'
            subst hc'
            have hcount : (rootElement cur).count = false := by
              cases hcnt : (rootElement cur).count
              · rfl
              · simp [hcnt] at hb
            simp [DriverCall.supported, hcount]
          · refine ⟨by simp [bind, Except.bind, pure, Except.pure, hs, Except.map, hb], ?_⟩
            intro f log h
            simp only [bind, Except.bind, pure, Except.pure, hs, hb, if_true,
              Except.ok.injEq, Prod.mk.injEq] at h
            obtain ⟨-, rfl⟩ := h
            intro c hc'
            rw [List.mem_singleton] at hc'
            subst hc'
            rfl

theorem _getProtractorElementL_spec (cur : Option Finder) (comp : Entry) (token : List Char) :
    (_getProtractorElementL cur comp token).map (fun r => r.1) =
        _getProtractorElement cur comp token ∧
      ∀ f log, _getProtractorElementL cur comp token = .ok (f, log) →
        ∀ c ∈ log, c.supported = true := by
  unfold _getProtractorElementL _getProtractorElement
  simp only
  split
  · exact _getElementOfCollectionL_spec _ _ _
  · exact _getElementOrCollectionL_spec _ _ _

theorem stepL_spec (node : ComponentNode) (token : List Char) :
    (stepL node token).map (fun r => r.1) = step node token ∧
      ∀ node' log, stepL node token = .ok (node', log) → ∀ c ∈ log, c.supported = true := by
  obtain ⟨h1, h2⟩ := _getProtractorElementL_spec node.element node.component token
  unfold stepL step
  rw [← h1]
  cases hl : _getProtractorElementL node.element node.component token with
  | error e => exact ⟨rfl, fun f log h => by cases h⟩
  | ok r =>
      obtain ⟨f, log⟩ := r
      cases hc : _getComponent node.component token with
      | error e => exact ⟨rfl, fun f log h => by cases h⟩
      | ok c =>
          refine ⟨rfl, ?_⟩
          intro node' log' h
          simp only [bind, Except.bind, pure, Except.pure, Except.ok.injEq, Prod.mk.injEq] at h
          obtain ⟨-, rfl⟩ := h
          exact h2 f log hl

theorem resolveL_spec (tokens : List (List Char)) :
    ∀ (node : ComponentNode) (log : List DriverCall),
      (resolveL node log tokens).map (fun r => r.1) = resolve node tokens ∧
        ((∀ c ∈ log, c.supported = true) → ∀ node' log',
          resolveL node log tokens = .ok (node', log') → ∀ c ∈ log', c.supported = true) := by
  induction tokens with
  | nil =>
      intro node log
      refine ⟨rfl, ?_⟩
      intro hlog node' log' h
      simp only [resolveL, Except.ok.injEq, Prod.mk.injEq] at h
      obtain ⟨-, rfl⟩ := h
      exact hlog
  | cons t ts ih =>
      intro node log
      obtain ⟨h1, h2⟩ := stepL_spec node t
      simp only [resolveL, resolve, ← h1]
      cases hl : stepL node t with
      | error e => exact ⟨rfl, fun _ node' log' h => by cases h⟩
      | ok r =>
          obtain ⟨node1, log1⟩ := r
          obtain ⟨g1, g2⟩ := ih node1 (log ++ log1)
          refine ⟨g1, ?_⟩
          intro hlog node' log' h
          apply g2 _ node' log' h
          intro c hc
          rcases List.mem_append.1 hc with hc | hc
          · exact hlog c hc
          · exact h2 node1 log1 hl c hc

/-- The logged resolver returns what `getElement` returns, and all the calls it
logs are supported. -/
theorem getElementL_spec (this : Entry) (key : List Char) :
    (getElementL this key).map (fun r => r.1) = getElement this key ∧
      ∀ f log, getElementL this key = .ok (f, log) → ∀ c ∈ log, c.supported = true := by
  unfold getElementL getElement
  cases hs : split TOKEN_SPLIT_REGEXP key with
  | nil => exact ⟨rfl, fun f log h => by cases h⟩
  | cons t ts =>
      obtain ⟨h1, h2⟩ := stepL_spec ⟨none, this⟩ t
      simp only [← h1]
      cases hl : stepL ⟨none, this⟩ t with
      | error e => exact ⟨rfl, fun f log h => by cases h⟩
      | ok r =>
          obtain ⟨node1, log1⟩ := r
          obtain ⟨g1, g2⟩ := resolveL_spec ts node1 log1
          simp only [Except.map, ← g1]
          cases hr : resolveL node1 log1 ts with
          | error e => exact ⟨rfl, fun f log h => by cases h⟩
          | ok r2 =>
              obtain ⟨node2, log2⟩ := r2
              refine ⟨rfl, ?_⟩
              intro f log h
              simp only [Except.ok.injEq, Prod.mk.injEq] at h
              obtain ⟨-, rfl⟩ := h
              exact g2 (h2 node1 log1 hl) node2 log2 hr

/-- The locator of a plain hop whose entry is found. -/
theorem _getProtractorElement_plain (cur : Option Finder) (comp e : Entry) (token : List Char)
    (m : List (List Char × Entry)) (sel : By)
    (hq : (ParsedToken.new token).isElementOfCollection = false)
    (hm : comp.elements = some m) (hget : mapGet m token = some e)
    (hs : _getSelector e = .ok sel) :
    _getProtractorElement cur comp token =
      .ok (some (if e.isCollection || (rootElement cur).count
        then (rootElement cur).all sel else (rootElement cur).element sel)) := by
  have hp := ParsedToken_new_of_not_qualified hq
  have h : _getComponent comp token = .ok e := by
    simp only [_getComponent, hm, hp, hget]
  have hq' : ({ alias_ := token, index := none, innerText := none } :
      ParsedToken).isElementOfCollection = false := rfl
  simp only [_getProtractorElement, hp, hq', Bool.false_eq_true, if_false,
    _getElementOrCollection, h]
  cases hc : (e.isCollection || (rootElement cur).count) <;>
    simp [bind, Except.bind, hc, hs, pure, Except.pure]

/-- C19: with `count` a member of the multi-match finders (results of `all`, and of
`filter`) and of no single-match finder (the document root, results of `element`,
`get`, `first`), every method the resolver calls on a finder is one the finder has,
for every registry and path: the logged resolver returns what `getElement` returns
and all its calls are supported, `element` being called only on finders without
`count` and `get`, `filter`, `first`, `locator` only on finders with `count`. A
plain hop on an entry that is not a collection gives `scope.element(selector)` when
the scope root is single-match and `scope.all(selector)` when it is multi-match. -/
theorem driver_calls_supported (this : Entry) (key : List Char) :
    (getElementL this key).map (fun r => r.1) = getElement this key ∧
    (∀ f log, getElementL this key = .ok (f, log) →
      ∀ c ∈ log, c.supported = true ∧ (c.op = .element → c.receiver.count = false) ∧
        (c.op = .get ∨ c.op = .filter ∨ c.op = .first ∨ c.op = .locator →
          c.receiver.count = true)) ∧
    (∀ (cur : Option Finder) (comp e : Entry) (token : List Char)
      (m : List (List Char × Entry)) (sel : By),
      (ParsedToken.new token).isElementOfCollection = false → comp.elements = some m →
      mapGet m token = some e → e.isCollection = false → _getSelector e = .ok sel →
      ((rootElement cur).count = false →
        _getProtractorElement cur comp token = .ok (some ((rootElement cur).element sel))) ∧
      ((rootElement cur).count = true →
        _getProtractorElement cur comp token = .ok (some ((rootElement cur).all sel)))) ∧
    (∀ (f : Finder) (b : By) (i : JSNumber) (s : List Char),
      (f.all b).count = true ∧ (f.filterIncludes s).count = true ∧
      (Finder.doc b).count = false ∧ (f.element b).count = false ∧
      (f.get i).count = false ∧ f.first.count = false) := by
  obtain ⟨h1, h2⟩ := getElementL_spec this key
  refine ⟨h1, ?_, ?_, fun f b i s => ⟨rfl, rfl, rfl, rfl, rfl, rfl⟩⟩
  · intro f log h c hc
    have hsup := h2 f log h c hc
    refine ⟨hsup, ?_, ?_⟩
    · intro hop
      simpa [DriverCall.supported, hop] using hsup
    · intro hop
      rcases hop with hop | hop | hop | hop <;>
        simpa [DriverCall.supported, hop] using hsup
  · intro cur comp e token m sel hq hm hget hcoll hs
    have h := _getProtractorElement_plain cur comp e token m sel hq hm hget hs
    constructor
    · intro hcount
      rw [h, hcoll, hcount]
      rfl
    · intro hcount
      rw [h, hcoll, hcount]
      rfl

/-- C19 at the path `"Rows > Cell"` on the sample page: the calls are `all` on the
document root and `all` on the multi-match finder of `Rows`. -/
theorem driver_calls_supported_witness :
    getElementL samplePage "Rows > Cell".toList =
      .ok (some (((Finder.doc (.css "html".toList)).all (.css "tr".toList)).all
          (.css "td".toList)),
        [⟨.all, .doc (.css "html".toList)⟩,
          ⟨.all, (Finder.doc (.css "html".toList)).all (.css "tr".toList)⟩]) ∧
      (DriverCall.mk .all ((Finder.doc (.css "html".toList)).all
        (.css "tr".toList))).supported = true :=
  ⟨rfl, ((driver_calls_supported samplePage "Rows > Cell".toList).2.1 _ _ rfl
    ⟨.all, (Finder.doc (.css "html".toList)).all (.css "tr".toList)⟩ (by decide)).1⟩

/-! ## The first match, part by part -/

/-- The first match of `p+` is the longest: what it leaves does not start with a
character of the class. -/
theorem plusRests_head {p : Char → Bool} :
    ∀ {s r : List Char}, (plusRests p s).head? = some r → ∀ x t, r = x :: t → p x = false
  | [], r, h => by simp [plusRests] at h
  | c :: s, r, h => by
      unfold plusRests at h
      by_cases hc : p c = true
      · rw [if_pos hc] at h
        cases hs : plusRests p s with
        | nil =>
            rw [hs] at h
            simp only [List.nil_append, List.head?_cons, Option.some.injEq] at h
            subst h
            intro x t hx
            subst hx
            cases hx' : p x with
            | false => rfl
            | true => simp [plusRests, hx'] at hs
        | cons a l =>
            rw [hs] at h
            simp only [List.cons_append, List.head?_cons, Option.some.injEq] at h
            subst h
            exact plusRests_head (by rw [hs]; rfl)
      · rw [if_neg hc] at h
        simp at h

/-- The first match of `\s+(.+)`: the longest white space after which a character
other than a line terminator follows, then the longest run of such characters. -/
theorem aliasRe_head {r2 rest : List Char} {c2 caps : Caps}
    (h : ((Re.seq (.plus isSpace) (.cap 3 (.plus isDot))).run r2 c2).head? =
      some (rest, caps)) :
    ∃ sp2 al, r2 = sp2 ++ (al ++ rest) ∧ sp2 ≠ [] ∧ (∀ x ∈ sp2, isSpace x = true) ∧
      al ≠ [] ∧ (∀ x ∈ al, isDot x = true) ∧ caps = c2.set 3 al ∧
      (∀ x t, rest = x :: t → isDot x = false) ∧
      (∀ sp2' al' rest', r2 = sp2' ++ (al' ++ rest') → sp2' ≠ [] →
        (∀ x ∈ sp2', isSpace x = true) → al' ≠ [] → (∀ x ∈ al', isDot x = true) →
        sp2'.length ≤ sp2.length) := by
  rw [run_seq, run_plus, List.flatMap_map] at h
  obtain ⟨l1, r3, l2, hl, h1, h2⟩ := head?_flatMap_split h
  have hr3 : r3 ∈ plusRests isSpace r2 := by rw [hl]; simp
  obtain ⟨sp2, hsp2, rfl, hsp2s⟩ := mem_plusRests.1 hr3
  simp only [run_cap, run_plus, List.map_map, List.head?_map, Option.map_eq_some'] at h2
  obtain ⟨r, hr, heq⟩ := h2
  simp only [Function.comp, Prod.mk.injEq] at heq
  obtain ⟨rfl, rfl⟩ := heq
  obtain ⟨al, hal, rfl, hald⟩ := mem_plusRests.1 (List.mem_of_mem_head? hr)
  refine ⟨sp2, al, rfl, hsp2, hsp2s, hal, hald, by rw [take_length_sub],
    plusRests_head hr, ?_⟩
  intro sp2' al' rest' heq g1 g2 g3 g4
  by_contra hlt
  push_neg at hlt
  have hr' : al' ++ rest' ∈ plusRests isSpace (sp2 ++ (al ++ r)) :=
    mem_plusRests.2 ⟨sp2', g1, heq, g2⟩
  have hlen : (al' ++ rest').length < (al ++ r).length := by
    have hh := congrArg List.length heq
    simp only [List.length_append] at hh ⊢
    omega
  have hmem := plusRests_before hl hr' hlen
  have hnil : (Re.cap 3 (.plus isDot)).run (al' ++ rest') c2 = [] := h1 _ hmem
  have hin : (rest', c2.set 3 al') ∈ (Re.cap 3 (.plus isDot)).run (al' ++ rest') c2 :=
    mem_run_cap.2 ⟨c2, mem_run_plus.2 ⟨⟨al', g3, rfl, g4⟩, rfl⟩, by rw [take_length_sub]⟩
  rw [hnil] at hin
  cases hin

/-- The first match of `\s+(in|of)\s+(.+)`. -/
theorem tailRe_head {r0 rest : List Char} {c caps : Caps}
    (h : (tailRe.run r0 c).head? = some (rest, caps)) :
    ∃ sp1 k sp2 al, r0 = sp1 ++ (k ++ (sp2 ++ (al ++ rest))) ∧ sp1 ≠ [] ∧
      (∀ x ∈ sp1, isSpace x = true) ∧ isKeyword k = true ∧ sp2 ≠ [] ∧
      (∀ x ∈ sp2, isSpace x = true) ∧ al ≠ [] ∧ (∀ x ∈ al, isDot x = true) ∧
      caps = (c.set 2 k).set 3 al ∧
      (∀ x t, rest = x :: t → isDot x = false) ∧
      (∀ sp2' al' rest', sp2 ++ (al ++ rest) = sp2' ++ (al' ++ rest') → sp2' ≠ [] →
        (∀ x ∈ sp2', isSpace x = true) → al' ≠ [] → (∀ x ∈ al', isDot x = true) →
        sp2'.length ≤ sp2.length) := by
  unfold tailRe at h
  rw [run_seq] at h
  obtain ⟨l1, a, l2, hl, -, h2⟩ := head?_flatMap_split h
  obtain ⟨r1, c1⟩ := a
  have ha : (r1, c1) ∈ (Re.plus isSpace).run r0 c := by rw [hl]; simp
  obtain ⟨⟨sp1, hsp1, rfl, hsp1s⟩, rfl⟩ := mem_run_plus.1 ha
  simp only [] at h2
  rw [run_seq] at h2
  obtain ⟨m1, b, m2, hm, -, h3⟩ := head?_flatMap_split h2
  obtain ⟨r2, c2⟩ := b
  have hb : (r2, c2) ∈ (Re.cap 2 (.alt (.lit ['i', 'n']) (.lit ['o', 'f']))).run r1 c1 := by
    rw [hm]; simp
  obtain ⟨c2', hb', rfl⟩ := mem_run_cap.1 hb
  have hk : ∃ k, isKeyword k = true ∧ r1 = k ++ r2 ∧ c2' = c1 := by
    rcases mem_run_alt.1 hb' with h4 | h4
    · obtain ⟨h5, h6⟩ := mem_run_lit.1 h4
      exact ⟨_, by decide, h5, h6⟩
    · obtain ⟨h5, h6⟩ := mem_run_lit.1 h4
      exact ⟨_, by decide, h5, h6⟩
  obtain ⟨k, hk, rfl, rfl⟩ := hk
  simp only [] at h3
  obtain ⟨sp2, al, rfl, g1, g2, g3, g4, rfl, g5, g6⟩ := aliasRe_head h3
  exact ⟨sp1, k, sp2, al, rfl, hsp1, hsp1s, hk, g1, g2, g3, g4, by rw [take_length_sub],
    g5, g6⟩

theorem keyword_head_not_space {k : List Char} (hk : isKeyword k = true) :
    ∃ a b, k = [a, b] ∧ isSpace a = false := by
  rcases isKeyword_iff.1 hk with rfl | rfl
  · exact ⟨_, _, rfl, by decide⟩
  · exact ⟨_, _, rfl, by decide⟩

/-- White space followed by a keyword is read in one way only. -/
theorem spaces_keyword_cancel :
    ∀ {sp sp' k k' x x' : List Char}, (∀ y ∈ sp, isSpace y = true) →
      (∀ y ∈ sp', isSpace y = true) → isKeyword k = true → isKeyword k' = true →
      sp ++ (k ++ x) = sp' ++ (k' ++ x') → sp = sp' ∧ k = k' ∧ x = x'
  | [], [], k, k', x, x', _, _, hk, hk', h => by
      obtain ⟨a, b, rfl, -⟩ := keyword_head_not_space hk
      obtain ⟨a', b', rfl, -⟩ := keyword_head_not_space hk'
      simp only [List.nil_append, List.cons_append, List.cons.injEq] at h
      obtain ⟨rfl, rfl, rfl⟩ := h
      exact ⟨rfl, rfl, rfl⟩
  | [], c :: sp', k, k', x, x', _, h2, hk, _, h => by
      obtain ⟨a, b, rfl, ha⟩ := keyword_head_not_space hk
      simp only [List.nil_append, List.cons_append, List.cons.injEq] at h
      rw [h.1, h2 c (List.mem_cons_self _ _)] at ha
      cases ha
  | c :: sp, [], k, k', x, x', h1, _, _, hk', h => by
      obtain ⟨a, b, rfl, ha⟩ := keyword_head_not_space hk'
      simp only [List.nil_append, List.cons_append, List.cons.injEq] at h
      rw [← h.1, h1 c (List.mem_cons_self _ _)] at ha
      cases ha
  | c :: sp, d :: sp', k, k', x, x', h1, h2, hk, hk', h => by
      simp only [List.cons_append, List.cons.injEq] at h
      obtain ⟨rfl, h⟩ := h
      obtain ⟨rfl, rfl, rfl⟩ := spaces_keyword_cancel
        (fun y hy => h1 y (List.mem_cons_of_mem _ hy))
        (fun y hy => h2 y (List.mem_cons_of_mem _ hy)) hk hk' h
      exact ⟨rfl, rfl, rfl⟩

/-- The match `exec` gives is the leftmost: the expression matches at no earlier
position. -/
theorem exec_first {r : Re} :
    ∀ {t pre rest : List Char} {caps : Caps}, r.exec t = some (pre, rest, caps) →
      ∀ p s, t = p ++ s → p.length < pre.length → r.run s Caps.empty = []
  | [], pre, rest, caps, h => by
      simp only [Re.exec, Re.matchHere, Option.map_eq_some'] at h
      obtain ⟨m, -, heq⟩ := h
      simp only [Prod.mk.injEq] at heq
      obtain ⟨rfl, -, -⟩ := heq
      intro p s _ hlen
      simp at hlen
  | x :: t, pre, rest, caps, h => by
      simp only [Re.exec] at h
      cases hm : r.matchHere (x :: t) with
      | some m =>
          simp only [hm, Option.some.injEq, Prod.mk.injEq] at h
          obtain ⟨rfl, -, -⟩ := h
          intro p s _ hlen
          simp at hlen
      | none =>
          simp only [hm, Option.map_eq_some'] at h
          obtain ⟨⟨pre', rest', caps'⟩, he, heq⟩ := h
          simp only [Prod.mk.injEq] at heq
          obtain ⟨rfl, rfl, rfl⟩ := heq
          intro p s hps hlen
          cases p with
          | nil =>
              simp only [List.nil_append] at hps
              subst hps
              simpa [Re.matchHere] using hm
          | cons y p' =>
              simp only [List.cons_append, List.cons.injEq] at hps
              simp only [List.length_cons, Nat.add_lt_add_iff_right] at hlen
              exact exec_first he p' s hps.2 hlen

theorem Reading.dots {s v sp1 k sp2 al rest : List Char} (h : Reading s v sp1 k sp2 al rest) :
    (∀ x ∈ v, isDot x = true) ∧ (∀ x ∈ al, isDot x = true) :=
  ⟨fun x hx => by simp [isDot, h.2.2.1 x hx],
    fun x hx => by simp [isDot, h.2.2.2.2.2.2.2.2.2 x hx]⟩

/-- The first match at a `#`, part by part: the longest value after which the rest
of the expression matches, and the first match of that rest. -/
theorem regexp_head_parts {s rest : List Char} {c caps : Caps}
    (h : (ELEMENT_OF_COLLECTION_REGEXP.run ('#' :: s) c).head? = some (rest, caps)) :
    ∃ v r0, s = v ++ r0 ∧ v ≠ [] ∧ (∀ x ∈ v, isDot x = true) ∧
      (tailRe.run r0 (c.set 1 v)).head? = some (rest, caps) ∧
      ∀ r ∈ plusRests isDot s, r.length < r0.length → ∀ c', tailRe.run r c' = [] := by
  rw [regexp_run_cons, head?_valueRests_flatMap] at h
  obtain ⟨l1, r0, l2, hl, h1, h2⟩ := head?_flatMap_split h
  have hr0 : r0 ∈ plusRests isDot s := by rw [hl]; simp
  obtain ⟨v, hv, hs, hvd⟩ := mem_plusRests.1 hr0
  refine ⟨v, r0, hs, hv, hvd, ?_, ?_⟩
  · have h3 : (tailRe.run r0 (c.set 1 (s.take (s.length - r0.length)))).head? =
        some (rest, caps) := h2
    rw [hs, take_length_sub] at h3
    exact h3
  · intro r hr hlen c'
    have hmem := plusRests_before hl hr hlen
    have hnil := h1 r hmem
    cases hc : tailRe.run r c' with
    | nil => rfl
    | cons m l =>
        exact absurd hnil (tailRe_run_caps _ (by rw [hc]; simp))

/-- The match of the regular expression in a token, in full: it starts at the
leftmost `#` after which the text has a reading, takes the reading with the longest
VALUE and, for that VALUE, the longest white space after the keyword, and its ALIAS
ends at the end of the token or before a line terminator. -/
theorem exec_greedy {t pre rest : List Char} {caps : Caps}
    (he : ELEMENT_OF_COLLECTION_REGEXP.exec t = some (pre, rest, caps)) :
    ∃ s v sp1 k sp2 al, t = pre ++ '#' :: s ∧ Reading s v sp1 k sp2 al rest ∧
      caps = ((Caps.empty.set 1 v).set 2 k).set 3 al ∧
      (∀ x r, rest = x :: r → isLineTerminator x = true) ∧
      (∀ p s', t = p ++ '#' :: s' → p.length < pre.length →
        ∀ v' sp1' k' sp2' al' rest', ¬ Reading s' v' sp1' k' sp2' al' rest') ∧
      (∀ v' sp1' k' sp2' al' rest', Reading s v' sp1' k' sp2' al' rest' →
        v'.length ≤ v.length ∧ (v'.length = v.length → sp2'.length ≤ sp2.length)) := by
  obtain ⟨s0, ht, hhead⟩ := exec_some_head he
  have hfirst := exec_first he
  cases s0 with
  | nil => simp [regexp_run_nil] at hhead
  | cons y s =>
      by_cases hy : y = '#'
      swap
      · simp [regexp_run_not_hash s Caps.empty hy] at hhead
      subst hy
      obtain ⟨v, r0, rfl, hv, hvd, hhd, hmax⟩ := regexp_head_parts hhead
      obtain ⟨sp1, k, sp2, al, rfl, h1, h2, h3, h4, h5, h6, h7, rfl, h8, h9⟩ :=
        tailRe_head hhd
      refine ⟨v ++ (sp1 ++ (k ++ (sp2 ++ (al ++ rest)))), v, sp1, k, sp2, al, ht,
        ⟨rfl, hv, fun x hx => by simpa [isDot] using hvd x hx, h1, h2, h3, h4, h5, h6,
          fun x hx => by simpa [isDot] using h7 x hx⟩, rfl, ?_, ?_, ?_⟩
      · intro x r hx
        simpa [isDot] using h8 x r hx
      · intro p s' hps hlen v' sp1' k' sp2' al' rest' hR
        have hrun := hfirst p ('#' :: s') hps hlen
        have hd := Reading.dots hR
        obtain ⟨heq, g1, -, g3, g4, g5, g6, g7, g8, -⟩ := hR
        have hin := @regexp_run_of_shape v' sp1' k' sp2' al' rest' Caps.empty g1 hd.1
          g3 g4 g5 g6 g7 g8 hd.2
        rw [← heq, hrun] at hin
        cases hin
      · intro v' sp1' k' sp2' al' rest' hR
        have hd := Reading.dots hR
        obtain ⟨heq, g1, -, g3, g4, g5, g6, g7, g8, -⟩ := hR
        have hle : v'.length ≤ v.length := by
          by_contra hlt
          push_neg at hlt
          have hr : sp1' ++ (k' ++ (sp2' ++ (al' ++ rest'))) ∈
              plusRests isDot (v ++ (sp1 ++ (k ++ (sp2 ++ (al ++ rest))))) :=
            mem_plusRests.2 ⟨v', g1, heq, hd.1⟩
          have hlen : (sp1' ++ (k' ++ (sp2' ++ (al' ++ rest')))).length <
              (sp1 ++ (k ++ (sp2 ++ (al ++ rest)))).length := by
            have hh := congrArg List.length heq
            simp only [List.length_append] at hh ⊢
            omega
          have hnil := hmax _ hr hlen Caps.empty
          have hin := (@mem_tailRe_run (sp1' ++ (k' ++ (sp2' ++ (al' ++ rest')))) rest'
            Caps.empty _).2 ⟨sp1', k', sp2', al', rfl, g3, g4, g5, g6, g7, g8, hd.2, rfl⟩
          rw [hnil] at hin
          cases hin
        refine ⟨hle, fun hlen => ?_⟩
        obtain ⟨hvv, hrest⟩ := List.append_inj heq hlen.symm
        obtain ⟨-, -, hrest'⟩ := spaces_keyword_cancel h2 g4 h3 g5 hrest
        exact h9 sp2' al' rest' hrest' g6 g7 g8 hd.2

/-- The parse of a qualified token, in full. -/
theorem ParsedToken_new_greedy (t : List Char)
    (hq : (ParsedToken.new t).isElementOfCollection = true) :
    ∃ pre s v sp1 k sp2 al rest, t = pre ++ '#' :: s ∧ Reading s v sp1 k sp2 al rest ∧
      ParsedToken.new t =
        { alias_ := al
          index := if k = ['o', 'f'] then some (parseInt v) else none
          innerText := if k = ['i', 'n'] then some v else none } ∧
      (∀ x r, rest = x :: r → isLineTerminator x = true) ∧
      (∀ p s', t = p ++ '#' :: s' → p.length < pre.length →
        ∀ v' sp1' k' sp2' al' rest', ¬ Reading s' v' sp1' k' sp2' al' rest') ∧
      (∀ v' sp1' k' sp2' al' rest', Reading s v' sp1' k' sp2' al' rest' →
        v'.length ≤ v.length ∧ (v'.length = v.length → sp2'.length ≤ sp2.length)) := by
  cases he : ELEMENT_OF_COLLECTION_REGEXP.exec t with
  | none => simp [ParsedToken.new, he, ParsedToken.isElementOfCollection] at hq
  | some r =>
      obtain ⟨pre, rest, caps⟩ := r
      obtain ⟨s, v, sp1, k, sp2, al, ht, hR, rfl, h1, h2, h3⟩ := exec_greedy he
      refine ⟨pre, s, v, sp1, k, sp2, al, rest, ht, hR, ?_, h1, h2, h3⟩
      simp only [ParsedToken.new, he]
      simp [group, Caps.set]

/-! ## Claims on the capture of values -/

/-- C14 (amended): VALUE is captured greedily. The parse of every qualified token is
a reading of the text after a `#` of the token as VALUE, white space, keyword, white
space, ALIAS and a rest: the captured value is VALUE verbatim, which starts with the
character right after the `#`, a leading `!` or `$` included, and the alias is ALIAS.
The `#` is the leftmost one after which the text has a reading; the reading is the
one with the longest VALUE and, for that VALUE, with the longest white space after
the keyword; and ALIAS ends at the end of the token or before a line terminator. -/
theorem value_captured_greedily (t : List Char)
    (hq : (ParsedToken.new t).isElementOfCollection = true) :
    ∃ pre s v sp1 k sp2 al rest, t = pre ++ '#' :: s ∧ Reading s v sp1 k sp2 al rest ∧
      ParsedToken.new t =
        { alias_ := al
          index := if k = ['o', 'f'] then some (parseInt v) else none
          innerText := if k = ['i', 'n'] then some v else none } ∧
      (∀ x w, s = x :: w → ∃ u, v = x :: u) ∧
      (∀ x r, rest = x :: r → isLineTerminator x = true) ∧
      (∀ p s', t = p ++ '#' :: s' → p.length < pre.length →
        ∀ v' sp1' k' sp2' al' rest', ¬ Reading s' v' sp1' k' sp2' al' rest') ∧
      (∀ v' sp1' k' sp2' al' rest', Reading s v' sp1' k' sp2' al' rest' →
        v'.length ≤ v.length ∧ (v'.length = v.length → sp2'.length ≤ sp2.length)) := by
  obtain ⟨pre, s, v, sp1, k, sp2, al, rest, ht, hR, hp, h1, h2, h3⟩ :=
    ParsedToken_new_greedy t hq
  refine ⟨pre, s, v, sp1, k, sp2, al, rest, ht, hR, hp, ?_, h1, h2, h3⟩
  intro x w hs
  obtain ⟨heq, hv, -⟩ := hR
  cases v with
  | nil => exact absurd rfl hv
  | cons y u =>
      rw [hs, List.cons_append, List.cons.injEq] at heq
      exact ⟨u, by rw [heq.1]⟩

/-- C14 (amended) at `"#!a in b in c"`: the value is `!a in b`, the alias `c`. -/
theorem value_captured_greedily_witness :
    ∃ pre s v sp1 k sp2 al rest, "#!a in b in c".toList = pre ++ '#' :: s ∧
      Reading s v sp1 k sp2 al rest ∧ v = "!a in b".toList ∧ k = "in".toList ∧
      al = "c".toList := by
  obtain ⟨pre, s, v, sp1, k, sp2, al, rest, ht, hR, hp, -⟩ :=
    value_captured_greedily "#!a in b in c".toList (by decide)
  have h0 : ParsedToken.new "#!a in b in c".toList =
      { alias_ := "c".toList, index := none, innerText := some "!a in b".toList } := by
    decide
  rw [h0] at hp
  have hal := congrArg ParsedToken.alias_ hp
  have hin := congrArg ParsedToken.innerText hp
  simp only at hal hin
  by_cases hk : k = ['i', 'n']
  · rw [if_pos hk] at hin
    exact ⟨pre, s, v, sp1, k, sp2, al, rest, ht, hR, (Option.some.inj hin).symm, hk,
      hal.symm⟩
  · rw [if_neg hk] at hin
    cases hin

/-- C15 (amended): a token whose parse has an index, whatever the value before `of`
is, raises no error of its own. The parse is the reading of the text after the
leftmost `#` that has one, with the longest VALUE; its keyword is `of` and its
index is `Number.parseInt` of VALUE: `NaN` for `abc` and `!2`, and 2 for `2nd`. When
the resolver finds the alias mapped to a collection whose selector translates to
`sel`, the hop gives `root.all(sel).get(index - 1)`, which is `get(NaN)` when the
index is `NaN`. -/
theorem index_hop_any_value (cur : Option Finder) (comp e : Entry) (token : List Char)
    (m : List (List Char × Entry)) (sel : By)
    (hi : (ParsedToken.new token).hasTokenOf = true)
    (hm : comp.elements = some m)
    (hget : mapGet m (lookupKey (ParsedToken.new token).alias_) = some e)
    (hc : e.isCollection = true) (hs : _getSelector e = .ok sel) :
    ∃ pre s v sp1 sp2 al rest, token = pre ++ '#' :: s ∧
      Reading s v sp1 ['o', 'f'] sp2 al rest ∧
      (∀ p s', token = p ++ '#' :: s' → p.length < pre.length →
        ∀ v' sp1' k' sp2' al' rest', ¬ Reading s' v' sp1' k' sp2' al' rest') ∧
      (∀ v' sp1' k' sp2' al' rest', Reading s v' sp1' k' sp2' al' rest' →
        v'.length ≤ v.length) ∧
      ParsedToken.new token =
        { alias_ := al, index := some (parseInt v), innerText := none } ∧
      _getProtractorElement cur comp token =
        .ok (some (((rootElement cur).all sel).get (parseInt v).pred)) ∧
      (parseInt v = .nan → _getProtractorElement cur comp token =
        .ok (some (((rootElement cur).all sel).get .nan))) ∧
      parseInt "abc".toList = .nan ∧ parseInt "!2".toList = .nan ∧
      parseInt "2nd".toList = .int 2 := by
  have hq : (ParsedToken.new token).isElementOfCollection = true := by
    simp only [ParsedToken.hasTokenOf] at hi
    simp [ParsedToken.isElementOfCollection, hi]
  obtain ⟨pre, s, v, sp1, k, sp2, al, rest, ht, hR, hp, -, h2, h3⟩ :=
    ParsedToken_new_greedy token hq
  have hk : k = ['o', 'f'] := by
    by_contra hk
    rw [hp] at hi
    simp [ParsedToken.hasTokenOf, hk] at hi
  subst hk
  have hp' : ParsedToken.new token =
      { alias_ := al, index := some (parseInt v), innerText := none } := by
    rw [hp]
    simp
  have hhop : _getProtractorElement cur comp token =
      .ok (some (((rootElement cur).all sel).get (parseInt v).pred)) := by
    have hidx : (ParsedToken.new token).index = some (parseInt v) := by rw [hp']
    have hin : (ParsedToken.new token).innerText = none := by rw [hp']
    simp only [_getProtractorElement, hq, if_true, _getElementOfCollection,
      _getComponent_lookupKey hm hget, hidx, hin]
    simp [bind, Except.bind, hc, hs, pure, Except.pure]
  refine ⟨pre, s, v, sp1, sp2, al, rest, ht, hR, h2, fun v' sp1' k' sp2' al' rest' h =>
    (h3 v' sp1' k' sp2' al' rest' h).1, hp', hhop, ?_, rfl, rfl, rfl⟩
  intro hnan
  rw [hhop, hnan]
  rfl

/-- C15 (amended) at `"#abc of Buttons"` on the sample page. -/
theorem index_hop_any_value_witness :
    _getProtractorElement none samplePage "#abc of Buttons".toList =
      .ok (some (((Finder.doc (.css "html".toList)).all (.css ".btn".toList)).get .nan)) := by
  obtain ⟨pre, s, v, sp1, sp2, al, rest, -, -, -, -, hp, -, hnan, -⟩ :=
    index_hop_any_value none samplePage (leaf ".btn" "css" true) "#abc of Buttons".toList
      [("Buttons".toList, leaf ".btn" "css" true),
        ("Title".toList, leaf "//h1" "xpath" false),
        ("Header".toList, component "header" false
          [("Links".toList, leaf "a" "css" true), ("XLinks".toList, leaf "//a" "xpath" true)]),
        ("Rows".toList, component "tr" true [("Cell".toList, leaf "td" "css" false)])]
      (.css ".btn".toList) rfl rfl rfl rfl rfl
  have h0 : (ParsedToken.new "#abc of Buttons".toList).index = some .nan := rfl
  rw [hp] at h0
  exact hnan (Option.some.inj h0)

/-! ## The fetches of the fallback scan -/

theorem filterByTextFrom_eq {α : Type} (text : α → List Char) (s : List Char) :
    ∀ (elements : List α) (i : Nat),
      (filterByTextFrom text s i elements).1 = filterByText text elements s ∧
        (filterByTextFrom text s i elements).2 = List.range' i elements.length
  | [], i => ⟨rfl, rfl⟩
  | x :: xs, i => by
      obtain ⟨h1, h2⟩ := filterByTextFrom_eq text s xs (i + 1)
      simp only [filterByTextFrom, h1, h2, filterByText, List.length_cons, List.range'_succ]
      cases hx : includes (text x) s <;> simp [List.filter, hx]

theorem firstOf_filterByText {α : Type} (text : α → List Char) (s : List Char)
    (elements : List α) :
    firstOf (filterByText text elements s) =
      elements.find? (fun x => includes (text x) s) := by
  unfold firstOf filterByText
  induction elements with
  | nil => rfl
  | cons x xs ih =>
      cases hx : includes (text x) s <;> simp [List.filter, List.find?, hx, ih]

/-- C18 (amended): in the fallback text scan the resolver builds
`root.all(sel).filter(pred).first()`. On a collection given as the list of its
elements in document order, `filter` calls the predicate on every element, in
collection order, so the text of every element is fetched, once and in that order,
also the texts of the elements after the first match; `first` then yields the first
element whose text contains the substring. -/
theorem fallback_scan_fetches_all (cur : Option Finder) (comp e : Entry)
    (token s : List Char) (m : List (List Char × Entry)) (sel : By)
    (hi : (ParsedToken.new token).innerText = some s)
    (hm : comp.elements = some m)
    (hget : mapGet m (lookupKey (ParsedToken.new token).alias_) = some e)
    (hc : e.isCollection = true)
    (ht : _isLocatorTranformable sel = false)
    (hs : _getSelector e = .ok sel) :
    _getProtractorElement cur comp token =
        .ok (some (((rootElement cur).all sel).filterIncludes s).first) ∧
      ∀ (α : Type) (text : α → List Char) (elements : List α),
        (filterByTextL text elements s).1 = filterByText text elements s ∧
          (filterByTextL text elements s).2 = List.range elements.length ∧
          firstOf (filterByTextL text elements s).1 =
            elements.find? (fun x => includes (text x) s) ∧
          ∀ j, j < elements.length → j ∈ (filterByTextL text elements s).2 := by
  constructor
  · rw [text_hop cur comp e token s m sel hi hm hget hc hs, ht]
    rfl
  · intro α text elements
    obtain ⟨h1, h2⟩ := filterByTextFrom_eq text s elements 0
    have h3 : (filterByTextL text elements s).2 = List.range elements.length := by
      rw [List.range_eq_range']
      exact h2
    refine ⟨h1, h3, ?_, ?_⟩
    · have h4 : (filterByTextL text elements s).1 = filterByText text elements s := h1
      rw [h4, firstOf_filterByText]
    · intro j hj
      rw [h3]
      exact List.mem_range.2 hj

/-- C18 (amended) at the hop `"#Home in XLinks"` under the header of the sample
page. -/
theorem fallback_scan_fetches_all_witness :
    _getProtractorElement
        (some ((Finder.doc (.css "html".toList)).element (.css "header".toList)))
        (component "header" false
          [("Links".toList, leaf "a" "css" true), ("XLinks".toList, leaf "//a" "xpath" true)])
        "#Home in XLinks".toList =
      .ok (some ((((Finder.doc (.css "html".toList)).element (.css "header".toList)).all
        (.xpath "//a".toList)).filterIncludes "Home".toList).first) :=
  (fallback_scan_fetches_all
    (some ((Finder.doc (.css "html".toList)).element (.css "header".toList)))
    (component "header" false
      [("Links".toList, leaf "a" "css" true), ("XLinks".toList, leaf "//a" "xpath" true)])
    (leaf "//a" "xpath" true) "#Home in XLinks".toList "Home".toList
    [("Links".toList, leaf "a" "css" true), ("XLinks".toList, leaf "//a" "xpath" true)]
    (.xpath "//a".toList) rfl rfl rfl rfl rfl rfl).1

/-- C18 fails as stated: in the collection with the texts `Home`, `About` and
`Home2` the element at position 0 is the first whose text contains `Home`, it is
what the scan yields, and the texts at the positions 1 and 2 are fetched. -/
theorem fallback_scan_short_circuit_fails :
    includes "Home".toList "Home".toList = true ∧
    firstOf (filterByTextL id ["Home".toList, "About".toList, "Home2".toList]
      "Home".toList).1 = some "Home".toList ∧
    (filterByTextL id ["Home".toList, "About".toList, "Home2".toList] "Home".toList).2 =
      [0, 1, 2] ∧
    1 ∈ (filterByTextL id ["Home".toList, "About".toList, "Home2".toList]
      "Home".toList).2 ∧
    2 ∈ (filterByTextL id ["Home".toList, "About".toList, "Home2".toList]
      "Home".toList).2 := by
  decide

end AbstractPage
